import Mathlib

/-!
# MAPS allocator (`allocator.c`, `allocator.h`): a shallow embedding

The allocator keeps one global, intrusive, singly linked chain of block headers
(`struct mem_block`), threaded through the regions it obtained with `mmap`.

Embedding choices.

* Pointers are natural numbers, `0` is `NULL`.  Block headers live in a header store
  `heap : Nat → Option mem_block` keyed by the header address; `none` means that no header
  is readable there (never written, or its region has been unmapped).  Dereferencing such an
  address is a fault, and the operation returns `none`.  Two headers at the same address are
  the same header, so a header written over an existing block replaces it.
* Payload bytes live in `bytes : Nat → Nat`; a byte is readable only inside a live mapping
  (`load`), and `memcpy` faults when its source or destination range leaves the live
  mappings (`readable`).  Headers and payload bytes are kept in two stores: a header that only partly
  overlaps another header or a payload is outside the model (it needs a size computation
  that wraps `size_t`).
* `size_t` / `unsigned long` arithmetic is arithmetic modulo `2 ^ 64`; pointer arithmetic is
  plain addition.
* Every loop of the source becomes a recursion on a fuel argument; running out of fuel
  returns `none`.
* The operating system is a parameter: `mm` is what `mmap` would return on success
  (`none` is `MAP_FAILED`), `munmap` succeeds, the environment variables and the page size
  are fields of `Env`.
* The mutex is not part of the state.  Its use is modelled by the trace of lock, unlock and
  state-access events that an operation emits along the path it takes (`malloc_events`,
  `free_events`, `calloc_events`, `realloc_events`); there the result of `munmap` is a
  parameter.  Interleavings of several threads are outside the model.
* The log output and the `name` field (never read by the allocator) are left out.
-/

namespace MAPS

/-- Modulus of `size_t` and `unsigned long` (LP64). -/
def WORD : Nat := 2 ^ 64

/-- The constant `SIZE_MAX`. -/
def SIZE_MAX : Nat := WORD - 1

/-- The value of `sizeof(struct mem_block)` on LP64:
    `alloc_id` 8, `name` 32, `size` 8, `usage` 8, `region_start` 8, `region_size` 8, `next` 8. -/
def HEADER_SIZE : Nat := 80

/-- Unsigned addition modulo `2 ^ 64`. -/
def wadd (a b : Nat) : Nat := (a + b) % WORD

/-- Unsigned subtraction modulo `2 ^ 64` (operands below `2 ^ 64`). -/
def wsub (a b : Nat) : Nat := (a + WORD - b) % WORD

/-- Unsigned multiplication modulo `2 ^ 64`. -/
def wmul (a b : Nat) : Nat := (a * b) % WORD

/-- The header record `struct mem_block` of `allocator.h` (without `name`). -/
structure mem_block where
  alloc_id : Nat
  size : Nat
  usage : Nat
  region_start : Nat
  region_size : Nat
  next : Nat
deriving DecidableEq, Repr, Inhabited

/-- The header store: the header readable at an address, if any. -/
abbrev Heap := Nat → Option mem_block

/-- Write a header at an address. -/
def store (h : Heap) (a : Nat) (b : mem_block) : Heap :=
  fun x => if x = a then some b else h x

/-- Drop every header inside the unmapped range `[start, start + len)`. -/
def dropRange (h : Heap) (start len : Nat) : Heap :=
  fun x => if start ≤ x ∧ x < start + len then none else h x

/-- What the process environment and the operating system tell the allocator. -/
structure Env where
  ALLOCATOR_ALGORITHM : Option String
  ALLOCATOR_SCRIBBLE : Option Int
  page_size : Nat

/-- The allocator state: the globals `g_head`, `g_allocations`, the header store, the payload
    bytes, the live mappings `(start, length)` and the log of `munmap` calls. -/
structure State where
  g_head : Nat
  g_allocations : Nat
  heap : Heap
  bytes : Nat → Nat
  mapped : List (Nat × Nat)
  unmapped : List (Nat × Nat)

/-- The initial state: `g_head = NULL`, `g_allocations = 0`, nothing mapped. -/
def State.empty : State :=
  { g_head := 0, g_allocations := 0, heap := fun _ => none, bytes := fun _ => 0,
    mapped := [], unmapped := [] }

/-- The function `split`: claim a free block in place, or carve a new block behind the used part. -/
def split (s : State) (ptr : Nat) (size : Nat) : Option (State × Nat) :=
  match s.heap ptr with
  | none => none
  | some p =>
    if p.usage = 0 then
      some ({ s with
                g_allocations := wadd s.g_allocations 1
                heap := store s.heap ptr { p with alloc_id := s.g_allocations, usage := size } },
            ptr)
    else
      let new := ptr + p.usage
      let nb : mem_block :=
        { alloc_id := s.g_allocations
          size := wsub p.size p.usage
          usage := size
          region_start := p.region_start
          region_size := p.region_size
          next := p.next }
      some ({ s with
                g_allocations := wadd s.g_allocations 1
                heap := store (store s.heap new nb) ptr { p with size := p.usage, next := new } },
            new)

/-- The loop of `firstFit`, started at `iter`. -/
def firstFit_loop (h : Heap) (size : Nat) : Nat → Nat → Option Nat
  | 0, _ => none
  | fuel + 1, iter =>
    if iter = 0 then some 0
    else
      match h iter with
      | none => none
      | some b =>
        if size ≤ wsub b.size b.usage then some iter
        else firstFit_loop h size fuel b.next

/-- The function `firstFit`. -/
def firstFit (fuel : Nat) (s : State) (size : Nat) : Option Nat :=
  firstFit_loop s.heap size fuel s.g_head

/-- The loop of `bestFit`, with the locals `iter`, `best` and `min`. -/
def bestFit_loop (h : Heap) (size : Nat) : Nat → Nat → Nat → Nat → Option Nat
  | 0, _, _, _ => none
  | fuel + 1, iter, best, min =>
    if iter = 0 then some best
    else
      match h iter with
      | none => none
      | some b =>
        if size ≤ wsub b.size b.usage then
          if wsub b.size b.usage = size then some iter
          else if wsub b.size b.usage < min then
            bestFit_loop h size fuel b.next iter (wsub b.size b.usage)
          else bestFit_loop h size fuel b.next best min
        else bestFit_loop h size fuel b.next best min

/-- The function `bestFit`. -/
def bestFit (fuel : Nat) (s : State) (size : Nat) : Option Nat :=
  bestFit_loop s.heap size fuel s.g_head 0 SIZE_MAX

/-- The loop of `worstFit`, with the locals `iter`, `worst` and `max`. -/
def worstFit_loop (h : Heap) (size : Nat) : Nat → Nat → Nat → Nat → Option Nat
  | 0, _, _, _ => none
  | fuel + 1, iter, worst, max =>
    if iter = 0 then some worst
    else
      match h iter with
      | none => none
      | some b =>
        if size ≤ wsub b.size b.usage then
          if max < wsub b.size b.usage then
            worstFit_loop h size fuel b.next iter (wsub b.size b.usage)
          else worstFit_loop h size fuel b.next worst max
        else worstFit_loop h size fuel b.next worst max

/-- The function `worstFit`. -/
def worstFit (fuel : Nat) (s : State) (size : Nat) : Option Nat :=
  worstFit_loop s.heap size fuel s.g_head 0 0

/-- The block chosen by `reuse` before it is split (the local `returnMe`): the policy named by
    `ALLOCATOR_ALGORITHM`, `first_fit` when the variable is absent, and `NULL` when the value
    is none of the three names. -/
def reuse_select (fuel : Nat) (env : Env) (s : State) (size : Nat) : Option Nat :=
  let algo := match env.ALLOCATOR_ALGORITHM with
    | none => "first_fit"
    | some a => a
  if algo = "first_fit" then firstFit fuel s size
  else if algo = "best_fit" then bestFit fuel s size
  else if algo = "worst_fit" then worstFit fuel s size
  else some 0

/-- The function `reuse`. -/
def reuse (fuel : Nat) (env : Env) (s : State) (size : Nat) : Option (State × Nat) :=
  if s.g_head = 0 then some (s, 0)
  else
    match reuse_select fuel env s size with
    | none => none
    | some returnMe =>
      if returnMe = 0 then some (s, 0)
      else split s returnMe size

/-- The function `scribbler`: `memset(ptr, 0xAA, size)`. -/
def scribbler (s : State) (ptr size : Nat) : State :=
  { s with bytes := fun a => if ptr ≤ a ∧ a < ptr + size then 0xAA else s.bytes a }

/-- The local `scribble` of `malloc`: `atoi` of `ALLOCATOR_SCRIBBLE`, `0` when it is absent. -/
def scribble_flag (env : Env) : Int :=
  match env.ALLOCATOR_SCRIBBLE with
  | none => 0
  | some v => v

/-- The rounding step at the top of `malloc`. -/
def round_size (size : Nat) : Nat :=
  if size % 8 ≠ 0 then wadd size (size % 8) else size

/-- The local `real_size` of `malloc`. -/
def real_size (size : Nat) : Nat := wadd (round_size size) HEADER_SIZE

/-- The local `region_size` of `malloc`. -/
def region_size_of (page_size real : Nat) : Nat :=
  let num_pages := real / page_size
  let num_pages := if real % page_size ≠ 0 then wadd num_pages 1 else num_pages
  wmul num_pages page_size

/-- The system call `mmap(NULL, len, ...)`: it fails for a zero length, and otherwise returns
    what the operating system decides (`mm`). -/
def mmap (len : Nat) (mm : Option Nat) : Option Nat :=
  if len = 0 then none else mm

/-- The tail-append loop of `malloc`. -/
def append_loop (block : Nat) : Nat → Heap → Nat → Option Heap
  | 0, _, _ => none
  | fuel + 1, h, iter =>
    if iter = 0 then some h
    else
      match h iter with
      | none => none
      | some b =>
        if b.next = 0 then some (store h iter { b with next := block })
        else append_loop block fuel h b.next

/-- The function `malloc`; the result is the new state and the returned pointer. -/
def malloc (fuel : Nat) (env : Env) (mm : Option Nat) (s : State) (size : Nat) :
    Option (State × Nat) :=
  let size := round_size size
  let real_size := wadd size HEADER_SIZE
  match reuse fuel env s real_size with
  | none => none
  | some (s1, reusable) =>
    if reusable ≠ 0 then
      let s2 := if scribble_flag env ≠ 0 then scribbler s1 (reusable + HEADER_SIZE) size else s1
      some (s2, reusable + HEADER_SIZE)
    else
      let region_size := region_size_of env.page_size real_size
      match mmap region_size mm with
      | none => some (s1, 0)
      | some block =>
        let nb : mem_block :=
          { alloc_id := s1.g_allocations
            size := region_size
            usage := real_size
            region_start := block
            region_size := region_size
            next := 0 }
        let h1 := store s1.heap block nb
        let s2 : State :=
          { s1 with
              g_allocations := wadd s1.g_allocations 1
              heap := h1
              mapped := s1.mapped ++ [(block, region_size)] }
        let linked : Option State :=
          if s2.g_head = 0 then some { s2 with g_head := block }
          else (append_loop block fuel h1 s2.g_head).map (fun h2 => { s2 with heap := h2 })
        match linked with
        | none => none
        | some s3 =>
          let s4 := if scribble_flag env ≠ 0 then scribbler s3 (block + HEADER_SIZE) size else s3
          some (s4, block + HEADER_SIZE)

/-- Outcome of the first loop of `free`. -/
inductive Scan where
  | in_use : Scan
  | all_free (next : Nat) : Scan
deriving DecidableEq, Repr

/-- The first loop of `free`: walk the region from its leader; stop at the first block in use. -/
def scan_loop (h : Heap) (rs : Nat) : Nat → Nat → Nat → Option Scan
  | 0, _, _ => none
  | fuel + 1, iter, next =>
    if iter = 0 then some (Scan.all_free next)
    else
      match h iter with
      | none => none
      | some b =>
        if b.region_start ≠ rs then some (Scan.all_free next)
        else if b.usage ≠ 0 then some Scan.in_use
        else scan_loop h rs fuel b.next b.next

/-- The second loop of `free`: find the block in front of the region and link it to `next`. -/
def unlink_loop (rs next : Nat) : Nat → Heap → Nat → Option Heap
  | 0, _, _ => none
  | fuel + 1, h, iter =>
    match h iter with
    | none => none
    | some b =>
      if b.region_start = rs then some h
      else
        match h b.next with
        | none => none
        | some nb =>
          if nb.region_start = rs then some (store h iter { b with next := next })
          else unlink_loop rs next fuel h b.next

/-- The system call `munmap(start, len)`: the mapping and the headers inside it disappear. -/
def munmap (s : State) (start len : Nat) : State :=
  { s with
      heap := dropRange s.heap start len
      mapped := s.mapped.erase (start, len)
      unmapped := s.unmapped ++ [(start, len)] }

/-- The function `free`. -/
def free (fuel : Nat) (s : State) (ptr : Nat) : Option State :=
  if ptr = 0 then some s
  else
    let block := ptr - HEADER_SIZE
    match s.heap block with
    | none => none
    | some b =>
      let h1 := store s.heap block { b with usage := 0 }
      let rs := b.region_start
      match h1 rs with
      | none => none
      | some ldr =>
        match scan_loop h1 rs fuel rs ldr.next with
        | none => none
        | some Scan.in_use => some { s with heap := h1 }
        | some (Scan.all_free next) =>
          let spliced : Option State :=
            if s.g_head = rs then some { s with heap := h1, g_head := next }
            else (unlink_loop rs next fuel h1 s.g_head).map (fun h2 => { s with heap := h2 })
          match spliced with
          | none => none
          | some s2 =>
            match s2.heap block with
            | none => none
            | some b2 => some (munmap s2 b2.region_start b2.region_size)

/-- A byte read by the client: defined only inside a live mapping. -/
def load (s : State) (a : Nat) : Option Nat :=
  if s.mapped.any (fun r => decide (r.1 ≤ a ∧ a < r.1 + r.2)) then some (s.bytes a) else none

/-- Each of the `n` bytes from address `a` on lies in a live mapping. -/
def readable (s : State) (a : Nat) : Nat → Bool
  | 0 => true
  | n + 1 => (load s (a + n)).isSome && readable s a n

/-- The byte store after `n` bytes have been copied from `src` to `dst`. -/
def copy_bytes (s : State) (dst src n : Nat) : State :=
  { s with bytes := fun a => if dst ≤ a ∧ a < dst + n then s.bytes (src + (a - dst)) else s.bytes a }

/-- The call `memcpy(dst, src, n)` on the payload bytes: it faults when a byte of the source
    range or of the destination range lies in no live mapping. -/
def memcpy (s : State) (dst src n : Nat) : Option State :=
  if readable s src n && readable s dst n then some (copy_bytes s dst src n) else none

/-- The function `realloc`; the result is the new state and the returned pointer. -/
def realloc (fuel : Nat) (env : Env) (mm : Option Nat) (s : State) (ptr size : Nat) :
    Option (State × Nat) :=
  let size := wadd size (size % 8)
  let size := wadd size HEADER_SIZE
  if ptr = 0 then malloc fuel env mm s size
  else if size = 0 then (free fuel s ptr).map (fun s1 => (s1, 0))
  else
    let old := ptr - HEADER_SIZE
    match s.heap old with
    | none => none
    | some ob =>
      if ob.size < size then
        match malloc fuel env mm s size with
        | none => none
        | some (s1, new) =>
          if new = 0 then some (s1, 0)
          else
            match s1.heap old with
            | none => none
            | some ob1 =>
              match memcpy s1 new ptr ob1.usage with
              | none => none
              | some s2 => (free fuel s2 ptr).map (fun s3 => (s3, new))
      else
        some ({ s with heap := store s.heap old { ob with usage := size } }, ptr)

/-- The call `memset(ptr, c, n)` on the payload bytes. -/
def memset (s : State) (ptr c n : Nat) : State :=
  { s with bytes := fun a => if ptr ≤ a ∧ a < ptr + n then c else s.bytes a }

/-- The function `calloc`; the products `size * nmemb` and `nmemb * size` are taken modulo
    `2^64`, and `memset` is called on whatever `malloc` returned (a null pointer faults, the
    length being nonzero on this path). -/
def calloc (fuel : Nat) (env : Env) (mm : Option Nat) (s : State) (nmemb size : Nat) :
    Option (State × Nat) :=
  if wmul size nmemb = 0 then some (s, 0)
  else
    match malloc fuel env mm s (wmul nmemb size) with
    | none => none
    | some (s1, block) =>
      if block = 0 then none
      else some (memset s1 block 0 (wmul nmemb size), block)

/-- The chain reachable from `p` through `next` visits exactly the addresses `l`, in this
    order, and then ends in `NULL`. -/
def IsChain (h : Heap) : Nat → List Nat → Prop
  | p, [] => p = 0
  | p, a :: l => p = a ∧ a ≠ 0 ∧ ∃ b, h a = some b ∧ IsChain h b.next l

/-- The header at an address (a default record where none is readable). -/
def block_at (h : Heap) (a : Nat) : mem_block := (h a).getD default

/-- The free capacity `size - usage` of the block at an address. -/
def free_cap (h : Heap) (a : Nat) : Nat := (block_at h a).size - (block_at h a).usage

/-- Invariant I1 together with the range of `size_t`, for the blocks of a chain. -/
def UsageOk (h : Heap) (l : List Nat) : Prop :=
  ∀ a ∈ l, (block_at h a).usage ≤ (block_at h a).size ∧ (block_at h a).size < WORD

/-- What `bestFit` owes for the chain `l`: `NULL` when no block fits, and otherwise the first
    block of least free capacity among the blocks that fit. -/
def BestSpec (h : Heap) (size : Nat) (l : List Nat) (r : Nat) : Prop :=
  (r = 0 ∧ ∀ a ∈ l, free_cap h a < size) ∨
  (r ≠ 0 ∧ ∃ pre post, l = pre ++ r :: post ∧ size ≤ free_cap h r ∧
      (∀ a ∈ l, size ≤ free_cap h a → free_cap h r ≤ free_cap h a) ∧
      (∀ a ∈ pre, size ≤ free_cap h a → free_cap h r < free_cap h a))

/-- What `worstFit` owes for the chain `l`: `NULL` when no block fits, and otherwise the first
    block of greatest free capacity among the blocks that fit. -/
def WorstSpec (h : Heap) (size : Nat) (l : List Nat) (r : Nat) : Prop :=
  (r = 0 ∧ ∀ a ∈ l, free_cap h a < size) ∨
  (r ≠ 0 ∧ ∃ pre post, l = pre ++ r :: post ∧ size ≤ free_cap h r ∧
      (∀ a ∈ l, size ≤ free_cap h a → free_cap h a ≤ free_cap h r) ∧
      (∀ a ∈ pre, size ≤ free_cap h a → free_cap h a < free_cap h r))

/-- An environment without allocator variables, on a system with 4096-byte pages. -/
def env0 : Env :=
  { ALLOCATOR_ALGORITHM := none, ALLOCATOR_SCRIBBLE := none, page_size := 4096 }

/-- Scenario state of the placement tests: one region at 4096 holding three free blocks of
    capacity 500, 200 and 300 (in chain order), followed by a block that is fully used. -/
def demo_state : State :=
  { g_head := 4096
    g_allocations := 4
    heap := fun a =>
      if a = 4096 then
        some { alloc_id := 0, size := 500, usage := 0, region_start := 4096,
               region_size := 4096, next := 4596 }
      else if a = 4596 then
        some { alloc_id := 1, size := 200, usage := 0, region_start := 4096,
               region_size := 4096, next := 4796 }
      else if a = 4796 then
        some { alloc_id := 2, size := 300, usage := 0, region_start := 4096,
               region_size := 4096, next := 5096 }
      else if a = 5096 then
        some { alloc_id := 3, size := 3096, usage := 3096, region_start := 4096,
               region_size := 4096, next := 0 }
      else none
    bytes := fun _ => 0
    mapped := [(4096, 4096)]
    unmapped := [] }

/-- The chain of `demo_state`. -/
def demo_chain : List Nat := [4096, 4596, 4796, 5096]

/-- A state whose only block, at 4096, uses its whole region (`malloc(4016)` on an empty chain). -/
def full_state : State :=
  { g_head := 4096
    g_allocations := 1
    heap := fun a =>
      if a = 4096 then
        some { alloc_id := 0, size := 4096, usage := 4096, region_start := 4096,
               region_size := 4096, next := 0 }
      else none
    bytes := fun _ => 0
    mapped := [(4096, 4096)]
    unmapped := [] }

/-- The environment `env0` with `ALLOCATOR_ALGORITHM` set to the given value. -/
def env_algo (a : String) : Env :=
  { ALLOCATOR_ALGORITHM := some a, ALLOCATOR_SCRIBBLE := none, page_size := 4096 }

/-- The `region_start` field of the block at an address. -/
def reg (h : Heap) (a : Nat) : Nat := (block_at h a).region_start

/-- Region runs: walking the chain, every block either leads its region (`region_start` is its
    own address) or belongs to the region of the block in front of it (`r`). -/
def RunsFrom (h : Heap) : Nat → List Nat → Prop
  | _, [] => True
  | r, a :: l => (reg h a = a ∨ reg h a = r) ∧ RunsFrom h (reg h a) l

/-- Two address ranges `(start, length)` do not overlap. -/
def Apart (r1 r2 : Nat × Nat) : Prop := r1.1 + r1.2 ≤ r2.1 ∨ r2.1 + r2.2 ≤ r1.1

/-- Well-formed allocator state with chain `l`: the chain is null-terminated; every block has
    `usage ≤ size`, a positive size, and lies inside its region, which is a live mapping; the
    region leader is in the chain and leads itself; the blocks of a region form a run behind
    their leader; blocks do not overlap; live mappings do not overlap and each has its leader
    in the chain. -/
structure WF (s : State) (l : List Nat) : Prop where
  chain : IsChain s.heap s.g_head l
  usage_le : ∀ a ∈ l, (block_at s.heap a).usage ≤ (block_at s.heap a).size
  size_pos : ∀ a ∈ l, 0 < (block_at s.heap a).size
  leader : ∀ a ∈ l, reg s.heap a ∈ l ∧ reg s.heap (reg s.heap a) = reg s.heap a
  region : ∀ a ∈ l, (reg s.heap a, (block_at s.heap a).region_size) ∈ s.mapped
  inside : ∀ a ∈ l, reg s.heap a ≤ a ∧
    a + (block_at s.heap a).size ≤ reg s.heap a + (block_at s.heap a).region_size
  runs : RunsFrom s.heap 0 l
  blocks_apart : ∀ a ∈ l, ∀ a2 ∈ l, a ≠ a2 →
    Apart (a, (block_at s.heap a).size) (a2, (block_at s.heap a2).size)
  mapped_ok : ∀ m ∈ s.mapped, 0 < m.1 ∧ 0 < m.2 ∧ m.1 + m.2 ≤ WORD
  mapped_apart : s.mapped.Pairwise Apart
  mapped_leader : ∀ m ∈ s.mapped, m.1 ∈ l ∧ reg s.heap m.1 = m.1

/-- The pointer `p` is the payload pointer of a block of the chain that is in use. -/
def Live (s : State) (p : Nat) : Prop :=
  HEADER_SIZE ≤ p ∧ ∃ l, IsChain s.heap s.g_head l ∧ (p - HEADER_SIZE) ∈ l ∧
    (block_at s.heap (p - HEADER_SIZE)).usage ≠ 0

/-- A request that the allocator can serve without wrapping `size_t`: the rounded size plus the
    header fits in 64 bits, the page size is a positive power of two, and `mmap`, if it is
    called, succeeds at a non-null address with a range that fits in the address space and
    overlaps no live mapping. -/
def ValidRequest (env : Env) (s : State) (mm : Option Nat) (n : Nat) : Prop :=
  n + n % 8 + HEADER_SIZE < WORD ∧ 0 < env.page_size ∧ env.page_size ∣ WORD ∧
  ∀ a, mm = some a →
    0 < a ∧ a + region_size_of env.page_size (real_size n) ≤ WORD ∧
    ∀ m ∈ s.mapped, Apart (a, region_size_of env.page_size (real_size n)) m

/-- The two size adjustments at the top of `realloc`, without wrapping. -/
def realloc_size (n : Nat) : Nat := n + n % 8 + HEADER_SIZE

/-- The fuel lets every loop of one operation walk the whole chain (which `realloc` may have
    extended by one block before it frees). -/
def EnoughFuel (s : State) (fuel : Nat) : Prop :=
  ∀ l, IsChain s.heap s.g_head l → l.length + 1 < fuel

/-- States reachable from the empty chain by `malloc`, `free`, `realloc` and `calloc`, with
    requests that do not wrap `size_t`, with pointers that are null (for `realloc`) or live, and with
    operations that run to completion. -/
inductive Reachable : State → Prop
  | init : Reachable State.empty
  | malloc (s s2 : State) (fuel : Nat) (env : Env) (mm : Option Nat) (n p : Nat) :
      Reachable s → ValidRequest env s mm n → EnoughFuel s fuel →
      malloc fuel env mm s n = some (s2, p) → Reachable s2
  | free (s s2 : State) (fuel : Nat) (p : Nat) :
      Reachable s → Live s p → EnoughFuel s fuel → free fuel s p = some s2 → Reachable s2
  | realloc (s s2 : State) (fuel : Nat) (env : Env) (mm : Option Nat) (p n q : Nat) :
      Reachable s → (p = 0 ∨ Live s p) → ValidRequest env s mm (realloc_size n) →
      EnoughFuel s fuel → realloc fuel env mm s p n = some (s2, q) → Reachable s2
  | calloc (s s2 : State) (fuel : Nat) (env : Env) (mm : Option Nat) (nmemb size p : Nat) :
      Reachable s → nmemb * size < WORD → ValidRequest env s mm (nmemb * size) →
      EnoughFuel s fuel → calloc fuel env mm s nmemb size = some (s2, p) → Reachable s2

/-- The state after `malloc(0)`, `malloc(0)` and `malloc(2^64 - 80)` on the empty chain (the
    first call maps the region at 4096; the third request wraps `real_size` to `0`). -/
def overflow_trace : Option State :=
  (malloc 3 env0 (some 4096) State.empty 0).bind fun r1 =>
  (malloc 3 env0 none r1.1 0).bind fun r2 =>
  (malloc 3 env0 none r2.1 (WORD - 80)).map Prod.fst

/-- The state after `malloc(100)` on the empty chain: one block at 4096 (payload pointer 4176)
    with `usage = 184` in a region of 4096 bytes. -/
def one_block_state : State :=
  ((malloc 3 env0 (some 4096) State.empty 100).getD (State.empty, 0)).1

/-- A sequence of `malloc` calls, each with its environment, the answer `mmap` would give and
    the requested size; the result is the final state and the pointers returned, in order. -/
def malloc_all (fuel : Nat) : State → List (Env × Option Nat × Nat) → Option (State × List Nat)
  | s, [] => some (s, [])
  | s, (env, mm, n) :: rest =>
    match malloc fuel env mm s n with
    | none => none
    | some (s1, p) =>
      match malloc_all fuel s1 rest with
      | none => none
      | some (s2, ps) => some (s2, p :: ps)

/-- A sequence of `free` calls. -/
def free_all (fuel : Nat) : State → List Nat → Option State
  | s, [] => some s
  | s, p :: ps =>
    match free fuel s p with
    | none => none
    | some s1 => free_all fuel s1 ps

/-- Every request of the sequence is valid in the state in which it is made, and its mapping
    succeeds. -/
def ValidRun (fuel : Nat) : State → List (Env × Option Nat × Nat) → Prop
  | _, [] => True
  | s, (env, mm, n) :: rest =>
    ValidRequest env s mm n ∧
    mmap (region_size_of env.page_size (real_size n)) mm ≠ none ∧
    ∀ s1 p, malloc fuel env mm s n = some (s1, p) → ValidRun fuel s1 rest

/-- Two requests on the empty chain: `malloc(0)`, which maps the region at 4096, and
    `malloc(2^64 - 80)`, whose `real_size` wraps to `0`. -/
def overflow_requests : List (Env × Option Nat × Nat) :=
  [(env0, some 4096, 0), (env0, some 8192, WORD - 80)]

/-- Two requests on the empty chain: `malloc(1000)`, which maps the region at 4096, and
    `malloc(200)`, which is carved from the same region. -/
def demo_requests : List (Env × Option Nat × Nat) :=
  [(env0, some 4096, 1000), (env0, some 8192, 200)]

/-- The state after `malloc(100)`, `malloc(100)` and `free` of the first pointer on the empty
    chain: the region at 4096 holds its leader (free) and one carved block at 4280 (in use). -/
def split_region_state : State :=
  ((malloc 3 env0 none one_block_state 100).bind (fun r => free 4 r.1 4176)).getD State.empty

/-- What an operation does, in program order, as far as the mutex is concerned: a call of
    `pthread_mutex_lock(&lock)`, a call of `pthread_mutex_unlock(&lock)`, or a read or write
    of allocator state (`g_head`, `g_allocations`, a block header). -/
inductive Event where
  | lock : Event
  | unlock : Event
  | access : Event
deriving DecidableEq, Repr

/-- The events of one call of `malloc`, along the path that the call takes: the lock, the
    chain scan of `reuse`, then either the unlock of the reuse path, the unlock of the
    `MAP_FAILED` path, or the initialisation and linking of the fresh block and the final
    unlock. A fault ends the trace. -/
def malloc_events (fuel : Nat) (env : Env) (mm : Option Nat) (s : State) (size : Nat) :
    List Event :=
  let size := round_size size
  let real_size := wadd size HEADER_SIZE
  [Event.lock, Event.access] ++
  match reuse fuel env s real_size with
  | none => []
  | some (_, reusable) =>
    if reusable ≠ 0 then [Event.unlock]
    else
      match mmap (region_size_of env.page_size real_size) mm with
      | none => [Event.unlock]
      | some _ => [Event.access, Event.unlock]

/-- The events of one call of `free`; `ret` is what `munmap` returns. A null pointer returns
    before the lock. Otherwise: the lock, the write of `usage` and the region scan, then
    either the unlock of the early return, or the splice, the unlock inside
    `if (ret == -1)` and the unlock at the end of the function. -/
def free_events (fuel : Nat) (s : State) (ptr : Nat) (ret : Int) : List Event :=
  if ptr = 0 then []
  else
    let block := ptr - HEADER_SIZE
    [Event.lock, Event.access] ++
    match s.heap block with
    | none => []
    | some b =>
      let h1 := store s.heap block { b with usage := 0 }
      let rs := b.region_start
      match h1 rs with
      | none => []
      | some ldr =>
        match scan_loop h1 rs fuel rs ldr.next with
        | none => []
        | some Scan.in_use => [Event.unlock]
        | some (Scan.all_free _) =>
          [Event.access] ++ (if ret = -1 then [Event.unlock] else []) ++ [Event.unlock]

/-- The events of one call of `calloc`: nothing when the product is zero; otherwise the call
    of `malloc`, then the lock and unlock around `memset`. -/
def calloc_events (fuel : Nat) (env : Env) (mm : Option Nat) (s : State) (nmemb size : Nat) :
    List Event :=
  if wmul size nmemb = 0 then []
  else malloc_events fuel env mm s (wmul nmemb size) ++ [Event.lock, Event.unlock]

/-- The events of one call of `realloc`; `ret` is what `munmap` returns inside `free`. With
    a null pointer, the call of `malloc`; with a total of zero, the call of `free`; otherwise
    the read of `old->size`, and then either the call of `malloc`, the lock around `memcpy`
    (whose length argument reads `old->usage`) and the call of `free`, or the write of
    `old->usage` of the in-place path. -/
def realloc_events (fuel : Nat) (env : Env) (mm : Option Nat) (s : State) (ptr size : Nat)
    (ret : Int) : List Event :=
  let size := wadd size (size % 8)
  let size := wadd size HEADER_SIZE
  if ptr = 0 then malloc_events fuel env mm s size
  else if size = 0 then free_events fuel s ptr ret
  else
    let old := ptr - HEADER_SIZE
    [Event.access] ++
    match s.heap old with
    | none => []
    | some ob =>
      if ob.size < size then
        malloc_events fuel env mm s size ++
        match malloc fuel env mm s size with
        | none => []
        | some (s1, new) =>
          if new = 0 then []
          else
            match s1.heap old with
            | none => []
            | some ob1 =>
              [Event.lock, Event.access] ++
              match memcpy s1 new ptr ob1.usage with
              | none => []
              | some s2 => [Event.unlock] ++ free_events fuel s2 ptr ret
      else [Event.access]

/-- The lock discipline on a trace, given whether the mutex is held at its start: a lock is
    taken only when the mutex is not held, an unlock and an access happen only while it is
    held, and at the end the mutex is not held. -/
def disciplined_from : Bool → List Event → Bool
  | held, [] => !held
  | held, Event.lock :: es => !held && disciplined_from true es
  | held, Event.unlock :: es => held && disciplined_from false es
  | held, Event.access :: es => held && disciplined_from held es

/-- The lock discipline on the trace of an operation started with the mutex unlocked. -/
def disciplined (es : List Event) : Bool := disciplined_from false es

/-- Tiling of the regions by the chain. Walking the chain, `cur` is the address at which the
    region of the block in front must continue and `fin` the address at which that region
    ends. A leader may only follow a completed region (`cur = fin`), and it opens the range
    from its own address to its address plus `region_size`; any other block must start at
    `cur`, inside a region that ends at `fin`. At the end of the chain the last region must
    be complete. -/
def Tiled (h : Heap) : Nat → Nat → List Nat → Prop
  | cur, fin, [] => cur = fin
  | cur, fin, a :: l =>
    if reg h a = a then
      cur = fin ∧ Tiled h (a + (block_at h a).size) (a + (block_at h a).region_size) l
    else
      a = cur ∧ reg h a + (block_at h a).region_size = fin ∧
        Tiled h (a + (block_at h a).size) fin l

/-- The region leaders of the chain, in chain order, each with its `region_size`. -/
def leaders (h : Heap) (l : List Nat) : List (Nat × Nat) :=
  (l.filter (fun a => decide (reg h a = a))).map (fun a => (a, (block_at h a).region_size))

/-- Layout of the chain: the blocks tile their regions in chain order, and the regions appear
    in the chain in the order in which they were mapped. -/
structure Layout (s : State) (l : List Nat) : Prop where
  tiled : Tiled s.heap 0 0 l
  order : leaders s.heap l = s.mapped

/-- The states after `malloc(100)`, `malloc(5000)` (first component) and after one more
    `malloc(100)` (second component) on the empty chain; the regions are mapped at 4096 and
    at 8192. -/
def creation_order_trace : Option (State × State) :=
  (malloc 3 env0 (some 8192) one_block_state 5000).bind fun r2 =>
  (malloc 4 env0 none r2.1 100).map fun r3 => (r2.1, r3.1)

/-- The state after `malloc(4016)` on the empty chain: the block at 4096 has
    `usage = size = 4096` and fills its region up to the last byte. -/
def full_block_state : State :=
  ((malloc 3 env0 (some 4096) State.empty 4016).getD (State.empty, 0)).1

/-- The state after three calls `malloc(4016)`, whose regions are mapped at 8192, at 4096 and
    at 12288 (each block fills its region), followed by `malloc(2^64 - 80)`, whose
    `real_size` wraps to `0`. -/
def interleaved_trace : Option State :=
  (malloc 4 env0 (some 8192) State.empty 4016).bind fun r1 =>
  (malloc 4 env0 (some 4096) r1.1 4016).bind fun r2 =>
  (malloc 4 env0 (some 12288) r2.1 4016).bind fun r3 =>
  (malloc 4 env0 none r3.1 (WORD - 80)).map Prod.fst

/-- Two headers at address `a` agree in every field except possibly `region_size`; at the
    address `keep` they agree in `region_size` too. -/
def BlockAgree (keep a : Nat) : Option mem_block → Option mem_block → Prop
  | none, none => True
  | some b, some b2 =>
    b2.alloc_id = b.alloc_id ∧ b2.size = b.size ∧ b2.usage = b.usage ∧
      b2.region_start = b.region_start ∧ b2.next = b.next ∧
      (a = keep → b2.region_size = b.region_size)
  | _, _ => False

/-- Two header stores differ at most in the `region_size` field of blocks other than the
    block at `keep`. -/
def HeapAgree (keep : Nat) (h h2 : Heap) : Prop := ∀ a, BlockAgree keep a (h a) (h2 a)

theorem wsub_eq_sub {a b : Nat} (hb : b ≤ a) (ha : a < WORD) : wsub a b = a - b := by
  unfold wsub
  have h1 : a + WORD - b = (a - b) + WORD := by omega
  rw [h1, Nat.add_mod_right]
  exact Nat.mod_eq_of_lt (by omega)

theorem block_at_of_some {h : Heap} {a : Nat} {b : mem_block} (hb : h a = some b) :
    block_at h a = b := by
  simp [block_at, hb]

theorem wsub_block {h : Heap} {a : Nat} {b : mem_block} (hb : h a = some b)
    (hu : (block_at h a).usage ≤ (block_at h a).size ∧ (block_at h a).size < WORD) :
    wsub b.size b.usage = free_cap h a := by
  rw [block_at_of_some hb] at hu
  rw [free_cap, block_at_of_some hb]
  exact wsub_eq_sub hu.1 hu.2

theorem IsChain.mem_ne_zero {h : Heap} : ∀ {l : List Nat} {p : Nat}, IsChain h p l →
    ∀ a ∈ l, a ≠ 0
  | [], _, _, a, ha => by simp at ha
  | x :: l, p, hc, a, ha => by
    obtain ⟨_, hx, b, _, hrest⟩ := hc
    rcases List.mem_cons.1 ha with rfl | ha
    · exact hx
    · exact IsChain.mem_ne_zero hrest a ha

theorem IsChain.mem_some {h : Heap} : ∀ {l : List Nat} {p : Nat}, IsChain h p l →
    ∀ a ∈ l, ∃ b, h a = some b
  | [], _, _, a, ha => by simp at ha
  | x :: l, p, hc, a, ha => by
    obtain ⟨_, _, b, hb, hrest⟩ := hc
    rcases List.mem_cons.1 ha with rfl | ha
    · exact ⟨b, hb⟩
    · exact IsChain.mem_some hrest a ha

/-! ## Placement scans -/

theorem firstFit_loop_spec (h : Heap) (size : Nat) :
    ∀ (l : List Nat) (fuel iter : Nat), IsChain h iter l → l.length < fuel → UsageOk h l →
      ∃ r, firstFit_loop h size fuel iter = some r ∧
        ((r = 0 ∧ ∀ a ∈ l, free_cap h a < size) ∨
         (r ≠ 0 ∧ ∃ pre post, l = pre ++ r :: post ∧ size ≤ free_cap h r ∧
            ∀ a ∈ pre, free_cap h a < size)) := by
  intro l
  induction l with
  | nil =>
    intro fuel iter hc hf _
    obtain ⟨f, rfl⟩ : ∃ f, fuel = f + 1 := ⟨fuel - 1, by simp at hf; omega⟩
    simp only [IsChain] at hc
    subst hc
    exact ⟨0, by simp [firstFit_loop], Or.inl ⟨rfl, by simp⟩⟩
  | cons a l ih =>
    intro fuel iter hc hf hu
    obtain ⟨f, rfl⟩ : ∃ f, fuel = f + 1 := ⟨fuel - 1, by simp at hf; omega⟩
    obtain ⟨rfl, ha0, b, hb, hrest⟩ := hc
    have hcap := wsub_block hb (hu iter (List.mem_cons_self _ _))
    by_cases hfit : size ≤ free_cap h iter
    · refine ⟨iter, by simp [firstFit_loop, ha0, hb, hcap, hfit], Or.inr ⟨ha0, [], l, rfl, hfit, ?_⟩⟩
      simp
    · have hu2 : UsageOk h l := fun x hx => hu x (List.mem_cons_of_mem _ hx)
      obtain ⟨r, hr, hspec⟩ := ih f b.next hrest (by simpa using hf) hu2
      refine ⟨r, by simp [firstFit_loop, ha0, hb, hcap, hfit, hr], ?_⟩
      rcases hspec with ⟨r0, hall⟩ | ⟨r0, pre, post, hl, hge, hpre⟩
      · refine Or.inl ⟨r0, ?_⟩
        intro x hx
        rcases List.mem_cons.1 hx with rfl | hx
        · omega
        · exact hall x hx
      · refine Or.inr ⟨r0, iter :: pre, post, by simp [hl], hge, ?_⟩
        intro x hx
        rcases List.mem_cons.1 hx with rfl | hx
        · omega
        · exact hpre x hx

theorem bestFit_loop_spec (h : Heap) (size : Nat) :
    ∀ (l : List Nat) (fuel iter : Nat) (seen : List Nat) (best min : Nat),
      IsChain h iter l → l.length < fuel → UsageOk h l →
      (∀ a ∈ l, free_cap h a < SIZE_MAX) →
      (∀ a ∈ seen, free_cap h a ≠ size) →
      BestSpec h size seen best →
      (best = 0 → min = SIZE_MAX) → (best ≠ 0 → min = free_cap h best) →
      ∃ r, bestFit_loop h size fuel iter best min = some r ∧ BestSpec h size (seen ++ l) r := by
  intro l
  induction l with
  | nil =>
    intro fuel iter seen best min hc hf _ _ _ hspec _ _
    obtain ⟨f, rfl⟩ : ∃ f, fuel = f + 1 := ⟨fuel - 1, by simp at hf; omega⟩
    simp only [IsChain] at hc
    subst hc
    exact ⟨best, by simp [bestFit_loop], by simpa using hspec⟩
  | cons a l ih =>
    intro fuel iter seen best min hc hf hu hmax hne hspec hmin0 hmin1
    obtain ⟨f, rfl⟩ : ∃ f, fuel = f + 1 := ⟨fuel - 1, by simp at hf; omega⟩
    obtain ⟨rfl, ha0, b, hb, hrest⟩ := hc
    have hcap := wsub_block hb (hu iter (List.mem_cons_self _ _))
    have hlt := hmax iter (List.mem_cons_self _ _)
    have hu2 : UsageOk h l := fun x hx => hu x (List.mem_cons_of_mem _ hx)
    have hmax2 : ∀ x ∈ l, free_cap h x < SIZE_MAX := fun x hx => hmax x (List.mem_cons_of_mem _ hx)
    have hf2 : l.length < f := by simpa using hf
    have happ : seen ++ iter :: l = (seen ++ [iter]) ++ l := by simp
    by_cases hfit : size ≤ free_cap h iter
    · by_cases hex : free_cap h iter = size
      · refine ⟨iter, by simp [bestFit_loop, ha0, hb, hcap, hex], Or.inr ⟨ha0, seen, l, rfl, hfit, ?_, ?_⟩⟩
        · intro x _ hx; omega
        · intro x hx hge
          have := hne x hx
          omega
      · have hne2 : ∀ x ∈ seen ++ [iter], free_cap h x ≠ size := by
          intro x hx
          rcases List.mem_append.1 hx with hx | hx
          · exact hne x hx
          · simp at hx; subst hx; exact hex
        by_cases hless : free_cap h iter < min
        · have hspec2 : BestSpec h size (seen ++ [iter]) iter := by
            refine Or.inr ⟨ha0, seen, [], rfl, hfit, ?_, ?_⟩
            · intro x hx hge
              rcases List.mem_append.1 hx with hx | hx
              · rcases hspec with ⟨_, hall⟩ | ⟨hb0, pre, post, hl, _, hmn, _⟩
                · have := hall x hx; omega
                · have h1 := hmn x hx hge
                  have h2 := hmin1 hb0
                  omega
              · simp at hx; subst hx; exact le_refl _
            · intro x hx hge
              rcases hspec with ⟨_, hall⟩ | ⟨hb0, pre, post, hl, _, hmn, _⟩
              · have := hall x hx; omega
              · have h1 := hmn x hx hge
                have h2 := hmin1 hb0
                omega
          obtain ⟨r, hr, hres⟩ := ih f b.next (seen ++ [iter]) iter (free_cap h iter) hrest hf2 hu2
            hmax2 hne2 hspec2 (fun h0 => absurd h0 ha0) (fun _ => rfl)
          exact ⟨r, by simp [bestFit_loop, ha0, hb, hcap, hfit, hex, hless, hr], by rw [happ]; exact hres⟩
        · have hb0 : best ≠ 0 := by
            intro h0
            have := hmin0 h0
            omega
          have hspec2 : BestSpec h size (seen ++ [iter]) best := by
            rcases hspec with ⟨h0, _⟩ | ⟨_, pre, post, hl, hge, hmn, hst⟩
            · exact absurd h0 hb0
            · refine Or.inr ⟨hb0, pre, post ++ [iter], by simp [hl], hge, ?_, hst⟩
              intro x hx hgx
              rcases List.mem_append.1 hx with hx | hx
              · exact hmn x hx hgx
              · simp at hx; subst hx
                have := hmin1 hb0
                omega
          obtain ⟨r, hr, hres⟩ := ih f b.next (seen ++ [iter]) best min hrest hf2 hu2
            hmax2 hne2 hspec2 hmin0 hmin1
          exact ⟨r, by simp [bestFit_loop, ha0, hb, hcap, hfit, hex, hless, hr], by rw [happ]; exact hres⟩
    · have hne2 : ∀ x ∈ seen ++ [iter], free_cap h x ≠ size := by
        intro x hx
        rcases List.mem_append.1 hx with hx | hx
        · exact hne x hx
        · simp at hx; subst hx; omega
      have hspec2 : BestSpec h size (seen ++ [iter]) best := by
        rcases hspec with ⟨h0, hall⟩ | ⟨hb0, pre, post, hl, hge, hmn, hst⟩
        · refine Or.inl ⟨h0, ?_⟩
          intro x hx
          rcases List.mem_append.1 hx with hx | hx
          · exact hall x hx
          · simp at hx; subst hx; omega
        · refine Or.inr ⟨hb0, pre, post ++ [iter], by simp [hl], hge, ?_, hst⟩
          intro x hx hgx
          rcases List.mem_append.1 hx with hx | hx
          · exact hmn x hx hgx
          · simp at hx; subst hx; omega
      obtain ⟨r, hr, hres⟩ := ih f b.next (seen ++ [iter]) best min hrest hf2 hu2
        hmax2 hne2 hspec2 hmin0 hmin1
      exact ⟨r, by simp [bestFit_loop, ha0, hb, hcap, hfit, hr], by rw [happ]; exact hres⟩

theorem worstFit_loop_spec (h : Heap) (size : Nat) (hpos : 0 < size) :
    ∀ (l : List Nat) (fuel iter : Nat) (seen : List Nat) (worst max : Nat),
      IsChain h iter l → l.length < fuel → UsageOk h l →
      WorstSpec h size seen worst →
      (worst = 0 → max = 0) → (worst ≠ 0 → max = free_cap h worst) →
      ∃ r, worstFit_loop h size fuel iter worst max = some r ∧
        WorstSpec h size (seen ++ l) r := by
  intro l
  induction l with
  | nil =>
    intro fuel iter seen worst max hc hf _ hspec _ _
    obtain ⟨f, rfl⟩ : ∃ f, fuel = f + 1 := ⟨fuel - 1, by simp at hf; omega⟩
    simp only [IsChain] at hc
    subst hc
    exact ⟨worst, by simp [worstFit_loop], by simpa using hspec⟩
  | cons a l ih =>
    intro fuel iter seen worst max hc hf hu hspec hmax0 hmax1
    obtain ⟨f, rfl⟩ : ∃ f, fuel = f + 1 := ⟨fuel - 1, by simp at hf; omega⟩
    obtain ⟨rfl, ha0, b, hb, hrest⟩ := hc
    have hcap := wsub_block hb (hu iter (List.mem_cons_self _ _))
    have hu2 : UsageOk h l := fun x hx => hu x (List.mem_cons_of_mem _ hx)
    have hf2 : l.length < f := by simpa using hf
    have happ : seen ++ iter :: l = (seen ++ [iter]) ++ l := by simp
    by_cases hfit : size ≤ free_cap h iter
    · by_cases hmore : max < free_cap h iter
      · have hspec2 : WorstSpec h size (seen ++ [iter]) iter := by
          refine Or.inr ⟨ha0, seen, [], rfl, hfit, ?_, ?_⟩
          · intro x hx hge
            rcases List.mem_append.1 hx with hx | hx
            · rcases hspec with ⟨_, hall⟩ | ⟨hw0, pre, post, hl, _, hmx, _⟩
              · have := hall x hx; omega
              · have h1 := hmx x hx hge
                have h2 := hmax1 hw0
                omega
            · simp at hx; subst hx; exact le_refl _
          · intro x hx hge
            rcases hspec with ⟨_, hall⟩ | ⟨hw0, pre, post, hl, _, hmx, _⟩
            · have := hall x hx; omega
            · have h1 := hmx x hx hge
              have h2 := hmax1 hw0
              omega
        obtain ⟨r, hr, hres⟩ := ih f b.next (seen ++ [iter]) iter (free_cap h iter) hrest hf2
          hu2 hspec2 (fun h0 => absurd h0 ha0) (fun _ => rfl)
        exact ⟨r, by simp [worstFit_loop, ha0, hb, hcap, hfit, hmore, hr], by rw [happ]; exact hres⟩
      · have hw0 : worst ≠ 0 := by
          intro h0
          have := hmax0 h0
          omega
        have hspec2 : WorstSpec h size (seen ++ [iter]) worst := by
          rcases hspec with ⟨h0, _⟩ | ⟨_, pre, post, hl, hge, hmx, hst⟩
          · exact absurd h0 hw0
          · refine Or.inr ⟨hw0, pre, post ++ [iter], by simp [hl], hge, ?_, hst⟩
            intro x hx hgx
            rcases List.mem_append.1 hx with hx | hx
            · exact hmx x hx hgx
            · simp at hx; subst hx
              have := hmax1 hw0
              omega
        obtain ⟨r, hr, hres⟩ := ih f b.next (seen ++ [iter]) worst max hrest hf2 hu2
          hspec2 hmax0 hmax1
        exact ⟨r, by simp [worstFit_loop, ha0, hb, hcap, hfit, hmore, hr], by rw [happ]; exact hres⟩
    · have hspec2 : WorstSpec h size (seen ++ [iter]) worst := by
        rcases hspec with ⟨h0, hall⟩ | ⟨hw0, pre, post, hl, hge, hmx, hst⟩
        · refine Or.inl ⟨h0, ?_⟩
          intro x hx
          rcases List.mem_append.1 hx with hx | hx
          · exact hall x hx
          · simp at hx; subst hx; omega
        · refine Or.inr ⟨hw0, pre, post ++ [iter], by simp [hl], hge, ?_, hst⟩
          intro x hx hgx
          rcases List.mem_append.1 hx with hx | hx
          · exact hmx x hx hgx
          · simp at hx; subst hx; omega
      obtain ⟨r, hr, hres⟩ := ih f b.next (seen ++ [iter]) worst max hrest hf2 hu2
        hspec2 hmax0 hmax1
      exact ⟨r, by simp [worstFit_loop, ha0, hb, hcap, hfit, hr], by rw [happ]; exact hres⟩

theorem demo_state_chain : IsChain demo_state.heap demo_state.g_head demo_chain :=
  ⟨rfl, by decide, _, rfl, rfl, by decide, _, rfl, rfl, by decide, _, rfl, rfl, by decide, _, rfl,
    rfl⟩

theorem demo_state_usage : UsageOk demo_state.heap demo_chain := by
  unfold UsageOk demo_chain
  decide

/-- C7 (first_fit): on a chain whose blocks satisfy `usage ≤ size`, `firstFit(size)` returns the
    first block in chain order whose free capacity `size - usage` is at least the request, and
    it returns `NULL` exactly when no block of the chain has that much free capacity. -/
theorem firstFit_returns_first_fitting_block (fuel : Nat) (s : State) (size : Nat)
    (l : List Nat) (hc : IsChain s.heap s.g_head l) (hf : l.length < fuel)
    (hu : UsageOk s.heap l) :
    ∃ r, firstFit fuel s size = some r ∧
      (r = 0 ↔ ∀ a ∈ l, free_cap s.heap a < size) ∧
      (r ≠ 0 → ∃ pre post, l = pre ++ r :: post ∧ size ≤ free_cap s.heap r ∧
        ∀ a ∈ pre, free_cap s.heap a < size) := by
  obtain ⟨r, hr, hspec⟩ := firstFit_loop_spec s.heap size l fuel s.g_head hc hf hu
  refine ⟨r, hr, ?_, ?_⟩
  · rcases hspec with ⟨r0, hall⟩ | ⟨r0, pre, post, hl, hge, _⟩
    · exact ⟨fun _ => hall, fun _ => r0⟩
    · constructor
      · intro h0; exact absurd h0 r0
      · intro hall
        have := hall r (by rw [hl]; simp)
        omega
  · intro hr0
    rcases hspec with ⟨r0, _⟩ | ⟨_, pre, post, hl, hge, hpre⟩
    · exact absurd r0 hr0
    · exact ⟨pre, post, hl, hge, hpre⟩

theorem firstFit_returns_first_fitting_block_witness :
    firstFit 5 demo_state 150 = some 4096 ∧
    ∃ r, firstFit 5 demo_state 150 = some r ∧
      (r = 0 ↔ ∀ a ∈ demo_chain, free_cap demo_state.heap a < 150) ∧
      (r ≠ 0 → ∃ pre post, demo_chain = pre ++ r :: post ∧ 150 ≤ free_cap demo_state.heap r ∧
        ∀ a ∈ pre, free_cap demo_state.heap a < 150) :=
  ⟨by decide, firstFit_returns_first_fitting_block 5 demo_state 150 demo_chain demo_state_chain
    (by decide) demo_state_usage⟩

/-- C8 (best_fit): on a chain whose blocks satisfy `usage ≤ size` and have free capacity below
    `SIZE_MAX`, `bestFit(size)` returns a block whose free capacity is the least among the
    blocks with free capacity at least the request, namely the first block in chain order
    with that capacity, and it returns `NULL` exactly when no block fits. -/
theorem bestFit_returns_first_smallest_fitting_block (fuel : Nat) (s : State) (size : Nat)
    (l : List Nat) (hc : IsChain s.heap s.g_head l) (hf : l.length < fuel)
    (hu : UsageOk s.heap l) (hmax : ∀ a ∈ l, free_cap s.heap a < SIZE_MAX) :
    ∃ r, bestFit fuel s size = some r ∧
      (r = 0 ↔ ∀ a ∈ l, free_cap s.heap a < size) ∧
      (r ≠ 0 → ∃ pre post, l = pre ++ r :: post ∧ size ≤ free_cap s.heap r ∧
        (∀ a ∈ l, size ≤ free_cap s.heap a → free_cap s.heap r ≤ free_cap s.heap a) ∧
        (∀ a ∈ pre, size ≤ free_cap s.heap a → free_cap s.heap r < free_cap s.heap a)) := by
  obtain ⟨r, hr, hspec⟩ := bestFit_loop_spec s.heap size l fuel s.g_head [] 0 SIZE_MAX hc hf hu
    hmax (by simp) (Or.inl ⟨rfl, by simp⟩) (fun _ => rfl) (fun h0 => absurd rfl h0)
  simp only [List.nil_append] at hspec
  refine ⟨r, hr, ?_, ?_⟩
  · rcases hspec with ⟨r0, hall⟩ | ⟨r0, pre, post, hl, hge, _, _⟩
    · exact ⟨fun _ => hall, fun _ => r0⟩
    · constructor
      · intro h0; exact absurd h0 r0
      · intro hall
        have := hall r (by rw [hl]; simp)
        omega
  · intro hr0
    rcases hspec with ⟨r0, _⟩ | ⟨_, pre, post, hl, hge, hmn, hst⟩
    · exact absurd r0 hr0
    · exact ⟨pre, post, hl, hge, hmn, hst⟩

theorem bestFit_returns_first_smallest_fitting_block_witness :
    bestFit 5 demo_state 150 = some 4596 ∧ free_cap demo_state.heap 4596 = 200 ∧
    ∃ r, bestFit 5 demo_state 150 = some r ∧
      (r = 0 ↔ ∀ a ∈ demo_chain, free_cap demo_state.heap a < 150) ∧
      (r ≠ 0 → ∃ pre post, demo_chain = pre ++ r :: post ∧ 150 ≤ free_cap demo_state.heap r ∧
        (∀ a ∈ demo_chain, 150 ≤ free_cap demo_state.heap a →
          free_cap demo_state.heap r ≤ free_cap demo_state.heap a) ∧
        (∀ a ∈ pre, 150 ≤ free_cap demo_state.heap a →
          free_cap demo_state.heap r < free_cap demo_state.heap a)) :=
  ⟨by decide, by decide,
    bestFit_returns_first_smallest_fitting_block 5 demo_state 150 demo_chain demo_state_chain
      (by decide) demo_state_usage (by unfold demo_chain; decide)⟩

/-- C9, as the claim states it, fails: for the request `0` and a chain whose only block has no
    free capacity, `worstFit` returns `NULL` although that block has free capacity `≥ 0`. -/
theorem worstFit_zero_request_counterexample :
    IsChain full_state.heap full_state.g_head [4096] ∧ UsageOk full_state.heap [4096] ∧
    worstFit 2 full_state 0 = some 0 ∧
    ¬ (∀ a ∈ [4096], free_cap full_state.heap a < 0) :=
  ⟨⟨rfl, by decide, _, rfl, rfl⟩, by unfold UsageOk; decide, by decide, by decide⟩

/-- C9 (worst_fit, amended): on a chain whose blocks satisfy `usage ≤ size`, for a request
    `size > 0`, `worstFit(size)` returns the first block in chain order whose free capacity is
    the greatest among the blocks with free capacity at least the request, and it returns
    `NULL` exactly when no block fits. -/
theorem worstFit_returns_first_largest_fitting_block (fuel : Nat) (s : State) (size : Nat)
    (l : List Nat) (hc : IsChain s.heap s.g_head l) (hf : l.length < fuel)
    (hu : UsageOk s.heap l) (hpos : 0 < size) :
    ∃ r, worstFit fuel s size = some r ∧
      (r = 0 ↔ ∀ a ∈ l, free_cap s.heap a < size) ∧
      (r ≠ 0 → ∃ pre post, l = pre ++ r :: post ∧ size ≤ free_cap s.heap r ∧
        (∀ a ∈ l, size ≤ free_cap s.heap a → free_cap s.heap a ≤ free_cap s.heap r) ∧
        (∀ a ∈ pre, size ≤ free_cap s.heap a → free_cap s.heap a < free_cap s.heap r)) := by
  obtain ⟨r, hr, hspec⟩ := worstFit_loop_spec s.heap size hpos l fuel s.g_head [] 0 0 hc hf hu
    (Or.inl ⟨rfl, by simp⟩) (fun _ => rfl) (fun h0 => absurd rfl h0)
  simp only [List.nil_append] at hspec
  refine ⟨r, hr, ?_, ?_⟩
  · rcases hspec with ⟨r0, hall⟩ | ⟨r0, pre, post, hl, hge, _, _⟩
    · exact ⟨fun _ => hall, fun _ => r0⟩
    · constructor
      · intro h0; exact absurd h0 r0
      · intro hall
        have := hall r (by rw [hl]; simp)
        omega
  · intro hr0
    rcases hspec with ⟨r0, _⟩ | ⟨_, pre, post, hl, hge, hmx, hst⟩
    · exact absurd r0 hr0
    · exact ⟨pre, post, hl, hge, hmx, hst⟩

theorem worstFit_returns_first_largest_fitting_block_witness :
    worstFit 5 demo_state 150 = some 4096 ∧ free_cap demo_state.heap 4096 = 500 ∧
    ∃ r, worstFit 5 demo_state 150 = some r ∧
      (r = 0 ↔ ∀ a ∈ demo_chain, free_cap demo_state.heap a < 150) ∧
      (r ≠ 0 → ∃ pre post, demo_chain = pre ++ r :: post ∧ 150 ≤ free_cap demo_state.heap r ∧
        (∀ a ∈ demo_chain, 150 ≤ free_cap demo_state.heap a →
          free_cap demo_state.heap a ≤ free_cap demo_state.heap r) ∧
        (∀ a ∈ pre, 150 ≤ free_cap demo_state.heap a →
          free_cap demo_state.heap a < free_cap demo_state.heap r)) :=
  ⟨by decide, by decide,
    worstFit_returns_first_largest_fitting_block 5 demo_state 150 demo_chain demo_state_chain
      (by decide) demo_state_usage (by decide)⟩

/-! ## Chains are acyclic -/

theorem IsChain.unique {h : Heap} : ∀ {l1 l2 : List Nat} {p : Nat}, IsChain h p l1 →
    IsChain h p l2 → l1 = l2
  | [], [], _, _, _ => rfl
  | [], _ :: _, _, h1, h2 => by
    simp only [IsChain] at h1
    exact absurd (h2.1 ▸ h1) h2.2.1
  | _ :: _, [], _, h1, h2 => by
    simp only [IsChain] at h2
    exact absurd (h1.1 ▸ h2) h1.2.1
  | a :: l1, a2 :: l2, p, h1, h2 => by
    obtain ⟨e1, _, b1, hb1, r1⟩ := h1
    obtain ⟨e2, _, b2, hb2, r2⟩ := h2
    have ea : a = a2 := e1.symm.trans e2
    subst ea
    have eb : b1 = b2 := Option.some.inj (hb1.symm.trans hb2)
    subst eb
    rw [IsChain.unique r1 r2]

theorem IsChain.suffix {h : Heap} : ∀ {l1 : List Nat} {l2 : List Nat} {p a : Nat},
    IsChain h p (l1 ++ a :: l2) → IsChain h a (a :: l2)
  | [], l2, p, a, hc => by
    obtain ⟨_, ha, b, hb, hr⟩ := hc
    exact ⟨rfl, ha, b, hb, hr⟩
  | x :: l1, l2, p, a, hc => by
    obtain ⟨_, _, b, _, hr⟩ := hc
    exact IsChain.suffix hr

theorem IsChain.head_not_mem {h : Heap} {a p : Nat} {l : List Nat} (hc : IsChain h p (a :: l)) :
    a ∉ l := by
  intro hmem
  obtain ⟨l1, l2, rfl⟩ := List.append_of_mem hmem
  obtain ⟨hp, ha, b, hb, hr⟩ := hc
  have h1 : IsChain h a (a :: l2) := IsChain.suffix hr
  have h2 : IsChain h a (a :: (l1 ++ a :: l2)) := ⟨rfl, ha, b, hb, hr⟩
  have := congrArg List.length (IsChain.unique h1 h2)
  simp at this
  omega

theorem IsChain.nodup {h : Heap} : ∀ {l : List Nat} {p : Nat}, IsChain h p l → l.Nodup
  | [], _, _ => List.nodup_nil
  | a :: l, p, hc => by
    have hnot := IsChain.head_not_mem hc
    obtain ⟨_, _, b, _, hr⟩ := hc
    exact List.nodup_cons.2 ⟨hnot, IsChain.nodup hr⟩

theorem IsChain.congr {h h2 : Heap} : ∀ {l : List Nat} {p : Nat}, IsChain h p l →
    (∀ x ∈ l, h2 x = h x) → IsChain h2 p l
  | [], _, hc, _ => hc
  | a :: l, p, hc, heq => by
    obtain ⟨hp, ha, b, hb, hr⟩ := hc
    refine ⟨hp, ha, b, ?_, IsChain.congr hr (fun x hx => heq x (List.mem_cons_of_mem _ hx))⟩
    rw [heq a (List.mem_cons_self _ _)]
    exact hb

theorem IsChain.head_eq {h : Heap} {p : Nat} {l : List Nat} (hc : IsChain h p l) :
    p = l.headD 0 := by
  cases l with
  | nil => exact hc
  | cons a l => exact hc.1

/-! ## Policy selection, and the size computations of `malloc` and `realloc` -/

/-- C3, as the claim states it, fails: with `ALLOCATOR_ALGORITHM=bogus` the function `reuse`
    returns `NULL` for a request of 150 bytes on the scenario chain, while under `first_fit`
    (and with the variable absent) it selects the block at 4096. -/
theorem reuse_unknown_policy_counterexample :
    (reuse 5 (env_algo "bogus") demo_state 150).map Prod.snd = some 0 ∧
    (reuse 5 (env_algo "first_fit") demo_state 150).map Prod.snd = some 4096 ∧
    (reuse 5 env0 demo_state 150).map Prod.snd = some 4096 := by
  decide

/-- C3 (amended): when `ALLOCATOR_ALGORITHM` is absent, `reuse` does exactly what it does under
    `first_fit`; when it is set to a value other than `first_fit`, `best_fit` and `worst_fit`,
    `reuse` selects no block: it returns `NULL` and leaves the state as it was. -/
theorem reuse_policy_fallback (fuel : Nat) (env : Env) (s : State) (size : Nat) :
    (env.ALLOCATOR_ALGORITHM = none →
      reuse fuel env s size
        = reuse fuel { env with ALLOCATOR_ALGORITHM := some "first_fit" } s size) ∧
    (∀ a, env.ALLOCATOR_ALGORITHM = some a → a ≠ "first_fit" → a ≠ "best_fit" →
      a ≠ "worst_fit" → reuse fuel env s size = some (s, 0)) := by
  constructor
  · intro h
    simp [reuse, reuse_select, h]
  · intro a h h1 h2 h3
    simp [reuse, reuse_select, h, h1, h2, h3]

theorem reuse_policy_fallback_witness :
    reuse 5 (env_algo "bogus") demo_state 150 = some (demo_state, 0) :=
  (reuse_policy_fallback 5 (env_algo "bogus") demo_state 150).2 "bogus" rfl (by decide)
    (by decide) (by decide)

/-- C4, evaluated on the code: `realloc(p, 0)` on the live block of `full_state` returns `p`
    itself and keeps the block in use with `usage = 80` and its region mapped, whereas
    `free(p)` empties the chain and unmaps the region. -/
theorem realloc_zero_is_not_free :
    (realloc 2 env0 none full_state 4176 0).map
        (fun r => (r.2, r.1.g_head, (r.1.heap 4096).map mem_block.usage, r.1.mapped))
      = some (4176, 4096, some 80, [(4096, 4096)]) ∧
    (free 2 full_state 4176).map (fun s => (s.g_head, s.heap 4096, s.mapped))
      = some (0, none, []) := by
  decide

/-- C5, evaluated on the code: for the request 5 the rounded payload size is 10, which is not a
    multiple of 8, and the block that `malloc(5)` returns has `usage - 80 = 10`. -/
theorem malloc_rounding_not_multiple_of_eight :
    round_size 5 = 10 ∧ ¬ (8 ∣ round_size 5) ∧
    (malloc 1 env0 (some 4096) State.empty 5).map
        (fun r => (r.2, (r.1.heap (r.2 - HEADER_SIZE)).map (fun b => b.usage - HEADER_SIZE)))
      = some (4176, some 10) := by
  decide

/-! ## The fresh-region path of `malloc` -/

theorem wadd_lt (a b : Nat) : wadd a b < WORD := Nat.mod_lt _ (by decide)

theorem real_size_lt (n : Nat) : real_size n < WORD := wadd_lt _ _

theorem region_size_of_spec (P r : Nat) (hP : 0 < P) (hdvd : P ∣ WORD) (hr : r < WORD)
    (hne : region_size_of P r ≠ 0) :
    P ∣ region_size_of P r ∧ r ≤ region_size_of P r ∧
      ∀ m, P ∣ m → r ≤ m → region_size_of P r ≤ m := by
  obtain ⟨k, hk⟩ := hdvd
  have hdiv := Nat.div_add_mod r P
  have hmodlt := Nat.mod_lt r hP
  by_cases hz : r % P = 0
  · have hrs : region_size_of P r = r := by
      have h1 : r / P * P = r := by rw [Nat.mul_comm]; omega
      simp only [region_size_of, hz, ne_eq, not_true_eq_false, if_false, wmul, h1]
      exact Nat.mod_eq_of_lt hr
    rw [hrs]
    exact ⟨Nat.dvd_of_mod_eq_zero hz, le_refl _, fun m _ hm => hm⟩
  · have hqk : r / P < k := by
      have h1 : P * (r / P) < P * k := by rw [← hk]; omega
      exact Nat.lt_of_mul_lt_mul_left h1
    have hW : 0 < WORD := by decide
    have hk2 : k * 2 ≤ WORD := by
      have hP2 : 2 ≤ P := by omega
      calc k * 2 ≤ k * P := Nat.mul_le_mul_left k hP2
        _ = WORD := by rw [hk, Nat.mul_comm]
    have hw : wadd (r / P) 1 = r / P + 1 := by
      unfold wadd
      exact Nat.mod_eq_of_lt (by omega)
    have hle : (r / P + 1) * P ≤ WORD := by
      rw [hk, Nat.mul_comm P k]
      exact Nat.mul_le_mul_right P hqk
    have hval : region_size_of P r = ((r / P + 1) * P) % WORD := by
      simp [region_size_of, hz, wmul, hw]
    have hlt : (r / P + 1) * P < WORD := by
      rcases Nat.lt_or_ge ((r / P + 1) * P) WORD with h | h
      · exact h
      · exfalso
        apply hne
        have : (r / P + 1) * P = WORD := le_antisymm hle h
        rw [hval, this, Nat.mod_self]
    rw [hval, Nat.mod_eq_of_lt hlt]
    have hexp : (r / P + 1) * P = P * (r / P) + P := by ring
    refine ⟨Dvd.intro_left _ rfl, by omega, ?_⟩
    intro m hm hrm
    obtain ⟨j, rfl⟩ := hm
    have hj : r / P < j := by
      have h1 : P * (r / P) < P * j := by omega
      exact Nat.lt_of_mul_lt_mul_left h1
    calc (r / P + 1) * P = P * (r / P + 1) := Nat.mul_comm _ _
      _ ≤ P * j := Nat.mul_le_mul_left P hj

theorem split_ptr_ne_zero {s s1 : State} {ptr size r : Nat} (hp : ptr ≠ 0)
    (h : split s ptr size = some (s1, r)) : r ≠ 0 := by
  unfold split at h
  cases hb : s.heap ptr with
  | none => simp [hb] at h
  | some b =>
    simp only [hb] at h
    split at h
    · simp only [Option.some.injEq, Prod.mk.injEq] at h
      omega
    · simp only [Option.some.injEq, Prod.mk.injEq] at h
      omega

theorem reuse_null_state {fuel : Nat} {env : Env} {s s1 : State} {size : Nat}
    (h : reuse fuel env s size = some (s1, 0)) : s1 = s := by
  unfold reuse at h
  split at h
  · simp only [Option.some.injEq, Prod.mk.injEq] at h
    exact h.1.symm
  · split at h
    · simp at h
    · split at h
      · simp only [Option.some.injEq, Prod.mk.injEq] at h
        exact h.1.symm
      · rename_i hr
        exact absurd rfl (split_ptr_ne_zero hr h)

theorem append_loop_spec (block : Nat) (nb : mem_block) (hb0 : block ≠ 0) (hnb : nb.next = 0) :
    ∀ (l : List Nat) (fuel : Nat) (h : Heap) (iter : Nat), IsChain h iter l → l ≠ [] →
      l.length < fuel → block ∉ l → h block = some nb →
      ∃ h2, append_loop block fuel h iter = some h2 ∧ IsChain h2 iter (l ++ [block]) ∧
        h2 block = some nb ∧ (∀ x, x ∉ l → h2 x = h x) ∧
        (∀ x ∈ l, ∃ b, h x = some b ∧
          h2 x = some { b with next := if b.next = 0 then block else b.next }) := by
  intro l
  induction l with
  | nil => intro _ _ _ _ hne; exact absurd rfl hne
  | cons a l ih =>
    intro fuel h iter hc _ hf hfresh hblock
    obtain ⟨f, rfl⟩ : ∃ f, fuel = f + 1 := ⟨fuel - 1, by simp at hf; omega⟩
    have hnot := IsChain.head_not_mem hc
    obtain ⟨rfl, ha0, b, hb, hrest⟩ := hc
    have hba : block ≠ iter := fun e => hfresh (e ▸ List.mem_cons_self _ _)
    cases l with
    | nil =>
      simp only [IsChain] at hrest
      refine ⟨store h iter { b with next := block }, by simp [append_loop, ha0, hb, hrest],
        ?_, ?_, ?_, ?_⟩
      · refine ⟨rfl, ha0, { b with next := block }, by simp [store], rfl, hb0, nb, ?_, hnb⟩
        simp [store, hba, hblock]
      · simp [store, hba, hblock]
      · intro x hx
        have : x ≠ iter := by simpa using hx
        simp [store, this]
      · intro x hx
        have : x = iter := by simpa using hx
        subst this
        exact ⟨b, hb, by simp [store, hrest]⟩
    | cons c l2 =>
      have hnext : b.next ≠ 0 := by
        have := hrest.1
        have := hrest.2.1
        omega
      obtain ⟨h2, hrun, hch, hblk, hout, hin⟩ := ih f h b.next hrest (by simp)
        (by simpa using hf) (fun hm => hfresh (List.mem_cons_of_mem _ hm)) hblock
      have hit : h2 iter = h iter := hout iter hnot
      refine ⟨h2, by simp [append_loop, ha0, hb, hnext, hrun], ?_, hblk, ?_, ?_⟩
      · exact ⟨rfl, ha0, b, by rw [hit]; exact hb, hch⟩
      · intro x hx
        exact hout x (fun hm => hx (List.mem_cons_of_mem _ hm))
      · intro x hx
        rcases List.mem_cons.1 hx with rfl | hx
        · exact ⟨b, hb, by rw [hit, hb]; simp [hnext]⟩
        · exact hin x hx

theorem ite_scribbler_heap (c : Prop) [Decidable c] (s : State) (p n : Nat) :
    (if c then scribbler s p n else s).heap = s.heap := by
  split <;> rfl

theorem ite_scribbler_g_head (c : Prop) [Decidable c] (s : State) (p n : Nat) :
    (if c then scribbler s p n else s).g_head = s.g_head := by
  split <;> rfl

theorem ite_scribbler_mapped (c : Prop) [Decidable c] (s : State) (p n : Nat) :
    (if c then scribbler s p n else s).mapped = s.mapped := by
  split <;> rfl

theorem ite_scribbler_unmapped (c : Prop) [Decidable c] (s : State) (p n : Nat) :
    (if c then scribbler s p n else s).unmapped = s.unmapped := by
  split <;> rfl

theorem ite_scribbler_g_allocations (c : Prop) [Decidable c] (s : State) (p n : Nat) :
    (if c then scribbler s p n else s).g_allocations = s.g_allocations := by
  split <;> rfl

theorem ite_else_scribbler_heap (c : Prop) [Decidable c] (s : State) (p n : Nat) :
    (if c then s else scribbler s p n).heap = s.heap := by
  split <;> rfl

theorem ite_else_scribbler_g_head (c : Prop) [Decidable c] (s : State) (p n : Nat) :
    (if c then s else scribbler s p n).g_head = s.g_head := by
  split <;> rfl

theorem ite_else_scribbler_mapped (c : Prop) [Decidable c] (s : State) (p n : Nat) :
    (if c then s else scribbler s p n).mapped = s.mapped := by
  split <;> rfl

theorem ite_else_scribbler_unmapped (c : Prop) [Decidable c] (s : State) (p n : Nat) :
    (if c then s else scribbler s p n).unmapped = s.unmapped := by
  split <;> rfl

theorem ite_else_scribbler_g_allocations (c : Prop) [Decidable c] (s : State) (p n : Nat) :
    (if c then s else scribbler s p n).g_allocations = s.g_allocations := by
  split <;> rfl

/-- The fresh-region path of `malloc`, evaluated. -/
theorem malloc_fresh_eval (fuel : Nat) (env : Env) (mm : Option Nat) (s s1 : State)
    (n : Nat) (l : List Nat) (a : Nat)
    (hc : IsChain s.heap s.g_head l) (hf : l.length < fuel)
    (hreuse : reuse fuel env s (real_size n) = some (s1, 0))
    (hmap : mmap (region_size_of env.page_size (real_size n)) mm = some a)
    (ha0 : a ≠ 0) (hfresh : a ∉ l) :
    ∃ s2, malloc fuel env mm s n = some (s2, a + HEADER_SIZE) ∧
      IsChain s2.heap s2.g_head (l ++ [a]) ∧
      s2.heap a = some
        { alloc_id := s.g_allocations
          size := region_size_of env.page_size (real_size n)
          usage := real_size n
          region_start := a
          region_size := region_size_of env.page_size (real_size n)
          next := 0 } ∧
      (∀ x ∈ l, ∃ b, s.heap x = some b ∧
        s2.heap x = some { b with next := if b.next = 0 then a else b.next }) ∧
      s2.mapped = s.mapped ++ [(a, region_size_of env.page_size (real_size n))] ∧
      s2.unmapped = s.unmapped ∧
      (∀ i, ¬ (a + HEADER_SIZE ≤ i ∧ i < a + HEADER_SIZE + round_size n) →
        s2.bytes i = s.bytes i) := by
  have hs1 : s = s1 := (reuse_null_state hreuse).symm
  subst hs1
  simp only [real_size] at hreuse hmap ⊢
  have hbytes : ∀ (c : Prop) [Decidable c] (t : State) (i : Nat),
      ¬ (a + HEADER_SIZE ≤ i ∧ i < a + HEADER_SIZE + round_size n) →
      (if c then t else scribbler t (a + HEADER_SIZE) (round_size n)).bytes i = t.bytes i := by
    intro c _ t i hi
    split
    · rfl
    · simp [scribbler, hi]
  cases l with
  | nil =>
    simp only [IsChain] at hc
    refine ⟨_, by simp [malloc, hreuse, hmap, hc]; rfl, ?_, ?_, by simp, ?_, ?_, ?_⟩
    · simp only [ite_else_scribbler_heap, ite_else_scribbler_g_head, List.nil_append]
      simp [IsChain, store, ha0]
    · simp [ite_else_scribbler_heap, store]
    · simp only [ite_else_scribbler_mapped]
    · simp only [ite_else_scribbler_unmapped]
    · intro i hi
      rw [hbytes _ _ i hi]
  | cons c l2 =>
    have hg : s.g_head ≠ 0 := by
      have := hc.1
      have := hc.2.1
      omega
    have hc2 : IsChain (store s.heap a
        { alloc_id := s.g_allocations
          size := region_size_of env.page_size (wadd (round_size n) HEADER_SIZE)
          usage := wadd (round_size n) HEADER_SIZE
          region_start := a
          region_size := region_size_of env.page_size (wadd (round_size n) HEADER_SIZE)
          next := 0 }) s.g_head (c :: l2) := by
      refine IsChain.congr hc ?_
      intro x hx
      have : x ≠ a := fun e => hfresh (e ▸ hx)
      simp [store, this]
    obtain ⟨h2, hrun, hch, hblk, _, hin⟩ := append_loop_spec a
      (mem_block.mk s.g_allocations
        (region_size_of env.page_size (wadd (round_size n) HEADER_SIZE))
        (wadd (round_size n) HEADER_SIZE) a
        (region_size_of env.page_size (wadd (round_size n) HEADER_SIZE)) 0) ha0 rfl (c :: l2) fuel _
      s.g_head hc2 (by simp) hf hfresh (by simp [store])
    refine ⟨_, by simp [malloc, hreuse, hmap, hg, hrun]; rfl, ?_, ?_, ?_, ?_, ?_, ?_⟩
    · simp only [ite_else_scribbler_heap, ite_else_scribbler_g_head]
      exact hch
    · simp only [ite_else_scribbler_heap]
      exact hblk
    · intro x hx
      obtain ⟨b, hb, hb2⟩ := hin x hx
      have : x ≠ a := fun e => hfresh (e ▸ hx)
      simp only [ite_else_scribbler_heap]
      exact ⟨b, by simpa [store, this] using hb, hb2⟩
    · simp only [ite_else_scribbler_mapped]
    · simp only [ite_else_scribbler_unmapped]
    · intro i hi
      rw [hbytes _ _ i hi]

theorem reg_of_some {h : Heap} {a : Nat} {b : mem_block} (hb : h a = some b) :
    reg h a = b.region_start := by
  simp [reg, block_at, hb]

theorem IsChain.of_next_eq {h h2 : Heap} : ∀ {l : List Nat} {p : Nat}, IsChain h p l →
    (∀ x ∈ l, ∀ b, h x = some b → ∃ b2, h2 x = some b2 ∧ b2.next = b.next) → IsChain h2 p l
  | [], _, hc, _ => hc
  | a :: l, p, hc, heq => by
    obtain ⟨hp, ha, b, hb, hr⟩ := hc
    obtain ⟨b2, hb2, hn⟩ := heq a (List.mem_cons_self _ _) b hb
    refine ⟨hp, ha, b2, hb2, ?_⟩
    rw [hn]
    exact IsChain.of_next_eq hr (fun x hx => heq x (List.mem_cons_of_mem _ hx))

theorem IsChain.tail_of_append {h : Heap} : ∀ {l1 l2 : List Nat} {p : Nat},
    IsChain h p (l1 ++ l2) → IsChain h (l2.headD 0) l2
  | [], l2, p, hc => by
    have := IsChain.head_eq hc
    simp only [List.nil_append] at hc this
    rw [← this]
    exact hc
  | x :: l1, l2, p, hc => by
    obtain ⟨_, _, b, _, hr⟩ := hc
    exact IsChain.tail_of_append hr

theorem RunsFrom.congr_reg {h h2 : Heap} : ∀ {l : List Nat} {r : Nat}, RunsFrom h r l →
    (∀ x ∈ l, reg h2 x = reg h x) → RunsFrom h2 r l
  | [], _, _, _ => trivial
  | a :: l, r, hr, heq => by
    obtain ⟨h1, h2'⟩ := hr
    have ha := heq a (List.mem_cons_self _ _)
    refine ⟨by rw [ha]; exact h1, ?_⟩
    rw [ha]
    exact RunsFrom.congr_reg h2' (fun x hx => heq x (List.mem_cons_of_mem _ hx))

theorem RunsFrom.no_region {h : Heap} {rs : Nat} : ∀ {l : List Nat} {r : Nat}, RunsFrom h r l →
    r ≠ rs → rs ∉ l → ∀ x ∈ l, reg h x ≠ rs
  | [], _, _, _, _, x, hx => by simp at hx
  | a :: l, r, hr, hne, hnot, x, hx => by
    obtain ⟨h1, h2⟩ := hr
    have ha : reg h a ≠ rs := by
      intro e
      rcases h1 with h1 | h1
      · exact hnot (by rw [← e, h1]; exact List.mem_cons_self _ _)
      · exact hne (h1.symm.trans e)
    rcases List.mem_cons.1 hx with rfl | hx
    · exact ha
    · exact RunsFrom.no_region h2 ha (fun hm => hnot (List.mem_cons_of_mem _ hm)) x hx

theorem RunsFrom.left {h : Heap} : ∀ {l1 l2 : List Nat} {r : Nat}, RunsFrom h r (l1 ++ l2) →
    RunsFrom h r l1
  | [], _, _, _ => trivial
  | _ :: _, _, _, hr => ⟨hr.1, RunsFrom.left hr.2⟩

theorem RunsFrom.right {h : Heap} : ∀ {l1 l2 : List Nat} {r : Nat}, RunsFrom h r (l1 ++ l2) →
    ∃ r2, RunsFrom h r2 l2
  | [], _, r, hr => ⟨r, hr⟩
  | _ :: _, _, _, hr => RunsFrom.right hr.2

theorem RunsFrom.of_leader_head {h : Heap} : ∀ {l : List Nat} {r r2 : Nat}, RunsFrom h r l →
    (∀ y, l.head? = some y → reg h y = y) → RunsFrom h r2 l
  | [], _, _, _, _ => trivial
  | a :: _, _, _, hr, hy => ⟨Or.inl (hy a rfl), hr.2⟩

theorem RunsFrom.append {h : Heap} : ∀ {l1 l2 : List Nat} {r : Nat}, RunsFrom h r l1 →
    (∀ r2, RunsFrom h r2 l2) → RunsFrom h r (l1 ++ l2)
  | [], _, r, _, h2 => h2 r
  | _ :: _, _, _, hr, h2 => ⟨hr.1, RunsFrom.append hr.2 h2⟩

/-- The blocks of the region `rs` are one run of the chain, headed by the leader. -/
theorem region_run {h : Heap} {l : List Nat} {rs : Nat} (hnd : l.Nodup)
    (hruns : RunsFrom h 0 l) (hrs : rs ∈ l) (hlead : reg h rs = rs) (h0 : rs ≠ 0) :
    ∃ pre run post, l = pre ++ (rs :: run) ++ post ∧ (∀ x ∈ pre, reg h x ≠ rs) ∧
      (∀ x ∈ run, reg h x = rs) ∧ (∀ x ∈ post, reg h x ≠ rs) ∧
      (∀ y, post.head? = some y → reg h y = y) := by
  obtain ⟨pre, rest, rfl⟩ := List.append_of_mem hrs
  have hnd2 := List.nodup_append.1 hnd
  have hrs_pre : rs ∉ pre := fun hm => hnd2.2.2 hm (List.mem_cons_self _ _)
  have hrs_rest : rs ∉ rest := (List.nodup_cons.1 hnd2.2.1).1
  have hpre := RunsFrom.no_region (RunsFrom.left hruns) (fun e => h0 e.symm) hrs_pre
  obtain ⟨r2, hr2⟩ := RunsFrom.right hruns
  have hrest : RunsFrom h rs rest := by
    have := hr2.2
    rwa [hlead] at this
  clear hr2 hruns hnd hnd2 hrs
  -- split `rest` into the run of `rs` and what follows
  have key : ∀ (rest : List Nat), RunsFrom h rs rest → rs ∉ rest →
      ∃ run post, rest = run ++ post ∧ (∀ x ∈ run, reg h x = rs) ∧
        (∀ x ∈ post, reg h x ≠ rs) ∧ (∀ y, post.head? = some y → reg h y = y) := by
    intro rest
    induction rest with
    | nil => intro _ _; exact ⟨[], [], rfl, by simp, by simp, by simp⟩
    | cons a rest ih =>
      intro hr hnot
      by_cases ha : reg h a = rs
      · have hr2 := hr.2
        rw [ha] at hr2
        obtain ⟨run, post, e, h1, h2, h3⟩ := ih hr2 (fun hm => hnot (List.mem_cons_of_mem _ hm))
        refine ⟨a :: run, post, by simp [e], ?_, h2, h3⟩
        intro x hx
        rcases List.mem_cons.1 hx with rfl | hx
        · exact ha
        · exact h1 x hx
      · have hla : reg h a = a := by
          rcases hr.1 with h1 | h1
          · exact h1
          · exact absurd h1 ha
        refine ⟨[], a :: rest, rfl, by simp, ?_, ?_⟩
        · intro x hx
          rcases List.mem_cons.1 hx with rfl | hx
          · exact ha
          · exact RunsFrom.no_region hr.2 ha (fun hm => hnot (List.mem_cons_of_mem _ hm)) x hx
        · intro y hy
          simp at hy
          subst hy
          exact hla
  obtain ⟨run, post, e, h1, h2, h3⟩ := key rest hrest hrs_rest
  exact ⟨pre, run, post, by simp [e], hpre, h1, h2, h3⟩

/-! ## The loops of `free` -/

theorem scan_loop_run (h : Heap) (rs : Nat) :
    ∀ (run post : List Nat) (fuel iter nxt : Nat), IsChain h iter (run ++ post) →
      (run ++ post).length < fuel → (∀ x ∈ run, reg h x = rs) →
      (∀ y, post.head? = some y → reg h y ≠ rs) →
      ((∃ x ∈ run, (block_at h x).usage ≠ 0) →
        scan_loop h rs fuel iter nxt = some Scan.in_use) ∧
      ((∀ x ∈ run, (block_at h x).usage = 0) →
        scan_loop h rs fuel iter nxt
          = some (Scan.all_free (if run = [] then nxt else post.headD 0))) := by
  intro run
  induction run with
  | nil =>
    intro post fuel iter nxt hc hf _ hpost
    obtain ⟨f, rfl⟩ : ∃ f, fuel = f + 1 := ⟨fuel - 1, by omega⟩
    refine ⟨fun ⟨x, hx, _⟩ => by simp at hx, fun _ => ?_⟩
    cases post with
    | nil =>
      simp only [List.append_nil, IsChain] at hc
      simp [scan_loop, hc]
    | cons y post2 =>
      obtain ⟨rfl, hy0, b, hb, _⟩ := hc
      have := hpost iter rfl
      rw [reg_of_some hb] at this
      simp [scan_loop, hy0, hb, this]
  | cons x run ih =>
    intro post fuel iter nxt hc hf hrun hpost
    obtain ⟨f, rfl⟩ : ∃ f, fuel = f + 1 := ⟨fuel - 1, by omega⟩
    obtain ⟨rfl, hx0, b, hb, hrest⟩ := hc
    have hreg : b.region_start = rs := by
      rw [← reg_of_some hb]; exact hrun iter (List.mem_cons_self _ _)
    have husage : (block_at h iter).usage = b.usage := by rw [block_at_of_some hb]
    have hf2 : (run ++ post).length < f := by simp at hf ⊢; omega
    obtain ⟨ih1, ih2⟩ := ih post f b.next b.next hrest hf2
      (fun y hy => hrun y (List.mem_cons_of_mem _ hy)) hpost
    by_cases hu : b.usage = 0
    · constructor
      · rintro ⟨y, hy, hyu⟩
        rcases List.mem_cons.1 hy with rfl | hy
        · exact absurd (husage.trans hu) hyu
        · simp only [scan_loop, hx0, if_false, hb, hreg, ne_eq, not_true_eq_false, hu]
          exact ih1 ⟨y, hy, hyu⟩
      · intro hall
        simp only [scan_loop, hx0, if_false, hb, hreg, ne_eq, not_true_eq_false, hu]
        rw [ih2 (fun y hy => hall y (List.mem_cons_of_mem _ hy))]
        by_cases hr : run = []
        · subst hr
          have := IsChain.head_eq hrest
          simp only [List.nil_append] at this
          simp [this]
        · simp [hr]
    · constructor
      · intro _
        simp [scan_loop, hx0, hb, hreg, hu]
      · intro hall
        exact absurd (husage.symm.trans (hall iter (List.mem_cons_self _ _))) hu

theorem unlink_loop_spec (rs nxt : Nat) (h : Heap) :
    ∀ (pre : List Nat) (p q : Nat) (rest : List Nat) (fuel iter : Nat),
      IsChain h iter (pre ++ p :: q :: rest) → (pre ++ p :: q :: rest).length < fuel →
      (∀ x ∈ pre, reg h x ≠ rs) → reg h p ≠ rs → reg h q = rs →
      unlink_loop rs nxt fuel h iter = some (store h p { block_at h p with next := nxt }) := by
  intro pre
  induction pre with
  | nil =>
    intro p q rest fuel iter hc hf _ hp hq
    obtain ⟨f, rfl⟩ : ∃ f, fuel = f + 1 := ⟨fuel - 1, by omega⟩
    obtain ⟨rfl, _, b, hb, hrest⟩ := hc
    obtain ⟨hq1, _, bq, hbq, _⟩ := hrest
    rw [reg_of_some hb] at hp
    rw [reg_of_some hbq] at hq
    simp [unlink_loop, hb, hp, hq1, hbq, hq, block_at_of_some hb]
  | cons x pre ih =>
    intro p q rest fuel iter hc hf hpre hp hq
    obtain ⟨f, rfl⟩ : ∃ f, fuel = f + 1 := ⟨fuel - 1, by omega⟩
    obtain ⟨rfl, _, b, hb, hrest⟩ := hc
    have hx := hpre iter (List.mem_cons_self _ _)
    rw [reg_of_some hb] at hx
    have hpre2 : ∀ y ∈ pre, reg h y ≠ rs := fun y hy => hpre y (List.mem_cons_of_mem _ hy)
    have hnext : ∃ bn, h b.next = some bn ∧ bn.region_start ≠ rs := by
      cases pre with
      | nil =>
        obtain ⟨e, _, bn, hbn, _⟩ := hrest
        refine ⟨bn, by rw [e]; exact hbn, ?_⟩
        rw [← reg_of_some hbn]; exact hp
      | cons y pre2 =>
        obtain ⟨e, _, bn, hbn, _⟩ := hrest
        refine ⟨bn, by rw [e]; exact hbn, ?_⟩
        rw [← reg_of_some hbn]; exact hpre2 y (List.mem_cons_self _ _)
    obtain ⟨bn, hbn, hbnr⟩ := hnext
    have hf2 : (pre ++ p :: q :: rest).length < f := by simp at hf ⊢; omega
    simp only [unlink_loop, hb, hx, if_false, hbn, hbnr]
    exact ih p q rest f b.next hrest hf2 hpre2 hp hq

theorem IsChain.splice {h : Heap} {nxt : Nat} {bp : mem_block} :
    ∀ {pre : List Nat} {p : Nat} {mid post : List Nat} {p0 : Nat},
      IsChain h p0 (pre ++ p :: (mid ++ post)) → h p = some bp → nxt = post.headD 0 →
      IsChain (store h p { bp with next := nxt }) p0 (pre ++ p :: post) := by
  intro pre
  induction pre with
  | nil =>
    intro p mid post p0 hc hbp hn
    have hnot := IsChain.head_not_mem hc
    obtain ⟨rfl, hp0, b, hb, hrest⟩ := hc
    refine ⟨rfl, hp0, { bp with next := nxt }, by simp [store], ?_⟩
    have htail : IsChain h nxt post := by rw [hn]; exact IsChain.tail_of_append hrest
    refine IsChain.congr htail ?_
    intro x hx
    have : x ≠ p0 := fun e => hnot (by rw [← e]; exact List.mem_append_right _ hx)
    simp [store, this]
  | cons x pre ih =>
    intro p mid post p0 hc hbp hn
    have hnot := IsChain.head_not_mem hc
    obtain ⟨rfl, hx0, b, hb, hrest⟩ := hc
    have hne : p0 ≠ p := fun e => hnot (by rw [e]; simp)
    refine ⟨rfl, hx0, b, by simp [store, hne, hb], ih hrest hbp hn⟩

/-! ## Well-formed states -/

theorem apart_symm : Symmetric Apart := fun _ _ h => Or.symm h

theorem WF.mapped_nodup {s : State} {l : List Nat} (hwf : WF s l) : s.mapped.Nodup := by
  refine List.Pairwise.imp_of_mem ?_ hwf.mapped_apart
  intro m1 m2 h1 _ hap e
  subst e
  have := hwf.mapped_ok m1 h1
  unfold Apart at hap
  omega

theorem WF.mapped_same_start {s : State} {l : List Nat} (hwf : WF s l) {r n1 n2 : Nat}
    (h1 : (r, n1) ∈ s.mapped) (h2 : (r, n2) ∈ s.mapped) : n1 = n2 := by
  by_contra hne
  have hap := List.Pairwise.forall apart_symm hwf.mapped_apart h1 h2
    (fun e => hne (congrArg Prod.snd e))
  have := hwf.mapped_ok _ h1
  have := hwf.mapped_ok _ h2
  unfold Apart at hap
  simp only at *
  omega

theorem WF.size_lt {s : State} {l : List Nat} (hwf : WF s l) {a : Nat} (ha : a ∈ l) :
    (block_at s.heap a).size < WORD := by
  have h1 := hwf.inside a ha
  have h2 := hwf.mapped_ok _ (hwf.region a ha)
  have h3 := hwf.mapped_ok _ (hwf.region a ha)
  simp only at h2
  omega

theorem WF.usageOk {s : State} {l : List Nat} (hwf : WF s l) : UsageOk s.heap l :=
  fun a ha => ⟨hwf.usage_le a ha, hwf.size_lt ha⟩

/-- A state whose chain is part of a well-formed chain, with the same sizes and regions, is
    well formed. -/
theorem WF.transfer {s s2 : State} {l l2 : List Nat} (hwf : WF s l)
    (hsub : ∀ x ∈ l2, x ∈ l)
    (hchain : IsChain s2.heap s2.g_head l2)
    (hsame : ∀ x ∈ l2, (block_at s2.heap x).size = (block_at s.heap x).size ∧
      reg s2.heap x = reg s.heap x ∧
      (block_at s2.heap x).region_size = (block_at s.heap x).region_size ∧
      (block_at s2.heap x).usage ≤ (block_at s2.heap x).size)
    (hlead : ∀ x ∈ l2, reg s.heap x ∈ l2)
    (hruns : RunsFrom s2.heap 0 l2)
    (hmsub : s2.mapped.Sublist s.mapped)
    (hregion : ∀ x ∈ l2, (reg s.heap x, (block_at s.heap x).region_size) ∈ s2.mapped)
    (hmlead : ∀ m ∈ s2.mapped, m.1 ∈ l2) : WF s2 l2 where
  chain := hchain
  usage_le := fun a ha => (hsame a ha).2.2.2
  size_pos := fun a ha => by rw [(hsame a ha).1]; exact hwf.size_pos a (hsub a ha)
  leader := fun a ha => by
    have h1 := hlead a ha
    rw [(hsame a ha).2.1, (hsame _ h1).2.1]
    exact ⟨h1, (hwf.leader a (hsub a ha)).2⟩
  region := fun a ha => by
    rw [(hsame a ha).2.1, (hsame a ha).2.2.1]
    exact hregion a ha
  inside := fun a ha => by
    rw [(hsame a ha).2.1, (hsame a ha).2.2.1, (hsame a ha).1]
    exact hwf.inside a (hsub a ha)
  runs := hruns
  blocks_apart := fun a ha a2 ha2 hne => by
    rw [(hsame a ha).1, (hsame a2 ha2).1]
    exact hwf.blocks_apart a (hsub a ha) a2 (hsub a2 ha2) hne
  mapped_ok := fun m hm => hwf.mapped_ok m (hmsub.subset hm)
  mapped_apart := hwf.mapped_apart.sublist hmsub
  mapped_leader := fun m hm => by
    have h1 := hmlead m hm
    rw [(hsame _ h1).2.1]
    exact ⟨h1, (hwf.mapped_leader m (hmsub.subset hm)).2⟩

theorem block_at_store_same (h : Heap) (a : Nat) (b : mem_block) :
    block_at (store h a b) a = b := by
  simp [block_at, store]

theorem block_at_store_ne (h : Heap) {a x : Nat} (b : mem_block) (hx : x ≠ a) :
    block_at (store h a b) x = block_at h x := by
  simp [block_at, store, hx]

theorem reg_store_ne (h : Heap) {a x : Nat} (b : mem_block) (hx : x ≠ a) :
    reg (store h a b) x = reg h x := by
  simp [reg, block_at_store_ne h b hx]

/-! ## What `free` does on a well-formed state -/

theorem filter_region_eq {h : Heap} {rs : Nat} {pre run post : List Nat}
    (hpre : ∀ x ∈ pre, reg h x ≠ rs) (hrun : ∀ x ∈ run, reg h x = rs)
    (hpost : ∀ x ∈ post, reg h x ≠ rs) :
    (pre ++ run ++ post).filter (fun x => decide (reg h x ≠ rs)) = pre ++ post := by
  rw [List.filter_append, List.filter_append]
  have h1 : pre.filter (fun x => decide (reg h x ≠ rs)) = pre :=
    List.filter_eq_self.2 (fun x hx => by simpa using hpre x hx)
  have h2 : run.filter (fun x => decide (reg h x ≠ rs)) = [] :=
    List.filter_eq_nil_iff.2 (fun x hx => by simpa using hrun x hx)
  have h3 : post.filter (fun x => decide (reg h x ≠ rs)) = post :=
    List.filter_eq_self.2 (fun x hx => by simpa using hpost x hx)
  rw [h1, h2, h3, List.append_nil]

theorem free_spec {s : State} {l : List Nat} {a : Nat} {b : mem_block} {fuel : Nat}
    (hwf : WF s l) (ha : a ∈ l) (hb : s.heap a = some b) (hf : l.length < fuel) :
    ((∃ x ∈ l, x ≠ a ∧ reg s.heap x = b.region_start ∧ (block_at s.heap x).usage ≠ 0) →
      free fuel s (a + HEADER_SIZE)
        = some { s with heap := store s.heap a { b with usage := 0 } }) ∧
    ((∀ x ∈ l, x ≠ a → reg s.heap x = b.region_start → (block_at s.heap x).usage = 0) →
      ∃ s2, free fuel s (a + HEADER_SIZE) = some s2 ∧
        WF s2 (l.filter (fun x => decide (reg s.heap x ≠ b.region_start))) ∧
        (∀ x ∈ l, reg s.heap x ≠ b.region_start →
          ∃ bx bx2, s.heap x = some bx ∧ s2.heap x = some bx2 ∧
            bx2 = { bx with next := bx2.next }) ∧
        s2.mapped = s.mapped.erase (b.region_start, b.region_size) ∧
        s2.unmapped = s.unmapped ++ [(b.region_start, b.region_size)] ∧
        s2.bytes = s.bytes ∧ s2.g_allocations = s.g_allocations) := by
  have hnd := IsChain.nodup hwf.chain
  have hrs_eq : reg s.heap a = b.region_start := reg_of_some hb
  have hrs_mem : b.region_start ∈ l := hrs_eq ▸ (hwf.leader a ha).1
  have hlead : reg s.heap b.region_start = b.region_start := by
    have := (hwf.leader a ha).2
    rwa [hrs_eq] at this
  have hrs0 : b.region_start ≠ 0 := IsChain.mem_ne_zero hwf.chain _ hrs_mem
  obtain ⟨pre, run, post, hl, hpre, hrun, hpost, hposthead⟩ :=
    region_run hnd hwf.runs hrs_mem hlead hrs0
  -- the heap after `block->usage = 0`
  obtain ⟨h1, hh1⟩ : ∃ h1, h1 = store s.heap a { b with usage := 0 } := ⟨_, rfl⟩
  have hblk1 : ∀ x, x ≠ a → block_at h1 x = block_at s.heap x := by
    intro x hx; rw [hh1]; exact block_at_store_ne _ _ hx
  have hblk1a : block_at h1 a = { b with usage := 0 } := by
    rw [hh1]; exact block_at_store_same _ _ _
  have hreg1 : ∀ x, reg h1 x = reg s.heap x := by
    intro x
    by_cases hx : x = a
    · subst hx; rw [reg, hblk1a, hrs_eq]
    · rw [reg, hblk1 x hx]; rfl
  have hc1 : IsChain h1 s.g_head l := by
    refine IsChain.of_next_eq hwf.chain ?_
    intro x _ bx hbx
    by_cases hx : x = a
    · subst hx
      have : bx = b := Option.some.inj (hbx.symm.trans hb)
      subst this
      refine ⟨{ bx with usage := 0 }, ?_, rfl⟩
      rw [hh1]; simp [store]
    · exact ⟨bx, by rw [hh1]; simp [store, hx, hbx], rfl⟩
  obtain ⟨ldr, hldr⟩ := IsChain.mem_some hc1 _ hrs_mem
  have hl2 : l = pre ++ b.region_start :: (run ++ post) := by rw [hl]; simp
  have hc1b : IsChain h1 s.g_head (pre ++ b.region_start :: (run ++ post)) := hl2 ▸ hc1
  have hcrs : IsChain h1 b.region_start ((b.region_start :: run) ++ post) :=
    IsChain.suffix hc1b
  have hlen : ((b.region_start :: run) ++ post).length < fuel := by
    have : l.length = pre.length + ((b.region_start :: run) ++ post).length := by
      rw [hl2]; simp
    omega
  have hrun1 : ∀ x ∈ b.region_start :: run, reg h1 x = b.region_start := by
    intro x hx
    rw [hreg1]
    rcases List.mem_cons.1 hx with rfl | hx
    · exact hlead
    · exact hrun x hx
  have hpost1 : ∀ y, post.head? = some y → reg h1 y ≠ b.region_start := by
    intro y hy
    rw [hreg1]
    exact hpost y (List.mem_of_mem_head? hy)
  obtain ⟨hscan1, hscan2⟩ := scan_loop_run h1 b.region_start (b.region_start :: run) post fuel
    b.region_start ldr.next hcrs hlen hrun1 hpost1
  have ha_run : a ∈ b.region_start :: run := by
    rw [hl2] at ha
    rcases List.mem_append.1 ha with h | h
    · exact absurd hrs_eq (hpre a h)
    · rcases List.mem_cons.1 h with h | h
      · exact h ▸ List.mem_cons_self _ _
      · rcases List.mem_append.1 h with h | h
        · exact List.mem_cons_of_mem _ h
        · exact absurd hrs_eq (hpost a h)
  have hne : a + HEADER_SIZE ≠ 0 := by simp [HEADER_SIZE]
  have hptr : a + HEADER_SIZE - HEADER_SIZE = a := by omega
  constructor
  · rintro ⟨x, hx, hxa, hxr, hxu⟩
    have hx_run : x ∈ b.region_start :: run := by
      rw [hl2] at hx
      rcases List.mem_append.1 hx with h | h
      · exact absurd hxr (hpre x h)
      · rcases List.mem_cons.1 h with h | h
        · exact h ▸ List.mem_cons_self _ _
        · rcases List.mem_append.1 h with h | h
          · exact List.mem_cons_of_mem _ h
          · exact absurd hxr (hpost x h)
    have hres := hscan1 ⟨x, hx_run, by rw [hblk1 x hxa]; exact hxu⟩
    simp only [free, hne, if_false, hptr, hb]
    simp only [← hh1, hldr, hres]
  · intro hall
    have hzero : ∀ x ∈ b.region_start :: run, (block_at h1 x).usage = 0 := by
      intro x hx
      by_cases hxa : x = a
      · subst hxa; rw [hblk1a]
      · rw [hblk1 x hxa]
        have hxl : x ∈ l := by
          rw [hl2]
          rcases List.mem_cons.1 hx with h | h
          · exact List.mem_append_right _ (h ▸ List.mem_cons_self _ _)
          · exact List.mem_append_right _
              (List.mem_cons_of_mem _ (List.mem_append_left _ h))
        have := hrun1 x hx
        rw [hreg1] at this
        exact hall x hxl hxa this
    have hres := hscan2 hzero
    simp only [List.cons_ne_nil, if_false] at hres
    have hbsz : block_at s.heap a = b := block_at_of_some hb
    have hreg_in : (b.region_start, b.region_size) ∈ s.mapped := by
      have := hwf.region a ha
      rwa [hrs_eq, hbsz] at this
    have houtside : ∀ x ∈ l, reg s.heap x ≠ b.region_start →
        ¬ (b.region_start ≤ x ∧ x < b.region_start + b.region_size) := by
      intro x hx hxr
      have hin := hwf.inside x hx
      have hm := hwf.region x hx
      have hsz := hwf.size_pos x hx
      have hap := List.Pairwise.forall apart_symm hwf.mapped_apart hm hreg_in
        (fun e => hxr (congrArg Prod.fst e))
      unfold Apart at hap
      simp only at hap
      omega
    have hrun2 : ∀ x ∈ b.region_start :: run, reg s.heap x = b.region_start := by
      intro x hx; rw [← hreg1]; exact hrun1 x hx
    have hfilter : l.filter (fun x => decide (reg s.heap x ≠ b.region_start)) = pre ++ post := by
      rw [hl]; exact filter_region_eq hpre hrun2 hpost
    have hmem_other : ∀ x ∈ l, reg s.heap x ≠ b.region_start → x ∈ pre ++ post := by
      intro x hx hxr
      rw [← hfilter]
      exact List.mem_filter.2 ⟨hx, by simpa using hxr⟩
    have hother : ∀ x ∈ pre ++ post, x ∈ l ∧ reg s.heap x ≠ b.region_start := by
      intro x hx
      rw [← hfilter] at hx
      have := List.mem_filter.1 hx
      exact ⟨this.1, by simpa using this.2⟩
    -- the common last step: unmapping the region from a state that holds the other blocks
    have final : ∀ (h2 : Heap) (g2 : Nat),
        (∀ x ∈ pre ++ post, ∃ bx bx2, s.heap x = some bx ∧ h2 x = some bx2 ∧
          bx2 = { bx with next := bx2.next }) →
        IsChain h2 g2 (pre ++ post) →
        WF (munmap { s with heap := h2, g_head := g2 } b.region_start b.region_size)
            (pre ++ post) ∧
          (∀ x ∈ l, reg s.heap x ≠ b.region_start →
            ∃ bx bx2, s.heap x = some bx ∧
              (munmap { s with heap := h2, g_head := g2 } b.region_start b.region_size).heap x
                = some bx2 ∧ bx2 = { bx with next := bx2.next }) := by
      intro h2 g2 hsame hch
      have hheap : ∀ x ∈ pre ++ post,
          (munmap { s with heap := h2, g_head := g2 } b.region_start b.region_size).heap x
            = h2 x := by
        intro x hx
        have := houtside x (hother x hx).1 (hother x hx).2
        simp [munmap, dropRange, this]
      have hfields : ∀ x ∈ pre ++ post,
          block_at (munmap { s with heap := h2, g_head := g2 } b.region_start
              b.region_size).heap x
            = { block_at s.heap x with next := (block_at h2 x).next } := by
        intro x hx
        obtain ⟨bx, bx2, e1, e2, e3⟩ := hsame x hx
        rw [block_at, hheap x hx, e2, block_at_of_some e1, block_at_of_some e2]
        simpa using e3
      refine ⟨?_, ?_⟩
      · refine WF.transfer hwf (fun x hx => (hother x hx).1) ?_ ?_ ?_ ?_ ?_ ?_ ?_
        · exact IsChain.congr hch hheap
        · intro x hx
          rw [reg, hfields x hx]
          exact ⟨rfl, rfl, rfl, hwf.usage_le x (hother x hx).1⟩
        · intro x hx
          have h1 := hwf.leader x (hother x hx).1
          apply hmem_other _ h1.1
          rw [h1.2]
          exact (hother x hx).2
        · have hr0 : RunsFrom s.heap 0 (pre ++ post) := by
            have hr := hwf.runs
            rw [hl, List.append_assoc] at hr
            refine RunsFrom.append (RunsFrom.left hr) ?_
            intro r2
            obtain ⟨r3, hr3⟩ := RunsFrom.right hr
            obtain ⟨r4, hr4⟩ := RunsFrom.right hr3
            exact RunsFrom.of_leader_head hr4 hposthead
          refine RunsFrom.congr_reg hr0 ?_
          intro x hx
          rw [reg, hfields x hx]
          rfl
        · exact List.erase_sublist _ _
        · intro x hx
          have hm := hwf.region x (hother x hx).1
          exact (List.mem_erase_of_ne (fun e => (hother x hx).2 (congrArg Prod.fst e))).2 hm
        · intro m hm
          have hm2 := (List.Nodup.mem_erase_iff hwf.mapped_nodup).1 hm
          have hml := hwf.mapped_leader m hm2.2
          apply hmem_other _ hml.1
          rw [hml.2]
          intro e
          apply hm2.1
          have hm3 : (b.region_start, m.2) ∈ s.mapped := by rw [← e]; exact hm2.2
          have := hwf.mapped_same_start hm3 hreg_in
          exact Prod.ext e this
      · intro x hx hxr
        have hx2 := hmem_other x hx hxr
        obtain ⟨bx, bx2, e1, e2, e3⟩ := hsame x hx2
        exact ⟨bx, bx2, e1, by rw [hheap x hx2]; exact e2, e3⟩
    have hh1a : h1 a = some { b with usage := 0 } := by rw [hh1]; simp [store]
    rw [hfilter]
    have hkeep1 : ∀ x ∈ l, x ≠ a → ∃ bx, s.heap x = some bx ∧ h1 x = some bx := by
      intro x hx hxa
      obtain ⟨bx, hbx⟩ := IsChain.mem_some hwf.chain x hx
      exact ⟨bx, hbx, by rw [hh1]; simp [store, hxa, hbx]⟩
    have hne_a : ∀ x ∈ pre ++ post, x ≠ a := by
      intro x hx e
      exact (hother x hx).2 (e ▸ hrs_eq)
    by_cases hg : s.g_head = b.region_start
    · have hpre_nil : pre = [] := by
        cases pre with
        | nil => rfl
        | cons x pre2 =>
          exfalso
          have := IsChain.head_eq hwf.chain
          rw [hl] at this
          simp only [List.cons_append, List.headD_cons] at this
          have hx := hpre x (List.mem_cons_self _ _)
          rw [← this, hg] at hx
          exact hx hlead
      subst hpre_nil
      have hch : IsChain h1 (post.headD 0) post := by
        have : IsChain h1 s.g_head ((b.region_start :: run) ++ post) := by simpa using hc1b
        exact IsChain.tail_of_append this
      have hsame : ∀ x ∈ [] ++ post, ∃ bx bx2, s.heap x = some bx ∧ h1 x = some bx2 ∧
          bx2 = { bx with next := bx2.next } := by
        intro x hx
        obtain ⟨bx, e1, e2⟩ := hkeep1 x (hother x hx).1 (hne_a x hx)
        exact ⟨bx, bx, e1, e2, rfl⟩
      obtain ⟨hwf2, hkeep⟩ := final h1 (post.headD 0) hsame hch
      refine ⟨_, ?_, hwf2, hkeep, rfl, rfl, rfl, rfl⟩
      simp only [free, hne, if_false, hptr, hb]
      simp only [← hh1, hldr, hres, hg, if_true, hh1a]
    · have hpre_ne : pre ≠ [] := by
        intro e
        subst e
        have := IsChain.head_eq hwf.chain
        rw [hl] at this
        exact hg (by simpa using this)
      obtain ⟨pre2, p, hpre_eq⟩ := (List.eq_nil_or_concat pre).resolve_left hpre_ne
      rw [List.concat_eq_append] at hpre_eq
      subst hpre_eq
      have hp_mem : p ∈ pre2 ++ [p] := by simp
      have hp_reg : reg s.heap p ≠ b.region_start := hpre p hp_mem
      have hpa : p ≠ a := fun e => hp_reg (e ▸ hrs_eq)
      have hap : a ≠ p := fun e => hpa e.symm
      have hc3 : IsChain h1 s.g_head (pre2 ++ p :: b.region_start :: (run ++ post)) := by
        simpa using hc1b
      have hlen3 : (pre2 ++ p :: b.region_start :: (run ++ post)).length < fuel := by
        have : l.length = (pre2 ++ p :: b.region_start :: (run ++ post)).length := by
          rw [hl2]; simp
        omega
      have hun := unlink_loop_spec b.region_start (post.headD 0) h1 pre2 p b.region_start
        (run ++ post) fuel s.g_head hc3 hlen3
        (fun x hx => by rw [hreg1]; exact hpre x (List.mem_append_left _ hx))
        (by rw [hreg1]; exact hp_reg) (by rw [hreg1]; exact hlead)
      have hp_l : p ∈ l := by rw [hl2]; exact List.mem_append_left _ hp_mem
      obtain ⟨bp, hbp, hbp1⟩ := hkeep1 p hp_l hpa
      rw [block_at_of_some hbp1] at hun
      have hch2 : IsChain (store h1 p { bp with next := post.headD 0 }) s.g_head
          (pre2 ++ p :: post) := by
        have hc4 : IsChain h1 s.g_head (pre2 ++ p :: ((b.region_start :: run) ++ post)) := by
          simpa using hc3
        exact IsChain.splice hc4 hbp1 rfl
      have hsame : ∀ x ∈ pre2 ++ [p] ++ post, ∃ bx bx2, s.heap x = some bx ∧
          store h1 p { bp with next := post.headD 0 } x = some bx2 ∧
          bx2 = { bx with next := bx2.next } := by
        intro x hx
        by_cases hxp : x = p
        · subst hxp
          exact ⟨bp, { bp with next := post.headD 0 }, hbp, by simp [store], rfl⟩
        · obtain ⟨bx, e1, e2⟩ := hkeep1 x (hother x hx).1 (hne_a x hx)
          exact ⟨bx, bx, e1, by simp [store, hxp, e2], rfl⟩
      obtain ⟨hwf2, hkeep⟩ := final (store h1 p { bp with next := post.headD 0 }) s.g_head
        hsame (by simpa using hch2)
      refine ⟨_, ?_, hwf2, hkeep, rfl, rfl, rfl, rfl⟩
      simp only [free, hne, if_false, hptr, hb]
      simp only [← hh1, hldr, hres, hg, if_false, hun, Option.map_some']
      simp only [store, hap, if_false, hh1a]

/-- Rewriting one block of the chain, keeping its size, region and successor, keeps the state
    well formed. -/
theorem WF.update_block {s s2 : State} {l : List Nat} {a : Nat} {b b2 : mem_block}
    (hwf : WF s l) (ha : a ∈ l) (hb : s.heap a = some b)
    (hsz : b2.size = b.size) (hrs : b2.region_start = b.region_start)
    (hrl : b2.region_size = b.region_size) (hnx : b2.next = b.next) (hu : b2.usage ≤ b2.size)
    (hheap : s2.heap = store s.heap a b2) (hhead : s2.g_head = s.g_head)
    (hmapped : s2.mapped = s.mapped) : WF s2 l := by
  have hblk : ∀ x, x ≠ a → block_at s2.heap x = block_at s.heap x := by
    intro x hx; rw [hheap]; exact block_at_store_ne _ _ hx
  have hblka : block_at s2.heap a = b2 := by rw [hheap]; exact block_at_store_same _ _ _
  have hba : block_at s.heap a = b := block_at_of_some hb
  refine WF.transfer hwf (fun x hx => hx) ?_ ?_ (fun x hx => (hwf.leader x hx).1) ?_
    (by rw [hmapped]) (fun x hx => by rw [hmapped]; exact hwf.region x hx)
    (fun m hm => (hwf.mapped_leader m (hmapped ▸ hm)).1)
  · rw [hhead]
    refine IsChain.of_next_eq hwf.chain ?_
    intro x _ bx hbx
    by_cases hx : x = a
    · subst hx
      have : bx = b := Option.some.inj (hbx.symm.trans hb)
      subst this
      exact ⟨b2, by rw [hheap]; simp [store], hnx⟩
    · exact ⟨bx, by rw [hheap]; simp [store, hx, hbx], rfl⟩
  · intro x hx
    by_cases hxa : x = a
    · subst hxa
      rw [reg, reg, hblka, hba]
      exact ⟨hsz, hrs, hrl, hu⟩
    · rw [reg, reg, hblk x hxa]
      exact ⟨rfl, rfl, rfl, hwf.usage_le x hx⟩
  · refine RunsFrom.congr_reg hwf.runs ?_
    intro x _
    by_cases hxa : x = a
    · subst hxa
      rw [reg, reg, hblka, hba]
      exact hrs
    · rw [reg, reg, hblk x hxa]

/-! ## The block that `reuse` selects is a block of the chain with enough free capacity -/

theorem bestFit_loop_sound (h : Heap) (size : Nat) (L : List Nat) :
    ∀ (l : List Nat) (fuel iter best min : Nat), IsChain h iter l → l.length < fuel →
      UsageOk h l → (∀ x ∈ l, x ∈ L) → (best = 0 ∨ (best ∈ L ∧ size ≤ free_cap h best)) →
      ∃ r, bestFit_loop h size fuel iter best min = some r ∧
        (r = 0 ∨ (r ∈ L ∧ size ≤ free_cap h r)) := by
  intro l
  induction l with
  | nil =>
    intro fuel iter best min hc hf _ _ hbest
    obtain ⟨f, rfl⟩ : ∃ f, fuel = f + 1 := ⟨fuel - 1, by simp at hf; omega⟩
    simp only [IsChain] at hc
    subst hc
    exact ⟨best, by simp [bestFit_loop], hbest⟩
  | cons a l ih =>
    intro fuel iter best min hc hf hu hL hbest
    obtain ⟨f, rfl⟩ : ∃ f, fuel = f + 1 := ⟨fuel - 1, by simp at hf; omega⟩
    obtain ⟨rfl, ha0, b, hb, hrest⟩ := hc
    have hcap := wsub_block hb (hu iter (List.mem_cons_self _ _))
    have hu2 : UsageOk h l := fun x hx => hu x (List.mem_cons_of_mem _ hx)
    have hL2 : ∀ x ∈ l, x ∈ L := fun x hx => hL x (List.mem_cons_of_mem _ hx)
    have hf2 : l.length < f := by simpa using hf
    have hiter := hL iter (List.mem_cons_self _ _)
    simp only [bestFit_loop, ha0, if_false, hb, hcap]
    split
    · rename_i hfit
      split
      · exact ⟨iter, rfl, Or.inr ⟨hiter, hfit⟩⟩
      · split
        · exact ih f b.next iter _ hrest hf2 hu2 hL2 (Or.inr ⟨hiter, hfit⟩)
        · exact ih f b.next best min hrest hf2 hu2 hL2 hbest
    · exact ih f b.next best min hrest hf2 hu2 hL2 hbest

theorem worstFit_loop_sound (h : Heap) (size : Nat) (L : List Nat) :
    ∀ (l : List Nat) (fuel iter worst max : Nat), IsChain h iter l → l.length < fuel →
      UsageOk h l → (∀ x ∈ l, x ∈ L) → (worst = 0 ∨ (worst ∈ L ∧ size ≤ free_cap h worst)) →
      ∃ r, worstFit_loop h size fuel iter worst max = some r ∧
        (r = 0 ∨ (r ∈ L ∧ size ≤ free_cap h r)) := by
  intro l
  induction l with
  | nil =>
    intro fuel iter worst max hc hf _ _ hworst
    obtain ⟨f, rfl⟩ : ∃ f, fuel = f + 1 := ⟨fuel - 1, by simp at hf; omega⟩
    simp only [IsChain] at hc
    subst hc
    exact ⟨worst, by simp [worstFit_loop], hworst⟩
  | cons a l ih =>
    intro fuel iter worst max hc hf hu hL hworst
    obtain ⟨f, rfl⟩ : ∃ f, fuel = f + 1 := ⟨fuel - 1, by simp at hf; omega⟩
    obtain ⟨rfl, ha0, b, hb, hrest⟩ := hc
    have hcap := wsub_block hb (hu iter (List.mem_cons_self _ _))
    have hu2 : UsageOk h l := fun x hx => hu x (List.mem_cons_of_mem _ hx)
    have hL2 : ∀ x ∈ l, x ∈ L := fun x hx => hL x (List.mem_cons_of_mem _ hx)
    have hf2 : l.length < f := by simpa using hf
    have hiter := hL iter (List.mem_cons_self _ _)
    simp only [worstFit_loop, ha0, if_false, hb, hcap]
    split
    · rename_i hfit
      split
      · exact ih f b.next iter _ hrest hf2 hu2 hL2 (Or.inr ⟨hiter, hfit⟩)
      · exact ih f b.next worst max hrest hf2 hu2 hL2 hworst
    · exact ih f b.next worst max hrest hf2 hu2 hL2 hworst

theorem reuse_select_sound {s : State} {l : List Nat} (fuel : Nat) (env : Env) (size : Nat)
    (hc : IsChain s.heap s.g_head l) (hf : l.length < fuel) (hu : UsageOk s.heap l) :
    ∃ r, reuse_select fuel env s size = some r ∧
      (r = 0 ∨ (r ∈ l ∧ size ≤ free_cap s.heap r)) := by
  have hfirst : ∃ r, firstFit fuel s size = some r ∧
      (r = 0 ∨ (r ∈ l ∧ size ≤ free_cap s.heap r)) := by
    obtain ⟨r, hr, hspec⟩ := firstFit_loop_spec s.heap size l fuel s.g_head hc hf hu
    refine ⟨r, hr, ?_⟩
    rcases hspec with ⟨r0, _⟩ | ⟨_, pre, post, hl, hge, _⟩
    · exact Or.inl r0
    · exact Or.inr ⟨by rw [hl]; simp, hge⟩
  have hbest := bestFit_loop_sound s.heap size l l fuel s.g_head 0 SIZE_MAX hc hf hu
    (fun _ hx => hx) (Or.inl rfl)
  have hworst := worstFit_loop_sound s.heap size l l fuel s.g_head 0 0 hc hf hu
    (fun _ hx => hx) (Or.inl rfl)
  unfold reuse_select
  simp only []
  split
  · exact hfirst
  · split
    · exact hbest
    · split
      · exact hworst
      · exact ⟨0, rfl, Or.inl rfl⟩

/-! ## `split` on a well-formed state -/

theorem IsChain.insert_after {h : Heap} {new : Nat} {p pr nb : mem_block} :
    ∀ {pre : List Nat} {r : Nat} {post : List Nat} {p0 : Nat},
      IsChain h p0 (pre ++ r :: post) → h r = some p → new ∉ pre ++ r :: post → new ≠ 0 →
      nb.next = p.next → pr.next = new →
      IsChain (store (store h new nb) r pr) p0 (pre ++ r :: new :: post) := by
  intro pre
  induction pre with
  | nil =>
    intro r post p0 hc hp hnew hnew0 hnb hpr
    have hnot := IsChain.head_not_mem hc
    obtain ⟨rfl, hr0, b, hb, hrest⟩ := hc
    have hbp : b = p := Option.some.inj (hb.symm.trans hp)
    subst hbp
    have hne : new ≠ p0 := fun e => hnew (by rw [e]; simp)
    refine ⟨rfl, hr0, pr, by simp [store], ?_⟩
    rw [hpr]
    refine ⟨rfl, hnew0, nb, by simp [store, hne], ?_⟩
    rw [hnb]
    refine IsChain.congr hrest ?_
    intro x hx
    have h1 : x ≠ p0 := fun e => hnot (e ▸ hx)
    have h2 : x ≠ new := fun e => hnew (by rw [← e]; simp [hx])
    simp [store, h1, h2]
  | cons y pre ih =>
    intro r post p0 hc hp hnew hnew0 hnb hpr
    have hnot := IsChain.head_not_mem hc
    obtain ⟨rfl, hy0, b, hb, hrest⟩ := hc
    have h1 : p0 ≠ r := fun e => hnot (by rw [e]; simp)
    have h2 : p0 ≠ new := fun e => hnew (by rw [← e]; simp)
    refine ⟨rfl, hy0, b, by simp [store, h1, h2, hb], ?_⟩
    exact ih hrest hp (fun hm => hnew (List.mem_cons_of_mem _ hm)) hnew0 hnb hpr

theorem RunsFrom.insert_run {h h2 : Heap} {new : Nat} :
    ∀ {pre : List Nat} {r : Nat} {post : List Nat} {r0 : Nat},
      RunsFrom h r0 (pre ++ r :: post) → (∀ x ∈ pre ++ r :: post, reg h2 x = reg h x) →
      reg h2 new = reg h r → RunsFrom h2 r0 (pre ++ r :: new :: post) := by
  intro pre
  induction pre with
  | nil =>
    intro r post r0 hr heq hnew
    have hr1 := heq r (by simp)
    obtain ⟨h1, h3⟩ := hr
    refine ⟨by rw [hr1]; exact h1, Or.inr (by rw [hnew, hr1]), ?_⟩
    rw [hnew]
    exact RunsFrom.congr_reg h3 (fun x hx => heq x (by simp [hx]))
  | cons y pre ih =>
    intro r post r0 hr heq hnew
    have hy := heq y (by simp)
    obtain ⟨h1, h3⟩ := hr
    refine ⟨by rw [hy]; exact h1, ?_⟩
    rw [hy]
    exact ih h3 (fun x hx => heq x (List.mem_cons_of_mem _ hx)) hnew

/-- Case A of `split`: a free block is claimed in place. -/
theorem split_claim_wf {s : State} {l : List Nat} {r size : Nat} {p : mem_block}
    (hwf : WF s l) (hr : r ∈ l) (hp : s.heap r = some p) (hu : p.usage = 0)
    (hfit : size ≤ free_cap s.heap r) :
    ∃ s2, split s r size = some (s2, r) ∧ WF s2 l ∧
      s2.heap = store s.heap r { p with alloc_id := s.g_allocations, usage := size } ∧
      s2.bytes = s.bytes ∧ s2.mapped = s.mapped ∧ s2.unmapped = s.unmapped := by
  refine ⟨{ s with
              g_allocations := wadd s.g_allocations 1
              heap := store s.heap r { p with alloc_id := s.g_allocations, usage := size } },
    by simp [split, hp, hu], ?_, rfl, rfl, rfl, rfl⟩
  refine @WF.update_block s _ l r p { p with alloc_id := s.g_allocations, usage := size }
    hwf hr hp rfl rfl rfl rfl ?_ rfl rfl rfl
  rw [free_cap, block_at_of_some hp, hu] at hfit
  simpa using hfit

/-- Case B of `split`: a new block is carved behind the used part of a block in use. -/
theorem split_carve_wf {s : State} {l : List Nat} {r size : Nat} {p : mem_block}
    (hwf : WF s l) (hr : r ∈ l) (hp : s.heap r = some p) (hu : p.usage ≠ 0)
    (hpos : 0 < size) (hfit : size ≤ free_cap s.heap r) :
    ∃ s2 l2, split s r size = some (s2, r + p.usage) ∧ WF s2 l2 ∧ (r + p.usage) ∉ l ∧
      l2.Perm ((r + p.usage) :: l) ∧
      s2.heap = store (store s.heap (r + p.usage)
          { alloc_id := s.g_allocations, size := p.size - p.usage, usage := size,
            region_start := p.region_start, region_size := p.region_size, next := p.next })
        r { p with size := p.usage, next := r + p.usage } ∧
      s2.bytes = s.bytes ∧ s2.mapped = s.mapped ∧ s2.unmapped = s.unmapped := by
  have hpa : block_at s.heap r = p := block_at_of_some hp
  have hule := hwf.usage_le r hr
  have hslt := hwf.size_lt hr
  have hin := hwf.inside r hr
  rw [hpa] at hule hslt
  rw [reg_of_some hp, hpa] at hin
  rw [free_cap, hpa] at hfit
  have hw : wsub p.size p.usage = p.size - p.usage := wsub_eq_sub hule hslt
  have hr0 : r ≠ 0 := IsChain.mem_ne_zero hwf.chain r hr
  have hnew_notin : (r + p.usage) ∉ l := by
    intro hm
    have hap := hwf.blocks_apart r hr _ hm (by omega)
    have hsz := hwf.size_pos _ hm
    rw [hpa] at hap
    unfold Apart at hap
    simp only at hap
    omega
  obtain ⟨pre, post, hl⟩ := List.append_of_mem hr
  obtain ⟨nb, hnb⟩ : ∃ nb : mem_block, nb =
      { alloc_id := s.g_allocations, size := p.size - p.usage, usage := size,
        region_start := p.region_start, region_size := p.region_size, next := p.next } :=
    ⟨_, rfl⟩
  obtain ⟨pr, hpr⟩ : ∃ pr : mem_block, pr = { p with size := p.usage, next := r + p.usage } :=
    ⟨_, rfl⟩
  obtain ⟨s2, hs2⟩ : ∃ s2 : State, s2 = { s with
      g_allocations := wadd s.g_allocations 1
      heap := store (store s.heap (r + p.usage) nb) r pr } := ⟨_, rfl⟩
  have hheap : s2.heap = store (store s.heap (r + p.usage) nb) r pr := by rw [hs2]
  have hsplit : split s r size = some (s2, r + p.usage) := by
    simp [split, hp, hu, hw, hs2, hnb, hpr]
  have hperm : (pre ++ r :: (r + p.usage) :: post).Perm ((r + p.usage) :: l) := by
    have h1 : pre ++ r :: (r + p.usage) :: post = (pre ++ [r]) ++ (r + p.usage) :: post := by
      simp
    have h2 : l = (pre ++ [r]) ++ post := by rw [hl]; simp
    rw [h1, h2]
    exact List.perm_middle
  have hmem : ∀ x, x ∈ pre ++ r :: (r + p.usage) :: post ↔ x = r + p.usage ∨ x ∈ l := by
    intro x
    rw [hperm.mem_iff, List.mem_cons]
  have hBr : block_at s2.heap r = pr := by rw [hheap]; exact block_at_store_same _ _ _
  have hBn : block_at s2.heap (r + p.usage) = nb := by
    rw [hheap, block_at_store_ne _ _ (by omega)]; exact block_at_store_same _ _ _
  have hBx : ∀ x ∈ l, x ≠ r → block_at s2.heap x = block_at s.heap x := by
    intro x hx hxr
    have hxn : x ≠ r + p.usage := fun e => hnew_notin (e ▸ hx)
    rw [hheap, block_at_store_ne _ _ hxr, block_at_store_ne _ _ hxn]
  -- every block of the new chain copies its region from a block of the old chain
  have hsrc : ∀ x ∈ pre ++ r :: (r + p.usage) :: post, ∃ z ∈ l,
      reg s2.heap x = reg s.heap z ∧
      (block_at s2.heap x).region_size = (block_at s.heap z).region_size := by
    intro x hx
    rcases (hmem x).1 hx with rfl | hxl
    · exact ⟨r, hr, by rw [reg, reg, hBn, hpa, hnb], by rw [hBn, hpa, hnb]⟩
    · by_cases hxr : x = r
      · subst hxr
        exact ⟨x, hr, by rw [reg, reg, hBr, hpa, hpr], by rw [hBr, hpa, hpr]⟩
      · exact ⟨x, hxl, by rw [reg, reg, hBx x hxl hxr], by rw [hBx x hxl hxr]⟩
  have hregl : ∀ x ∈ l, reg s2.heap x = reg s.heap x := by
    intro x hxl
    by_cases hxr : x = r
    · subst hxr; rw [reg, reg, hBr, hpa, hpr]
    · rw [reg, reg, hBx x hxl hxr]
  -- sizes and usages of the new chain
  have hgeom : ∀ x ∈ pre ++ r :: (r + p.usage) :: post,
      (x = r + p.usage ∧ (block_at s2.heap x).size = p.size - p.usage ∧
        (block_at s2.heap x).usage = size) ∨
      (x = r ∧ (block_at s2.heap x).size = p.usage ∧ (block_at s2.heap x).usage = p.usage) ∨
      (x ∈ l ∧ x ≠ r ∧ (block_at s2.heap x).size = (block_at s.heap x).size ∧
        (block_at s2.heap x).usage = (block_at s.heap x).usage) := by
    intro x hx
    rcases (hmem x).1 hx with rfl | hxl
    · exact Or.inl ⟨rfl, by rw [hBn, hnb], by rw [hBn, hnb]⟩
    · by_cases hxr : x = r
      · subst hxr
        exact Or.inr (Or.inl ⟨rfl, by rw [hBr, hpr], by rw [hBr, hpr]⟩)
      · exact Or.inr (Or.inr ⟨hxl, hxr, by rw [hBx x hxl hxr], by rw [hBx x hxl hxr]⟩)
  refine ⟨s2, pre ++ r :: (r + p.usage) :: post, hsplit, ?_, hnew_notin, hperm, ?_, ?_, ?_, ?_⟩
  · refine
      { chain := ?_, usage_le := ?_, size_pos := ?_, leader := ?_, region := ?_, inside := ?_,
        runs := ?_, blocks_apart := ?_, mapped_ok := ?_, mapped_apart := ?_,
        mapped_leader := ?_ }
    · rw [hheap]
      have hc := hwf.chain
      rw [hl] at hc
      have : s2.g_head = s.g_head := by rw [hs2]
      rw [this]
      exact IsChain.insert_after hc hp (by rw [← hl]; exact hnew_notin) (by omega)
        (by rw [hnb]) (by rw [hpr])
    · intro x hx
      rcases hgeom x hx with ⟨_, h1, h2⟩ | ⟨_, h1, h2⟩ | ⟨hxl, _, h1, h2⟩
      · omega
      · omega
      · rw [h1, h2]; exact hwf.usage_le x hxl
    · intro x hx
      rcases hgeom x hx with ⟨_, h1, _⟩ | ⟨_, h1, _⟩ | ⟨hxl, _, h1, _⟩
      · omega
      · omega
      · rw [h1]; exact hwf.size_pos x hxl
    · intro x hx
      obtain ⟨z, hz, e1, _⟩ := hsrc x hx
      have hlz := hwf.leader z hz
      rw [e1, hregl _ hlz.1]
      exact ⟨(hmem _).2 (Or.inr hlz.1), hlz.2⟩
    · intro x hx
      obtain ⟨z, hz, e1, e2⟩ := hsrc x hx
      rw [e1, e2]
      have : s2.mapped = s.mapped := by rw [hs2]
      rw [this]
      exact hwf.region z hz
    · intro x hx
      rcases (hmem x).1 hx with rfl | hxl
      · rw [reg, hBn, hnb]
        simp only
        omega
      · by_cases hxr : x = r
        · subst hxr
          rw [reg, hBr, hpr]
          simp only
          omega
        · rw [reg, hBx x hxl hxr]
          exact hwf.inside x hxl
    · have hc := hwf.runs
      rw [hl] at hc
      refine RunsFrom.insert_run hc (fun x hx => hregl x (by rw [hl]; exact hx)) ?_
      rw [reg, reg, hBn, hpa, hnb]
    · intro x hx y hy hxy
      unfold Apart
      simp only
      rcases hgeom x hx with ⟨ex, h1, _⟩ | ⟨ex, h1, _⟩ | ⟨hxl, hxr, h1, _⟩ <;>
        rcases hgeom y hy with ⟨ey, h2, _⟩ | ⟨ey, h2, _⟩ | ⟨hyl, hyr, h2, _⟩
      · omega
      · omega
      · have hn : y ≠ r + p.usage := fun e => hnew_notin (e ▸ hyl)
        have hap := hwf.blocks_apart r hr y hyl (fun e => hyr e.symm)
        rw [hpa] at hap
        unfold Apart at hap
        simp only at hap
        omega
      · omega
      · omega
      · have hap := hwf.blocks_apart r hr y hyl (fun e => hyr e.symm)
        rw [hpa] at hap
        unfold Apart at hap
        simp only at hap
        omega
      · have hap := hwf.blocks_apart r hr x hxl (fun e => hxr e.symm)
        rw [hpa] at hap
        unfold Apart at hap
        simp only at hap
        omega
      · have hap := hwf.blocks_apart r hr x hxl (fun e => hxr e.symm)
        rw [hpa] at hap
        unfold Apart at hap
        simp only at hap
        omega
      · have hap := hwf.blocks_apart x hxl y hyl hxy
        unfold Apart at hap
        simp only at hap
        omega
    · intro m hm
      have : s2.mapped = s.mapped := by rw [hs2]
      exact hwf.mapped_ok m (this ▸ hm)
    · have : s2.mapped = s.mapped := by rw [hs2]
      rw [this]
      exact hwf.mapped_apart
    · intro m hm
      have : s2.mapped = s.mapped := by rw [hs2]
      have hml := hwf.mapped_leader m (this ▸ hm)
      exact ⟨(hmem _).2 (Or.inr hml.1), by rw [hregl _ hml.1]; exact hml.2⟩
  · rw [hheap, hnb, hpr]
  · rw [hs2]
  · rw [hs2]
  · rw [hs2]

/-! ## The fresh-region path of `malloc` on a well-formed state -/

theorem fresh_not_mem {s : State} {l : List Nat} {a R : Nat} (hwf : WF s l) (hR : 0 < R)
    (hap : ∀ m ∈ s.mapped, Apart (a, R) m) : a ∉ l := by
  intro ha
  have hin := hwf.inside a ha
  have hsz := hwf.size_pos a ha
  have := hap _ (hwf.region a ha)
  unfold Apart at this
  simp only at this
  omega

theorem fresh_wf {s s3 : State} {l : List Nat} {a R u g : Nat} (hwf : WF s l)
    (ha0 : 0 < a) (hR : 0 < R) (hfit : a + R ≤ WORD)
    (hap : ∀ m ∈ s.mapped, Apart (a, R) m) (hu : u ≤ R)
    (hchain : IsChain s3.heap s3.g_head (l ++ [a]))
    (hnew : s3.heap a = some
      { alloc_id := g, size := R, usage := u, region_start := a, region_size := R, next := 0 })
    (hold : ∀ x ∈ l, ∃ b b3, s.heap x = some b ∧ s3.heap x = some b3 ∧
      b3 = { b with next := b3.next })
    (hmapped : s3.mapped = s.mapped ++ [(a, R)]) : WF s3 (l ++ [a]) := by
  have hnotin := fresh_not_mem hwf hR hap
  have hBa : block_at s3.heap a =
      { alloc_id := g, size := R, usage := u, region_start := a, region_size := R, next := 0 } :=
    block_at_of_some hnew
  have hBx : ∀ x ∈ l, (block_at s3.heap x).size = (block_at s.heap x).size ∧
      (block_at s3.heap x).usage = (block_at s.heap x).usage ∧
      reg s3.heap x = reg s.heap x ∧
      (block_at s3.heap x).region_size = (block_at s.heap x).region_size := by
    intro x hx
    obtain ⟨b, b3, e1, e2, e3⟩ := hold x hx
    rw [reg, reg, block_at_of_some e1, block_at_of_some e2, e3]
    exact ⟨rfl, rfl, rfl, rfl⟩
  have hmem : ∀ x, x ∈ l ++ [a] ↔ x ∈ l ∨ x = a := by
    intro x; simp
  refine
    { chain := hchain, usage_le := ?_, size_pos := ?_, leader := ?_, region := ?_, inside := ?_,
      runs := ?_, blocks_apart := ?_, mapped_ok := ?_, mapped_apart := ?_,
      mapped_leader := ?_ }
  · intro x hx
    rcases (hmem x).1 hx with hxl | rfl
    · rw [(hBx x hxl).1, (hBx x hxl).2.1]; exact hwf.usage_le x hxl
    · rw [hBa]; exact hu
  · intro x hx
    rcases (hmem x).1 hx with hxl | rfl
    · rw [(hBx x hxl).1]; exact hwf.size_pos x hxl
    · rw [hBa]; exact hR
  · intro x hx
    rcases (hmem x).1 hx with hxl | rfl
    · have hl := hwf.leader x hxl
      rw [(hBx x hxl).2.2.1, (hBx _ hl.1).2.2.1]
      exact ⟨(hmem _).2 (Or.inl hl.1), hl.2⟩
    · have : reg s3.heap x = x := by rw [reg, hBa]
      rw [this]
      exact ⟨hx, this⟩
  · intro x hx
    rw [hmapped]
    rcases (hmem x).1 hx with hxl | rfl
    · rw [(hBx x hxl).2.2.1, (hBx x hxl).2.2.2]
      exact List.mem_append_left _ (hwf.region x hxl)
    · rw [reg, hBa]
      exact List.mem_append_right _ (List.mem_singleton.2 rfl)
  · intro x hx
    rcases (hmem x).1 hx with hxl | rfl
    · rw [(hBx x hxl).2.2.1, (hBx x hxl).2.2.2, (hBx x hxl).1]
      exact hwf.inside x hxl
    · rw [reg, hBa]
      exact ⟨le_refl _, le_refl _⟩
  · refine RunsFrom.append (RunsFrom.congr_reg hwf.runs (fun x hx => (hBx x hx).2.2.1)) ?_
    intro r2
    exact ⟨Or.inl (by rw [reg, hBa]), trivial⟩
  · have hfar : ∀ x ∈ l, Apart (x, (block_at s.heap x).size) (a, R) := by
      intro x hxl
      have hin := hwf.inside x hxl
      have := hap _ (hwf.region x hxl)
      unfold Apart at this ⊢
      simp only at this ⊢
      omega
    intro x hx y hy hxy
    rcases (hmem x).1 hx with hxl | rfl <;> rcases (hmem y).1 hy with hyl | rfl
    · rw [(hBx x hxl).1, (hBx y hyl).1]
      exact hwf.blocks_apart x hxl y hyl hxy
    · rw [(hBx x hxl).1, hBa]
      exact hfar x hxl
    · rw [(hBx y hyl).1, hBa]
      exact apart_symm (hfar y hyl)
    · exact absurd rfl hxy
  · intro m hm
    rw [hmapped] at hm
    rcases List.mem_append.1 hm with hm | hm
    · exact hwf.mapped_ok m hm
    · rw [List.mem_singleton.1 hm]
      exact ⟨ha0, hR, hfit⟩
  · rw [hmapped]
    refine List.pairwise_append.2 ⟨hwf.mapped_apart, List.pairwise_singleton _ _, ?_⟩
    intro m hm y hy
    rw [List.mem_singleton.1 hy]
    exact apart_symm (hap m hm)
  · intro m hm
    rw [hmapped] at hm
    rcases List.mem_append.1 hm with hm | hm
    · have hl := hwf.mapped_leader m hm
      exact ⟨(hmem _).2 (Or.inl hl.1), by rw [(hBx _ hl.1).2.2.1]; exact hl.2⟩
    · rw [List.mem_singleton.1 hm]
      exact ⟨(hmem _).2 (Or.inr rfl), by rw [reg, hBa]⟩

/-! ## `malloc` on a well-formed state -/

theorem WF.congr_state {s s2 : State} {l : List Nat} (hwf : WF s l) (h1 : s2.heap = s.heap)
    (h2 : s2.g_head = s.g_head) (h3 : s2.mapped = s.mapped) : WF s2 l where
  chain := by rw [h1, h2]; exact hwf.chain
  usage_le := by rw [h1]; exact hwf.usage_le
  size_pos := by rw [h1]; exact hwf.size_pos
  leader := by rw [h1]; exact hwf.leader
  region := by rw [h1, h3]; exact hwf.region
  inside := by rw [h1]; exact hwf.inside
  runs := by rw [h1]; exact hwf.runs
  blocks_apart := by rw [h1]; exact hwf.blocks_apart
  mapped_ok := by rw [h3]; exact hwf.mapped_ok
  mapped_apart := by rw [h3]; exact hwf.mapped_apart
  mapped_leader := by rw [h1, h3]; exact hwf.mapped_leader

theorem round_size_eq {n : Nat} (h : n + n % 8 + HEADER_SIZE < WORD) :
    round_size n = n + n % 8 := by
  unfold round_size
  split
  · unfold wadd
    exact Nat.mod_eq_of_lt (by omega)
  · omega

theorem real_size_eq {n : Nat} (h : n + n % 8 + HEADER_SIZE < WORD) :
    real_size n = n + n % 8 + HEADER_SIZE := by
  unfold real_size
  rw [round_size_eq h]
  unfold wadd
  exact Nat.mod_eq_of_lt h

theorem reuse_spec {s : State} {l : List Nat} (fuel : Nat) (env : Env) (size : Nat)
    (hc : IsChain s.heap s.g_head l) (hf : l.length < fuel) (hu : UsageOk s.heap l) :
    reuse fuel env s size = some (s, 0) ∨
      ∃ r ∈ l, size ≤ free_cap s.heap r ∧ reuse fuel env s size = split s r size := by
  obtain ⟨r, hr, hspec⟩ := reuse_select_sound fuel env size hc hf hu
  unfold reuse
  split
  · exact Or.inl rfl
  · simp only [hr]
    rcases hspec with r0 | ⟨hrl, hfit⟩
    · exact Or.inl (by simp [r0])
    · have : r ≠ 0 := IsChain.mem_ne_zero hc r hrl
      exact Or.inr ⟨r, hrl, hfit, by simp [this]⟩

/-- The reuse path of `malloc`, evaluated. -/
theorem malloc_reuse_eval {fuel : Nat} {env : Env} (mm : Option Nat) {s s1 : State} {n q : Nat}
    (hreuse : reuse fuel env s (real_size n) = some (s1, q)) (hq : q ≠ 0) :
    ∃ s2, malloc fuel env mm s n = some (s2, q + HEADER_SIZE) ∧ s2.heap = s1.heap ∧
      s2.g_head = s1.g_head ∧ s2.mapped = s1.mapped ∧ s2.unmapped = s1.unmapped ∧
      (∀ i, ¬ (q + HEADER_SIZE ≤ i ∧ i < q + HEADER_SIZE + round_size n) →
        s2.bytes i = s1.bytes i) := by
  simp only [real_size] at hreuse
  by_cases hflag : scribble_flag env = 0
  · exact ⟨s1, by simp [malloc, hreuse, hq, hflag], rfl, rfl, rfl, rfl, fun _ _ => rfl⟩
  · refine ⟨scribbler s1 (q + HEADER_SIZE) (round_size n), by simp [malloc, hreuse, hq, hflag],
      rfl, rfl, rfl, rfl, ?_⟩
    intro i hi
    simp [scribbler, hi]

theorem malloc_spec {s : State} {l : List Nat} {fuel : Nat} {env : Env} {mm : Option Nat}
    {n : Nat} (hwf : WF s l) (hf : l.length < fuel) (hv : ValidRequest env s mm n) :
    ∃ s2 p, malloc fuel env mm s n = some (s2, p) ∧
      ((p = 0 ∧ s2 = s ∧ mmap (region_size_of env.page_size (real_size n)) mm = none) ∨
       (∃ nb l2, p = nb + HEADER_SIZE ∧ WF s2 l2 ∧ nb ∈ l2 ∧
          (block_at s2.heap nb).usage = real_size n ∧
          ((l2 = l ∧ (block_at s.heap nb).usage = 0) ∨ (nb ∉ l ∧ l2.Perm (nb :: l))) ∧
          (∀ x ∈ l, x ≠ nb → (block_at s2.heap x).usage = (block_at s.heap x).usage) ∧
          s2.unmapped = s.unmapped ∧
          (∀ i, ¬ (p ≤ i ∧ i < p + round_size n) → s2.bytes i = s.bytes i))) := by
  obtain ⟨hno, hP, hdvd, hmm⟩ := hv
  have hreal := real_size_eq hno
  have hreal_pos : 0 < real_size n := by rw [hreal]; simp [HEADER_SIZE]
  rcases reuse_spec fuel env (real_size n) hwf.chain hf hwf.usageOk with hnull | ⟨r, hr, hfit, hre⟩
  · -- no block to reuse: map a fresh region
    cases hm : mmap (region_size_of env.page_size (real_size n)) mm with
    | none =>
      refine ⟨s, 0, ?_, Or.inl ⟨rfl, rfl, rfl⟩⟩
      simp only [real_size] at hnull hm
      simp [malloc, hnull, hm]
    | some a =>
      have hRne : region_size_of env.page_size (real_size n) ≠ 0 := by
        intro h0
        simp [mmap, h0] at hm
      have hmma : mm = some a := by simpa [mmap, hRne] using hm
      obtain ⟨ha0, hafit, hap⟩ := hmm a hmma
      have hreg := region_size_of_spec env.page_size (real_size n) hP hdvd (real_size_lt n) hRne
      have hRpos : 0 < region_size_of env.page_size (real_size n) := Nat.pos_of_ne_zero hRne
      have hnotin := fresh_not_mem hwf hRpos hap
      obtain ⟨s2, hrun, hch, hnew, hold, hmapped, hunm, hby⟩ :=
        malloc_fresh_eval fuel env mm s s n l a hwf.chain hf hnull hm (by omega) hnotin
      have hold2 : ∀ x ∈ l, ∃ b b3, s.heap x = some b ∧ s2.heap x = some b3 ∧
          b3 = { b with next := b3.next } := by
        intro x hx
        obtain ⟨b, e1, e2⟩ := hold x hx
        exact ⟨b, _, e1, e2, rfl⟩
      have hwf2 := fresh_wf hwf ha0 hRpos hafit hap hreg.2.1 hch hnew hold2 hmapped
      refine ⟨s2, a + HEADER_SIZE, hrun, Or.inr ⟨a, l ++ [a], rfl, hwf2, by simp, ?_,
        Or.inr ⟨hnotin, List.perm_append_singleton a l⟩, ?_, hunm, hby⟩⟩
      · rw [block_at_of_some hnew]
      · intro x hx _
        obtain ⟨b, e1, e2⟩ := hold x hx
        rw [block_at_of_some e1, block_at_of_some e2]
  · obtain ⟨p, hp⟩ := IsChain.mem_some hwf.chain r hr
    by_cases hu : p.usage = 0
    · obtain ⟨s1, hsplit, hwf1, hheap, hb1, hm1, hu1⟩ := split_claim_wf hwf hr hp hu hfit
      have hr0 : r ≠ 0 := IsChain.mem_ne_zero hwf.chain r hr
      obtain ⟨s2, hrun, e1, e2, e3, e4, e5⟩ :=
        malloc_reuse_eval mm (hre.trans hsplit) hr0
      have hwf2 : WF s2 l := WF.congr_state hwf1 e1 e2 e3
      refine ⟨s2, r + HEADER_SIZE, hrun, Or.inr ⟨r, l, rfl, hwf2, hr, ?_,
        Or.inl ⟨rfl, by rw [block_at_of_some hp]; exact hu⟩, ?_, by rw [e4, hu1], ?_⟩⟩
      · rw [e1, hheap, block_at_store_same]
      · intro x _ hxr
        rw [e1, hheap, block_at_store_ne _ _ hxr]
      · intro i hi
        rw [e5 i hi, hb1]
    · obtain ⟨s1, l2, hsplit, hwf1, hnotin, hperm, hheap, hb1, hm1, hu1⟩ :=
        split_carve_wf hwf hr hp hu hreal_pos hfit
      have hq0 : r + p.usage ≠ 0 := by omega
      obtain ⟨s2, hrun, e1, e2, e3, e4, e5⟩ :=
        malloc_reuse_eval mm (hre.trans hsplit) hq0
      have hwf2 : WF s2 l2 := WF.congr_state hwf1 e1 e2 e3
      refine ⟨s2, r + p.usage + HEADER_SIZE, hrun, Or.inr ⟨r + p.usage, l2, rfl, hwf2,
        hperm.mem_iff.2 (List.mem_cons_self _ _), ?_, Or.inr ⟨hnotin, hperm⟩, ?_,
        by rw [e4, hu1], ?_⟩⟩
      · rw [e1, hheap, block_at_store_ne _ _ (by omega), block_at_store_same]
      · intro x hx hxn
        by_cases hxr : x = r
        · subst hxr
          rw [e1, hheap, block_at_store_same, block_at_of_some hp]
        · rw [e1, hheap, block_at_store_ne _ _ hxr, block_at_store_ne _ _ hxn]
      · intro i hi
        rw [e5 i hi, hb1]

/-! ## `free` and `realloc` keep the state well formed -/

theorem WF.empty : WF State.empty [] where
  chain := rfl
  usage_le := by simp
  size_pos := by simp
  leader := by simp
  region := by simp
  inside := by simp
  runs := trivial
  blocks_apart := by simp
  mapped_ok := by simp [State.empty]
  mapped_apart := by simp [State.empty]
  mapped_leader := by simp [State.empty]

theorem free_wf {s : State} {l : List Nat} {a : Nat} {fuel : Nat}
    (hwf : WF s l) (ha : a ∈ l) (hf : l.length < fuel) :
    ∃ s2 l2, free fuel s (a + HEADER_SIZE) = some s2 ∧ WF s2 l2 ∧ l2.length ≤ l.length ∧
      s2.bytes = s.bytes := by
  obtain ⟨b, hb⟩ := IsChain.mem_some hwf.chain a ha
  obtain ⟨h1, h2⟩ := free_spec hwf ha hb hf
  by_cases hex : ∃ x ∈ l, x ≠ a ∧ reg s.heap x = b.region_start ∧ (block_at s.heap x).usage ≠ 0
  · refine ⟨_, l, h1 hex, ?_, le_refl _, rfl⟩
    exact @WF.update_block s _ l a b { b with usage := 0 } hwf ha hb rfl rfl rfl rfl
      (Nat.zero_le _) rfl rfl rfl
  · have hall : ∀ x ∈ l, x ≠ a → reg s.heap x = b.region_start →
        (block_at s.heap x).usage = 0 := by
      intro x hx hxa hxr
      by_contra hne
      exact hex ⟨x, hx, hxa, hxr, hne⟩
    obtain ⟨s2, hrun, hwf2, _, _, _, hbytes, _⟩ := h2 hall
    exact ⟨s2, _, hrun, hwf2, List.length_filter_le _ _, hbytes⟩

theorem live_mem {s : State} {l : List Nat} {p : Nat} (hwf : WF s l) (hp : Live s p) :
    p - HEADER_SIZE ∈ l ∧ p = (p - HEADER_SIZE) + HEADER_SIZE ∧
      (block_at s.heap (p - HEADER_SIZE)).usage ≠ 0 := by
  obtain ⟨hge, l2, hc, hm, hu⟩ := hp
  have := IsChain.unique hc hwf.chain
  subst this
  exact ⟨hm, by omega, hu⟩

theorem realloc_size_eq {n : Nat} (h : realloc_size n + realloc_size n % 8 + HEADER_SIZE < WORD) :
    wadd (wadd n (n % 8)) HEADER_SIZE = realloc_size n := by
  have h1 : n + n % 8 < WORD := by unfold realloc_size at h; omega
  unfold realloc_size at h ⊢
  have h2 : wadd n (n % 8) = n + n % 8 := Nat.mod_eq_of_lt h1
  rw [h2]
  exact Nat.mod_eq_of_lt (by omega)

theorem memcpy_some {s s2 : State} {dst src n : Nat} (h : memcpy s dst src n = some s2) :
    s2 = copy_bytes s dst src n ∧ readable s src n = true ∧ readable s dst n = true := by
  unfold memcpy at h
  by_cases hr : (readable s src n && readable s dst n) = true
  · rw [if_pos hr] at h
    rw [Bool.and_eq_true] at hr
    exact ⟨(Option.some.inj h).symm, hr.1, hr.2⟩
  · rw [if_neg hr] at h
    exact absurd h (by simp)

theorem memcpy_of_readable {s : State} {dst src n : Nat} (h1 : readable s src n = true)
    (h2 : readable s dst n = true) : memcpy s dst src n = some (copy_bytes s dst src n) := by
  unfold memcpy
  rw [h1, h2]
  rfl

theorem readable_iff {s : State} {a : Nat} : ∀ {n : Nat},
    readable s a n = true ↔ ∀ i, i < n → (load s (a + i)).isSome = true
  | 0 => by simp [readable]
  | n + 1 => by
    simp only [readable, Bool.and_eq_true]
    rw [@readable_iff s a n]
    constructor
    · rintro ⟨h1, h2⟩ i hi
      rcases Nat.lt_succ_iff_lt_or_eq.1 hi with h | h
      · exact h2 i h
      · rw [h]; exact h1
    · intro h
      exact ⟨h n (Nat.lt_succ_self n), fun i hi => h i (Nat.lt_succ_of_lt hi)⟩

/-- A call of `realloc` that returns, with a request that does not wrap, keeps the state
    well formed. -/
theorem realloc_wf {s s2 : State} {l : List Nat} {fuel : Nat} {env : Env} {mm : Option Nat}
    {p n q : Nat} (hwf : WF s l) (hf : l.length + 1 < fuel) (hp : p = 0 ∨ Live s p)
    (hv : ValidRequest env s mm (realloc_size n))
    (hrun : realloc fuel env mm s p n = some (s2, q)) : ∃ l2, WF s2 l2 := by
  have hsize := realloc_size_eq hv.1
  have hsize_pos : realloc_size n ≠ 0 := by unfold realloc_size; simp [HEADER_SIZE]
  rcases hp with rfl | hlive
  · have hr : realloc fuel env mm s 0 n = malloc fuel env mm s (realloc_size n) := by
      simp only [realloc, hsize, if_true]
    rw [hr] at hrun
    obtain ⟨s3, q3, hrun3, hres⟩ := malloc_spec hwf (Nat.lt_of_succ_lt hf) hv
    rw [hrun3] at hrun
    simp only [Option.some.injEq, Prod.mk.injEq] at hrun
    obtain ⟨rfl, rfl⟩ := hrun
    rcases hres with ⟨_, e, _⟩ | ⟨nb, l2, _, hwf2, _⟩
    · exact ⟨l, e ▸ hwf⟩
    · exact ⟨l2, hwf2⟩
  · obtain ⟨hmem, hpe, hlu⟩ := live_mem hwf hlive
    have hp0 : p ≠ 0 := by
      have := hlive.1
      simp only [HEADER_SIZE] at this
      omega
    obtain ⟨ob, hob⟩ := IsChain.mem_some hwf.chain _ hmem
    by_cases hlt : ob.size < realloc_size n
    · obtain ⟨s1, new, hrun1, hres⟩ := malloc_spec hwf (Nat.lt_of_succ_lt hf) hv
      rcases hres with ⟨hnew0, e, _⟩ | ⟨nb, l2, hnew, hwf1, _, _, hl2, husage, _, _⟩
      · have hr : realloc fuel env mm s p n = some (s1, 0) := by
          simp [realloc, hsize, hp0, hsize_pos, hob, hlt, hrun1, hnew0]
        rw [hr] at hrun
        simp only [Option.some.injEq, Prod.mk.injEq] at hrun
        obtain ⟨rfl, _⟩ := hrun
        exact ⟨l, e ▸ hwf⟩
      · have hmem2 : p - HEADER_SIZE ∈ l2 := by
          rcases hl2 with ⟨e, _⟩ | ⟨_, hperm⟩
          · rw [e]; exact hmem
          · exact hperm.mem_iff.2 (List.mem_cons_of_mem _ hmem)
        have hlen2 : l2.length < fuel := by
          rcases hl2 with ⟨e, _⟩ | ⟨_, hperm⟩
          · rw [e]; omega
          · have := hperm.length_eq
            simp only [List.length_cons] at this
            omega
        obtain ⟨ob1, hob1⟩ := IsChain.mem_some hwf1.chain _ hmem2
        have hnew0 : new ≠ 0 := by rw [hnew]; simp [HEADER_SIZE]
        have hr : realloc fuel env mm s p n
            = (memcpy s1 new p ob1.usage).bind
                (fun sm => (free fuel sm p).map (fun s3 => (s3, new))) := by
          simp only [realloc, hsize, hp0, if_false, hsize_pos, hob, hlt, if_true, hrun1, hnew0,
            hob1]
          cases memcpy s1 new p ob1.usage <;> rfl
        rw [hr] at hrun
        cases hmc : memcpy s1 new p ob1.usage with
        | none => rw [hmc] at hrun; exact absurd hrun (by simp)
        | some sm =>
          rw [hmc] at hrun
          obtain ⟨rfl, _, _⟩ := memcpy_some hmc
          have hwfm : WF (copy_bytes s1 new p ob1.usage) l2 := WF.congr_state hwf1 rfl rfl rfl
          obtain ⟨s3, l3, hfree, hwf3, _, _⟩ := free_wf hwfm hmem2 hlen2
          rw [← hpe] at hfree
          simp only [Option.some_bind, hfree, Option.map_some', Option.some.injEq,
            Prod.mk.injEq] at hrun
          obtain ⟨rfl, _⟩ := hrun
          exact ⟨l3, hwf3⟩
    · have hr : realloc fuel env mm s p n = some ({ s with
          heap := (store s.heap (p - HEADER_SIZE) { ob with usage := realloc_size n }) }, p) := by
        simp only [realloc, hsize, hp0, if_false, hsize_pos, hob, hlt]
      rw [hr] at hrun
      simp only [Option.some.injEq, Prod.mk.injEq] at hrun
      obtain ⟨rfl, _⟩ := hrun
      exact ⟨l, @WF.update_block s _ l _ ob { ob with usage := realloc_size n } hwf hmem hob
          rfl rfl rfl rfl (Nat.le_of_not_lt hlt) rfl rfl rfl⟩

/-- A call of `calloc` whose product does not wrap is a call of `malloc` followed by zeroing
    the payload: it keeps the state well formed. -/
theorem calloc_wf {s s2 : State} {l : List Nat} {fuel : Nat} {env : Env} {mm : Option Nat}
    {nmemb size p : Nat} (hwf : WF s l) (hf : l.length < fuel) (hlt : nmemb * size < WORD)
    (hv : ValidRequest env s mm (nmemb * size))
    (hrun : calloc fuel env mm s nmemb size = some (s2, p)) :
    ∃ s1 l2, WF s2 l2 ∧
      ((s2 = s ∧ p = 0 ∧ l2 = l ∧ s1 = s ∧ nmemb * size = 0) ∨
       (nmemb * size ≠ 0 ∧ p ≠ 0 ∧ malloc fuel env mm s (nmemb * size) = some (s1, p) ∧
          s2 = memset s1 p 0 (nmemb * size))) := by
  have hw : wmul nmemb size = nmemb * size := Nat.mod_eq_of_lt hlt
  have hw2 : wmul size nmemb = nmemb * size := by
    unfold wmul; rw [Nat.mul_comm]; exact Nat.mod_eq_of_lt hlt
  unfold calloc at hrun
  rw [hw2, hw] at hrun
  by_cases h0 : nmemb * size = 0
  · rw [if_pos h0] at hrun
    simp only [Option.some.injEq, Prod.mk.injEq] at hrun
    obtain ⟨rfl, rfl⟩ := hrun
    exact ⟨s, l, hwf, Or.inl ⟨rfl, rfl, rfl, rfl, h0⟩⟩
  · rw [if_neg h0] at hrun
    obtain ⟨s3, q, hm, hres⟩ := malloc_spec hwf hf hv
    rw [hm] at hrun
    simp only at hrun
    by_cases hq : q = 0
    · rw [if_pos hq] at hrun; exact absurd hrun (by simp)
    · rw [if_neg hq] at hrun
      simp only [Option.some.injEq, Prod.mk.injEq] at hrun
      obtain ⟨rfl, rfl⟩ := hrun
      rcases hres with ⟨e, _⟩ | ⟨nb, l2, _, hwf2, _⟩
      · exact absurd e hq
      · exact ⟨s3, l2, WF.congr_state hwf2 rfl rfl rfl, Or.inr ⟨h0, hq, hm, rfl⟩⟩

theorem Reachable.wf {s : State} (h : Reachable s) : ∃ l, WF s l := by
  induction h with
  | init => exact ⟨[], WF.empty⟩
  | malloc s s2 fuel env mm n p _ hv hfuel hrun ih =>
    obtain ⟨l, hwf⟩ := ih
    have hf := hfuel l hwf.chain
    obtain ⟨s3, q, hrun2, hres⟩ := malloc_spec hwf (Nat.lt_of_succ_lt hf) hv
    rw [hrun] at hrun2
    simp only [Option.some.injEq, Prod.mk.injEq] at hrun2
    obtain ⟨rfl, rfl⟩ := hrun2
    rcases hres with ⟨_, e, _⟩ | ⟨nb, l2, _, hwf2, _⟩
    · exact ⟨l, e ▸ hwf⟩
    · exact ⟨l2, hwf2⟩
  | free s s2 fuel p _ hlive hfuel hrun ih =>
    obtain ⟨l, hwf⟩ := ih
    have hf := hfuel l hwf.chain
    obtain ⟨hmem, hpe, _⟩ := live_mem hwf hlive
    obtain ⟨s3, l3, hfree, hwf3, _, _⟩ := free_wf hwf hmem (Nat.lt_of_succ_lt hf)
    rw [← hpe, hrun] at hfree
    simp only [Option.some.injEq] at hfree
    subst hfree
    exact ⟨l3, hwf3⟩
  | realloc s s2 fuel env mm p n q _ hp hv hfuel hrun ih =>
    obtain ⟨l, hwf⟩ := ih
    have hf := hfuel l hwf.chain
    exact realloc_wf hwf hf hp hv hrun
  | calloc s s2 fuel env mm nmemb size p _ hlt hv hfuel hrun ih =>
    obtain ⟨l, hwf⟩ := ih
    have hf := hfuel l hwf.chain
    obtain ⟨s3, l3, hwf3, _⟩ := calloc_wf hwf (Nat.lt_of_succ_lt hf) hlt hv hrun
    exact ⟨l3, hwf3⟩

/-! ## Postcondition of `free` -/

theorem scan_loop_self_loop (h : Heap) (rs y : Nat) (b : mem_block) (hy0 : y ≠ 0)
    (hb : h y = some b) (hr : b.region_start = rs) (hu : b.usage = 0) (hn : b.next = y) :
    ∀ fuel nxt, scan_loop h rs fuel y nxt = none := by
  intro fuel
  induction fuel with
  | zero => intro nxt; rfl
  | succ f ih =>
    intro nxt
    simp only [scan_loop, hy0, if_false, hb, hr, ne_eq, not_true_eq_false, hu, hn]
    exact ih y

/-- C10, as the claim states it, fails: after `malloc(0)`, `malloc(0)`, `malloc(2^64 - 80)` the
    block at 4096 is in use (its payload pointer 4176 was returned by the first call) and the
    chain runs 4096, 4176, 4176, ... (the third call wrote its new header over the block at
    4176, whose `next` now is itself), so `free(4176)` never returns, whatever the fuel. -/
theorem free_after_overflow_counterexample :
    (malloc 3 env0 (some 4096) State.empty 0).map Prod.snd = some 4176 ∧
    ∃ s, overflow_trace = some s ∧ s.g_head = 4096 ∧
      s.heap 4096 = some { alloc_id := 0, size := 80, usage := 80, region_start := 4096,
                           region_size := 4096, next := 4176 } ∧
      s.heap 4176 = some { alloc_id := 2, size := 0, usage := 0, region_start := 4096,
                           region_size := 4096, next := 4176 } ∧
      ∀ fuel, free fuel s 4176 = none := by
  refine ⟨by decide, ?_⟩
  have h1 : overflow_trace.isSome = true := by decide
  obtain ⟨s, hs⟩ := Option.isSome_iff_exists.1 h1
  have hg : overflow_trace.map State.g_head = some 4096 := by decide
  have hA : overflow_trace.bind (fun s => s.heap 4096)
      = some { alloc_id := 0, size := 80, usage := 80, region_start := 4096,
               region_size := 4096, next := 4176 } := by decide
  have hY : overflow_trace.bind (fun s => s.heap 4176)
      = some { alloc_id := 2, size := 0, usage := 0, region_start := 4096,
               region_size := 4096, next := 4176 } := by decide
  rw [hs] at hg hA hY
  simp only [Option.map_some', Option.some.injEq, Option.some_bind] at hg hA hY
  refine ⟨s, hs, hg, hA, hY, ?_⟩
  intro fuel
  have hloop := scan_loop_self_loop
    (store s.heap 4096 { alloc_id := 0, size := 80, usage := 0, region_start := 4096,
                         region_size := 4096, next := 4176 })
    4096 4176
    { alloc_id := 2, size := 0, usage := 0, region_start := 4096, region_size := 4096,
      next := 4176 }
    (by decide) (by simp [store, hY]) rfl rfl rfl
  cases fuel with
  | zero => simp [free, HEADER_SIZE, hA, store, scan_loop]
  | succ f =>
    simp only [free, HEADER_SIZE, hA]
    simp [store, scan_loop, hloop f 4176]

/-- C10 (amended): in every state reachable from the empty chain by `malloc`, `free` and
    `realloc` with requests that do not wrap `size_t`, for every payload pointer `p` of a block
    `b` in use, `free(p)` returns, and (i) if another block of the region of `b` is in use, the
    new state is the old one with only `b.usage` set to `0` (no other field, not the head, and
    nothing is unmapped); (ii) otherwise the chain afterwards is the previous chain without
    the blocks of the region of `b`, in the same order, the remaining blocks keep every field
    other than `next`, and the one range unmapped starts at the region leader and has the
    leader's `region_size` as its length. -/
theorem free_postcondition (s : State) (p fuel : Nat) (hreach : Reachable s) (hlive : Live s p)
    (hfuel : EnoughFuel s fuel) :
    ∃ l b, IsChain s.heap s.g_head l ∧ (p - HEADER_SIZE) ∈ l ∧
      s.heap (p - HEADER_SIZE) = some b ∧ reg s.heap b.region_start = b.region_start ∧
      ((∃ x ∈ l, x ≠ p - HEADER_SIZE ∧ reg s.heap x = b.region_start ∧
          (block_at s.heap x).usage ≠ 0) →
        free fuel s p
          = some { s with heap := store s.heap (p - HEADER_SIZE) { b with usage := 0 } }) ∧
      ((∀ x ∈ l, x ≠ p - HEADER_SIZE → reg s.heap x = b.region_start →
          (block_at s.heap x).usage = 0) →
        ∃ s2, free fuel s p = some s2 ∧
          IsChain s2.heap s2.g_head
            (l.filter (fun x => decide (reg s.heap x ≠ b.region_start))) ∧
          (∀ x ∈ l, reg s.heap x ≠ b.region_start →
            ∃ bx bx2, s.heap x = some bx ∧ s2.heap x = some bx2 ∧
              bx2 = { bx with next := bx2.next }) ∧
          s2.mapped
            = s.mapped.erase (b.region_start, (block_at s.heap b.region_start).region_size) ∧
          s2.unmapped
            = s.unmapped ++ [(b.region_start, (block_at s.heap b.region_start).region_size)]) := by
  obtain ⟨l, hwf⟩ := hreach.wf
  obtain ⟨hmem, hpe, _⟩ := live_mem hwf hlive
  obtain ⟨b, hb⟩ := IsChain.mem_some hwf.chain _ hmem
  have hf := hfuel l hwf.chain
  obtain ⟨h1, h2⟩ := free_spec hwf hmem hb (Nat.lt_of_succ_lt hf)
  rw [← hpe] at h1 h2
  have hrs : reg s.heap (p - HEADER_SIZE) = b.region_start := reg_of_some hb
  have hlead := hwf.leader _ hmem
  rw [hrs] at hlead
  have hlen : (block_at s.heap b.region_start).region_size = b.region_size := by
    have e1 := hwf.region _ hmem
    have e2 := hwf.region _ hlead.1
    rw [hrs, block_at_of_some hb] at e1
    rw [hlead.2] at e2
    exact hwf.mapped_same_start e2 e1
  refine ⟨l, b, hwf.chain, hmem, hb, hlead.2, h1, ?_⟩
  intro hall
  obtain ⟨s2, hrun, hwf2, hkeep, hm, hu, _, _⟩ := h2 hall
  rw [hlen]
  exact ⟨s2, hrun, hwf2.chain, hkeep, hm, hu⟩

/-! ## A concrete reachable state -/

theorem one_block_run :
    malloc 3 env0 (some 4096) State.empty 100 = some (one_block_state, 4176) := rfl

theorem valid_request_empty (n : Nat) (h : n + n % 8 + HEADER_SIZE < WORD)
    (hfit : 4096 + region_size_of 4096 (real_size n) ≤ WORD) :
    ValidRequest env0 State.empty (some 4096) n := by
  refine ⟨h, by decide, by decide, ?_⟩
  intro a ha
  have ha2 : a = 4096 := (Option.some.inj ha).symm
  subst ha2
  exact ⟨by decide, hfit, by simp [State.empty]⟩

theorem enough_fuel_empty : EnoughFuel State.empty 3 := by
  intro l hc
  have : l = [] := IsChain.unique hc (rfl : IsChain State.empty.heap State.empty.g_head [])
  subst this
  decide

theorem one_block_chain : IsChain one_block_state.heap one_block_state.g_head [4096] :=
  ⟨rfl, by decide, _, rfl, rfl⟩

theorem one_block_reachable : Reachable one_block_state :=
  Reachable.malloc State.empty one_block_state 3 env0 (some 4096) 100 4176 Reachable.init
    (valid_request_empty 100 (by decide) (by decide)) enough_fuel_empty one_block_run

theorem one_block_live : Live one_block_state 4176 :=
  ⟨by decide, [4096], one_block_chain, by decide, by decide⟩

theorem one_block_fuel : EnoughFuel one_block_state 3 := by
  intro l hc
  have : l = [4096] := IsChain.unique hc one_block_chain
  subst this
  decide

theorem free_postcondition_witness :
    ∃ l b, IsChain one_block_state.heap one_block_state.g_head l ∧ (4176 - HEADER_SIZE) ∈ l ∧
      one_block_state.heap (4176 - HEADER_SIZE) = some b ∧
      reg one_block_state.heap b.region_start = b.region_start ∧
      ((∃ x ∈ l, x ≠ 4176 - HEADER_SIZE ∧ reg one_block_state.heap x = b.region_start ∧
          (block_at one_block_state.heap x).usage ≠ 0) →
        free 3 one_block_state 4176
          = some { one_block_state with
              heap := store one_block_state.heap (4176 - HEADER_SIZE) { b with usage := 0 } }) ∧
      ((∀ x ∈ l, x ≠ 4176 - HEADER_SIZE → reg one_block_state.heap x = b.region_start →
          (block_at one_block_state.heap x).usage = 0) →
        ∃ s2, free 3 one_block_state 4176 = some s2 ∧
          IsChain s2.heap s2.g_head
            (l.filter (fun x => decide (reg one_block_state.heap x ≠ b.region_start))) ∧
          (∀ x ∈ l, reg one_block_state.heap x ≠ b.region_start →
            ∃ bx bx2, one_block_state.heap x = some bx ∧ s2.heap x = some bx2 ∧
              bx2 = { bx with next := bx2.next }) ∧
          s2.mapped = one_block_state.mapped.erase
            (b.region_start, (block_at one_block_state.heap b.region_start).region_size) ∧
          s2.unmapped = one_block_state.unmapped ++
            [(b.region_start, (block_at one_block_state.heap b.region_start).region_size)]) :=
  free_postcondition one_block_state 4176 3 one_block_reachable one_block_live one_block_fuel

/-! ## Round trip: allocations followed by frees -/

theorem malloc_all_spec (fuel : Nat) :
    ∀ (reqs : List (Env × Option Nat × Nat)) (s : State) (l : List Nat), WF s l →
      (∀ x ∈ l, (block_at s.heap x).usage ≠ 0) → ValidRun fuel s reqs →
      l.length + reqs.length < fuel →
      ∃ s1 ptrs l1, malloc_all fuel s reqs = some (s1, ptrs) ∧ WF s1 l1 ∧
        (∀ x ∈ l1, (block_at s1.heap x).usage ≠ 0) ∧
        l1.Perm (ptrs.map (fun p => p - HEADER_SIZE) ++ l) ∧
        (∀ p ∈ ptrs, HEADER_SIZE ≤ p) ∧ s1.unmapped = s.unmapped ∧
        ptrs.length = reqs.length := by
  intro reqs
  induction reqs with
  | nil =>
    intro s l hwf hu _ _
    exact ⟨s, [], l, rfl, hwf, hu, by simp, by simp, rfl, rfl⟩
  | cons req rest ih =>
    intro s l hwf hu hvalid hf
    obtain ⟨env, mm, n⟩ := req
    obtain ⟨hv, hmap, hnext⟩ := hvalid
    simp only [List.length_cons] at hf
    obtain ⟨s2, p, hrun, hres⟩ := malloc_spec hwf (by omega : l.length < fuel) hv
    rcases hres with ⟨_, _, hnone⟩ | ⟨nb, l2, hp, hwf2, hnb, hnbu, hl2, hkeep, hunm, _⟩
    · exact absurd hnone hmap
    · rcases hl2 with ⟨e, hfree⟩ | ⟨hnotin, hperm⟩
      · exact absurd hfree (hu nb (e ▸ hnb))
      · have hreal : real_size n ≠ 0 := by
          rw [real_size_eq hv.1]; simp [HEADER_SIZE]
        have hu2 : ∀ x ∈ l2, (block_at s2.heap x).usage ≠ 0 := by
          intro x hx
          rcases List.mem_cons.1 (hperm.mem_iff.1 hx) with rfl | hxl
          · rw [hnbu]; exact hreal
          · rw [hkeep x hxl (fun e => hnotin (e ▸ hxl))]
            exact hu x hxl
        have hlen2 : l2.length + rest.length < fuel := by
          have := hperm.length_eq
          simp only [List.length_cons] at this
          omega
        obtain ⟨s1, ptrs, l1, hrun1, hwf1, hu1, hperm1, hge1, hunm1, hlen1⟩ :=
          ih s2 l2 hwf2 hu2 (hnext s2 p hrun) hlen2
        refine ⟨s1, p :: ptrs, l1, by simp [malloc_all, hrun, hrun1], hwf1, hu1, ?_, ?_,
          by rw [hunm1, hunm], by simp [hlen1]⟩
        · have hpn : p - HEADER_SIZE = nb := by omega
          simp only [List.map_cons, hpn, List.cons_append]
          refine hperm1.trans ?_
          refine (List.Perm.append_left _ hperm).trans ?_
          exact List.perm_middle
        · intro q hq
          rcases List.mem_cons.1 hq with rfl | hq
          · omega
          · exact hge1 q hq

theorem perm_cons_erase_pair {a : Nat × Nat} :
    ∀ {l : List (Nat × Nat)}, a ∈ l → l.Perm (a :: l.erase a)
  | [], h => by simp at h
  | x :: l, h => by
    by_cases hx : x = a
    · subst hx
      rw [List.erase_cons_head]
    · have hne : ¬ (x == a) = true := by simpa using hx
      rw [List.erase_cons_tail hne]
      have hal : a ∈ l := by
        rcases List.mem_cons.1 h with e | e
        · exact absurd e.symm hx
        · exact e
      exact ((perm_cons_erase_pair hal).cons x).trans (List.Perm.swap a x _)

theorem free_all_spec (fuel : Nat) :
    ∀ (frees : List Nat) (s : State) (l : List Nat), WF s l → l.length < fuel → frees.Nodup →
      (∀ x ∈ l, (block_at s.heap x).usage ≠ 0 ↔ x + HEADER_SIZE ∈ frees) →
      (∀ p ∈ frees, HEADER_SIZE ≤ p ∧ p - HEADER_SIZE ∈ l) →
      (∀ x ∈ l, ∃ y ∈ l, reg s.heap y = reg s.heap x ∧ (block_at s.heap y).usage ≠ 0) →
      ∃ s2, free_all fuel s frees = some s2 ∧ s2.g_head = 0 ∧ s2.mapped = [] ∧
        s2.unmapped.Perm (s.unmapped ++ s.mapped) := by
  intro frees
  induction frees with
  | nil =>
    intro s l hwf _ _ hiff _ hreg
    have hl : l = [] := by
      apply List.eq_nil_iff_forall_not_mem.2
      intro x hx
      obtain ⟨y, hy, _, hyu⟩ := hreg x hx
      exact absurd ((hiff y hy).1 hyu) (by simp)
    subst hl
    have hm : s.mapped = [] := by
      apply List.eq_nil_iff_forall_not_mem.2
      intro m hm
      exact absurd (hwf.mapped_leader m hm).1 (by simp)
    exact ⟨s, rfl, hwf.chain, hm, by rw [hm]; simp⟩
  | cons p rest ih =>
    intro s l hwf hf hnd hiff hmem hreg
    obtain ⟨hpge, hpl⟩ := hmem p (List.mem_cons_self _ _)
    have hpe : p = (p - HEADER_SIZE) + HEADER_SIZE := by omega
    obtain ⟨hpnot, hnd2⟩ := List.nodup_cons.1 hnd
    obtain ⟨b, hb⟩ := IsChain.mem_some hwf.chain _ hpl
    obtain ⟨h1, h2⟩ := free_spec hwf hpl hb hf
    rw [← hpe] at h1 h2
    have hrs : reg s.heap (p - HEADER_SIZE) = b.region_start := reg_of_some hb
    have hshift : ∀ x ∈ l, x ≠ p - HEADER_SIZE →
        (x + HEADER_SIZE ∈ p :: rest ↔ x + HEADER_SIZE ∈ rest) := by
      intro x _ hx
      constructor
      · intro h
        rcases List.mem_cons.1 h with h | h
        · exact absurd (by omega) hx
        · exact h
      · exact List.mem_cons_of_mem _
    have hmem2 : ∀ q ∈ rest, HEADER_SIZE ≤ q ∧ q - HEADER_SIZE ∈ l ∧
        q - HEADER_SIZE ≠ p - HEADER_SIZE := by
      intro q hq
      obtain ⟨h3, h4⟩ := hmem q (List.mem_cons_of_mem _ hq)
      refine ⟨h3, h4, ?_⟩
      intro e
      have : q = p := by omega
      exact hpnot (this ▸ hq)
    by_cases hex : ∃ x ∈ l, x ≠ p - HEADER_SIZE ∧ reg s.heap x = b.region_start ∧
        (block_at s.heap x).usage ≠ 0
    · have hrun := h1 hex
      obtain ⟨s1, hs1⟩ : ∃ s1 : State,
          s1 = { s with heap := store s.heap (p - HEADER_SIZE) { b with usage := 0 } } :=
        ⟨_, rfl⟩
      rw [← hs1] at hrun
      have hheap : s1.heap = store s.heap (p - HEADER_SIZE) { b with usage := 0 } := by rw [hs1]
      have hwf1 : WF s1 l :=
        @WF.update_block s s1 l _ b { b with usage := 0 } hwf hpl hb rfl rfl rfl rfl
          (Nat.zero_le _) hheap (by rw [hs1]) (by rw [hs1])
      have hB : ∀ x, x ≠ p - HEADER_SIZE → block_at s1.heap x = block_at s.heap x := by
        intro x hx; rw [hheap]; exact block_at_store_ne _ _ hx
      have hBa : block_at s1.heap (p - HEADER_SIZE) = { b with usage := 0 } := by
        rw [hheap]; exact block_at_store_same _ _ _
      have hregs : ∀ x, reg s1.heap x = reg s.heap x := by
        intro x
        by_cases hx : x = p - HEADER_SIZE
        · subst hx; rw [reg, hBa, hrs]
        · rw [reg, hB x hx]; rfl
      obtain ⟨s2, hrun2, hg, hm, hperm⟩ := ih s1 l hwf1 hf hnd2
        (by
          intro x hx
          by_cases hxa : x = p - HEADER_SIZE
          · subst hxa
            rw [hBa, ← hpe]
            simp [hpnot]
          · rw [hB x hxa, hiff x hx]
            exact hshift x hx hxa)
        (fun q hq => ⟨(hmem2 q hq).1, (hmem2 q hq).2.1⟩)
        (by
          intro x hx
          obtain ⟨y, hy, hyr, hyu⟩ := hreg x hx
          by_cases hya : y = p - HEADER_SIZE
          · obtain ⟨z, hz, hza, hzr, hzu⟩ := hex
            refine ⟨z, hz, ?_, by rw [hB z hza]; exact hzu⟩
            rw [hregs, hregs, hzr, ← hyr, hya, hrs]
          · exact ⟨y, hy, by rw [hregs, hregs]; exact hyr, by rw [hB y hya]; exact hyu⟩)
      refine ⟨s2, by simp [free_all, hrun, hrun2], hg, hm, ?_⟩
      have e1 : s1.unmapped = s.unmapped := by rw [hs1]
      have e2 : s1.mapped = s.mapped := by rw [hs1]
      rw [e1, e2] at hperm
      exact hperm
    · have hall : ∀ x ∈ l, x ≠ p - HEADER_SIZE → reg s.heap x = b.region_start →
          (block_at s.heap x).usage = 0 := by
        intro x hx hxa hxr
        by_contra hne
        exact hex ⟨x, hx, hxa, hxr, hne⟩
      obtain ⟨s1, hrun, hwf1, hkeep, hmapped, hunm, _, _⟩ := h2 hall
      have hfl : ∀ x, x ∈ l.filter (fun x => decide (reg s.heap x ≠ b.region_start)) ↔
          x ∈ l ∧ reg s.heap x ≠ b.region_start := by
        intro x
        rw [List.mem_filter]
        simp
      have hB : ∀ x ∈ l, reg s.heap x ≠ b.region_start →
          (block_at s1.heap x).usage = (block_at s.heap x).usage ∧
          reg s1.heap x = reg s.heap x := by
        intro x hx hxr
        obtain ⟨bx, bx2, e1, e2, e3⟩ := hkeep x hx hxr
        rw [reg, reg, block_at_of_some e1, block_at_of_some e2, e3]
        exact ⟨rfl, rfl⟩
      obtain ⟨s2, hrun2, hg, hm, hperm⟩ := ih s1 _ hwf1
        (lt_of_le_of_lt (List.length_filter_le _ _) hf) hnd2
        (by
          intro x hx
          obtain ⟨hxl, hxr⟩ := (hfl x).1 hx
          have hxa : x ≠ p - HEADER_SIZE := fun e => hxr (e ▸ hrs)
          rw [(hB x hxl hxr).1, hiff x hxl]
          exact hshift x hxl hxa)
        (by
          intro q hq
          obtain ⟨h3, h4, h5⟩ := hmem2 q hq
          refine ⟨h3, (hfl _).2 ⟨h4, ?_⟩⟩
          intro hqr
          have hz := hall _ h4 h5 hqr
          have hq2 : q - HEADER_SIZE + HEADER_SIZE ∈ p :: rest := by
            have : q - HEADER_SIZE + HEADER_SIZE = q := by omega
            rw [this]
            exact List.mem_cons_of_mem _ hq
          exact (hiff _ h4).2 hq2 hz)
        (by
          intro x hx
          obtain ⟨hxl, hxr⟩ := (hfl x).1 hx
          obtain ⟨y, hy, hyr, hyu⟩ := hreg x hxl
          have hyr2 : reg s.heap y ≠ b.region_start := by rw [hyr]; exact hxr
          refine ⟨y, (hfl y).2 ⟨hy, hyr2⟩, ?_, ?_⟩
          · rw [(hB y hy hyr2).2, (hB x hxl hxr).2]; exact hyr
          · rw [(hB y hy hyr2).1]; exact hyu)
      refine ⟨s2, by simp [free_all, hrun, hrun2], hg, hm, ?_⟩
      refine hperm.trans ?_
      rw [hunm, hmapped]
      have hin : (b.region_start, b.region_size) ∈ s.mapped := by
        have := hwf.region _ hpl
        rwa [hrs, block_at_of_some hb] at this
      rw [List.append_assoc, List.singleton_append]
      exact List.Perm.append_left _ (perm_cons_erase_pair hin).symm

theorem free_unreadable (fuel : Nat) (s : State) (p : Nat) (hp : p ≠ 0)
    (h : s.heap (p - HEADER_SIZE) = none) : free fuel s p = none := by
  simp [free, hp, h]

/-- C1, as the claim states it, fails: `malloc(0)` then `malloc(2^64 - 80)` return the
    distinct non-null pointers 4176 and 4256 (the second block is carved with `usage = 0`
    because `real_size` wraps to `0`); `free(4176)` then finds the whole region unused, unmaps
    it and empties the chain, so the header of the second pointer is gone and `free(4256)`
    faults, whatever the fuel. -/
theorem round_trip_overflow_counterexample :
    (malloc_all 3 State.empty overflow_requests).map Prod.snd = some [4176, 4256] ∧
    (∃ s3, (malloc_all 3 State.empty overflow_requests).bind (fun r => free 3 r.1 4176)
        = some s3 ∧ s3.g_head = 0 ∧ s3.mapped = [] ∧ ∀ fuel, free fuel s3 4256 = none) ∧
    ((malloc_all 3 State.empty overflow_requests).bind
      (fun r => free_all 3 r.1 [4176, 4256])).isNone = true := by
  refine ⟨by decide, ?_, by decide⟩
  have h1 : ((malloc_all 3 State.empty overflow_requests).bind
      (fun r => free 3 r.1 4176)).isSome = true := by decide
  obtain ⟨s3, hs3⟩ := Option.isSome_iff_exists.1 h1
  have h2 : ((malloc_all 3 State.empty overflow_requests).bind
      (fun r => free 3 r.1 4176)).map (fun s => (s.g_head, s.mapped, s.heap (4256 - HEADER_SIZE)))
        = some (0, [], none) := by decide
  rw [hs3] at h2
  simp only [Option.map_some', Option.some.injEq, Prod.mk.injEq] at h2
  exact ⟨s3, hs3, h2.1, h2.2.1, fun fuel => free_unreadable fuel s3 4256 (by decide) h2.2.2⟩

/-- C1 (amended): for every sequence of `malloc` calls on the empty chain whose requests do
    not wrap `size_t` and whose mappings all succeed, all calls return non-null pointers, and
    freeing each returned pointer exactly once, in any order, succeeds and leaves the chain
    empty (`g_head` is null) with no live mapping: the regions unmapped are exactly the regions
    that were mapped. -/
theorem malloc_free_round_trip (fuel : Nat) (reqs : List (Env × Option Nat × Nat))
    (hvalid : ValidRun fuel State.empty reqs) (hfuel : reqs.length < fuel) :
    ∃ s1 ptrs, malloc_all fuel State.empty reqs = some (s1, ptrs) ∧
      ptrs.length = reqs.length ∧ (∀ p ∈ ptrs, p ≠ 0) ∧
      ∀ frees, frees.Perm ptrs →
        ∃ s2, free_all fuel s1 frees = some s2 ∧ s2.g_head = 0 ∧ s2.mapped = [] ∧
          s2.unmapped.Perm s1.mapped := by
  obtain ⟨s1, ptrs, l1, hrun, hwf1, hu1, hperm1, hge1, hunm1, hlen1⟩ :=
    malloc_all_spec fuel reqs State.empty [] WF.empty (by simp) hvalid (by simpa using hfuel)
  simp only [List.append_nil] at hperm1
  refine ⟨s1, ptrs, hrun, hlen1, ?_, ?_⟩
  · intro p hp
    have := hge1 p hp
    simp only [HEADER_SIZE] at this
    omega
  · intro frees hperm
    have hnd1 : l1.Nodup := IsChain.nodup hwf1.chain
    have hnd2 : ptrs.Nodup := List.Nodup.of_map _ (hperm1.nodup_iff.1 hnd1)
    have hlen : l1.length < fuel := by
      have := hperm1.length_eq
      simp only [List.length_map] at this
      omega
    obtain ⟨s2, hrun2, hg, hm, hp2⟩ := free_all_spec fuel frees s1 l1 hwf1 hlen
      (hperm.nodup_iff.2 hnd2)
      (by
        intro x hx
        refine ⟨fun _ => ?_, fun _ => hu1 x hx⟩
        obtain ⟨p, hp, hpx⟩ := List.mem_map.1 (hperm1.mem_iff.1 hx)
        have := hge1 p hp
        have : x + HEADER_SIZE = p := by omega
        rw [this]
        exact hperm.mem_iff.2 hp)
      (by
        intro p hp
        have hp2 := hperm.mem_iff.1 hp
        exact ⟨hge1 p hp2, hperm1.mem_iff.2 (List.mem_map.2 ⟨p, hp2, rfl⟩)⟩)
      (fun x hx => ⟨x, hx, rfl, hu1 x hx⟩)
    refine ⟨s2, hrun2, hg, hm, ?_⟩
    have : s1.unmapped = [] := by rw [hunm1]; rfl
    rw [this] at hp2
    simpa using hp2

theorem demo_requests_valid : ValidRun 3 State.empty demo_requests := by
  refine ⟨valid_request_empty 1000 (by decide) (by decide), by decide, ?_⟩
  intro s1 p h
  have hm : (malloc 3 env0 (some 4096) State.empty 1000).map (fun r => r.1.mapped)
      = some [(4096, 4096)] := by decide
  rw [h] at hm
  simp only [Option.map_some', Option.some.injEq] at hm
  refine ⟨⟨by decide, by decide, by decide, ?_⟩, by decide, fun _ _ _ => trivial⟩
  intro a ha
  have ha2 : a = 8192 := (Option.some.inj ha).symm
  subst ha2
  refine ⟨by decide, by decide, ?_⟩
  rw [hm]
  intro m hm2
  rw [List.mem_singleton.1 hm2]
  unfold Apart
  decide

theorem malloc_free_round_trip_witness :
    ∃ s1 ptrs, malloc_all 3 State.empty demo_requests = some (s1, ptrs) ∧
      ptrs.length = demo_requests.length ∧ (∀ p ∈ ptrs, p ≠ 0) ∧
      ∀ frees, frees.Perm ptrs →
        ∃ s2, free_all 3 s1 frees = some s2 ∧ s2.g_head = 0 ∧ s2.mapped = [] ∧
          s2.unmapped.Perm s1.mapped :=
  malloc_free_round_trip 3 demo_requests demo_requests_valid (by decide)

/-! ## `realloc` preserves the payload -/

theorem load_of_mem {s : State} {a : Nat} {r : Nat × Nat} (hr : r ∈ s.mapped) (h1 : r.1 ≤ a)
    (h2 : a < r.1 + r.2) : load s a = some (s.bytes a) := by
  have : s.mapped.any (fun r => decide (r.1 ≤ a ∧ a < r.1 + r.2)) = true :=
    List.any_eq_true.2 ⟨r, hr, by simp [h1, h2]⟩
  unfold load
  rw [if_pos this]

/-- Freeing one block leaves every other block that is in use in the chain, with its fields
    other than `next`. -/
theorem free_keeps_live {s : State} {l : List Nat} {a x fuel : Nat} (hwf : WF s l) (ha : a ∈ l)
    (hx : x ∈ l) (hxa : x ≠ a) (hxu : (block_at s.heap x).usage ≠ 0) (hf : l.length < fuel) :
    ∃ s2 l2, free fuel s (a + HEADER_SIZE) = some s2 ∧ WF s2 l2 ∧ x ∈ l2 ∧
      s2.bytes = s.bytes ∧
      ∃ bx bx2, s.heap x = some bx ∧ s2.heap x = some bx2 ∧ bx2 = { bx with next := bx2.next } := by
  obtain ⟨b, hb⟩ := IsChain.mem_some hwf.chain a ha
  obtain ⟨bx, hbx⟩ := IsChain.mem_some hwf.chain x hx
  obtain ⟨h1, h2⟩ := free_spec hwf ha hb hf
  by_cases hex : ∃ y ∈ l, y ≠ a ∧ reg s.heap y = b.region_start ∧ (block_at s.heap y).usage ≠ 0
  · refine ⟨_, l, h1 hex, ?_, hx, rfl, bx, bx, hbx, by simp [store, hxa, hbx], rfl⟩
    exact @WF.update_block s _ l a b { b with usage := 0 } hwf ha hb rfl rfl rfl rfl
      (Nat.zero_le _) rfl rfl rfl
  · have hall : ∀ y ∈ l, y ≠ a → reg s.heap y = b.region_start →
        (block_at s.heap y).usage = 0 := by
      intro y hy hya hyr
      by_contra hne
      exact hex ⟨y, hy, hya, hyr, hne⟩
    obtain ⟨s2, hrun, hwf2, hkeep, _, _, hbytes, _⟩ := h2 hall
    have hxr : reg s.heap x ≠ b.region_start := fun e => hxu (hall x hx hxa e)
    obtain ⟨bx1, bx2, e1, e2, e3⟩ := hkeep x hx hxr
    exact ⟨s2, _, hrun, hwf2, List.mem_filter.2 ⟨hx, by simpa using hxr⟩, hbytes, bx1, bx2, e1,
      e2, e3⟩

theorem split_mapped {s s2 : State} {ptr size r : Nat} (h : split s ptr size = some (s2, r)) :
    s2.mapped = s.mapped := by
  unfold split at h
  cases hp : s.heap ptr with
  | none => rw [hp] at h; exact absurd h (by simp)
  | some p =>
    rw [hp] at h
    simp only at h
    by_cases hu : p.usage = 0
    · rw [if_pos hu] at h
      simp only [Option.some.injEq, Prod.mk.injEq] at h
      obtain ⟨rfl, _⟩ := h
      rfl
    · rw [if_neg hu] at h
      simp only [Option.some.injEq, Prod.mk.injEq] at h
      obtain ⟨rfl, _⟩ := h
      rfl

theorem reuse_mapped {fuel : Nat} {env : Env} {s s1 : State} {size q : Nat}
    (h : reuse fuel env s size = some (s1, q)) : s1.mapped = s.mapped := by
  unfold reuse at h
  by_cases hg : s.g_head = 0
  · rw [if_pos hg] at h
    simp only [Option.some.injEq, Prod.mk.injEq] at h
    rw [← h.1]
  · rw [if_neg hg] at h
    cases hsel : reuse_select fuel env s size with
    | none => rw [hsel] at h; exact absurd h (by simp)
    | some r =>
      rw [hsel] at h
      simp only at h
      by_cases hr0 : r = 0
      · rw [if_pos hr0] at h
        simp only [Option.some.injEq, Prod.mk.injEq] at h
        rw [← h.1]
      · rw [if_neg hr0] at h
        exact split_mapped h

/-- Whatever the state, `malloc` unmaps nothing: every live mapping is still live after it. -/
theorem malloc_mapped_mono {fuel : Nat} {env : Env} {mm : Option Nat} {s s2 : State}
    {n p : Nat} (hrun : malloc fuel env mm s n = some (s2, p)) :
    ∀ m ∈ s.mapped, m ∈ s2.mapped := by
  unfold malloc at hrun
  simp only at hrun
  cases hre : reuse fuel env s (wadd (round_size n) HEADER_SIZE) with
  | none => rw [hre] at hrun; exact absurd hrun (by simp)
  | some r =>
    obtain ⟨s1, q⟩ := r
    have hm1 := reuse_mapped hre
    rw [hre] at hrun
    simp only at hrun
    by_cases hq : q = 0
    · rw [if_neg (not_not.2 hq)] at hrun
      cases hmm : mmap (region_size_of env.page_size (wadd (round_size n) HEADER_SIZE)) mm with
      | none =>
        rw [hmm] at hrun
        simp only [Option.some.injEq, Prod.mk.injEq] at hrun
        obtain ⟨rfl, _⟩ := hrun
        rw [hm1]; exact fun m hm => hm
      | some block =>
        rw [hmm] at hrun
        simp only at hrun
        by_cases hg : s1.g_head = 0
        · rw [if_pos hg] at hrun
          simp only [Option.some.injEq, Prod.mk.injEq] at hrun
          obtain ⟨rfl, _⟩ := hrun
          intro m hm
          rw [← hm1] at hm
          split <;> simp [scribbler, hm]
        · rw [if_neg hg] at hrun
          cases hap : append_loop block fuel
              (store s1.heap block
                { alloc_id := s1.g_allocations
                  size := region_size_of env.page_size (wadd (round_size n) HEADER_SIZE)
                  usage := wadd (round_size n) HEADER_SIZE
                  region_start := block
                  region_size := region_size_of env.page_size (wadd (round_size n) HEADER_SIZE)
                  next := 0 }) s1.g_head with
          | none => rw [hap] at hrun; exact absurd hrun (by simp)
          | some h2 =>
            rw [hap] at hrun
            simp only [Option.map_some', Option.some.injEq, Prod.mk.injEq] at hrun
            obtain ⟨rfl, _⟩ := hrun
            intro m hm
            rw [← hm1] at hm
            split <;> simp [scribbler, hm]
    · rw [if_pos hq] at hrun
      simp only [Option.some.injEq, Prod.mk.injEq] at hrun
      obtain ⟨rfl, _⟩ := hrun
      intro m hm
      rw [← hm1] at hm
      split <;> simp [scribbler, hm]

theorem load_isSome_iff {s : State} {a : Nat} :
    (load s a).isSome = true ↔ ∃ r ∈ s.mapped, r.1 ≤ a ∧ a < r.1 + r.2 := by
  unfold load
  by_cases h : s.mapped.any (fun r => decide (r.1 ≤ a ∧ a < r.1 + r.2)) = true
  · rw [if_pos h]
    simp only [Option.isSome_some, true_iff]
    obtain ⟨r, hr, hd⟩ := List.any_eq_true.1 h
    exact ⟨r, hr, by simpa using hd⟩
  · rw [if_neg h]
    simp only [Option.isSome_none, Bool.false_eq_true, false_iff]
    rintro ⟨r, hr, hd⟩
    exact h (List.any_eq_true.2 ⟨r, hr, by simpa using hd⟩)

theorem readable_mono {s s2 : State} {a n : Nat} (hm : ∀ m ∈ s.mapped, m ∈ s2.mapped)
    (h : readable s a n = true) : readable s2 a n = true := by
  rw [readable_iff] at h ⊢
  intro i hi
  obtain ⟨r, hr, hd⟩ := load_isSome_iff.1 (h i hi)
  exact load_isSome_iff.2 ⟨r, hm r hr, hd⟩

theorem readable_of_mem {s : State} {a n : Nat} {r : Nat × Nat} (hr : r ∈ s.mapped)
    (h1 : r.1 ≤ a) (h2 : a + n ≤ r.1 + r.2) : readable s a n = true := by
  rw [readable_iff]
  intro i hi
  exact load_isSome_iff.2 ⟨r, hr, by omega, by omega⟩

/-- The copy of the migrating path of `realloc` does not fault when the source range is
    readable: the destination range lies inside the new block. -/
theorem migrate_copy {s1 : State} {l2 : List Nat} {p nb new usage : Nat} (hwf1 : WF s1 l2)
    (hnb : nb ∈ l2) (hnew : new = nb + HEADER_SIZE)
    (hfit : usage + HEADER_SIZE ≤ (block_at s1.heap nb).usage)
    (hsrc : readable s1 p usage = true) :
    memcpy s1 new p usage = some (copy_bytes s1 new p usage) := by
  have h1 := hwf1.region nb hnb
  have h2 := hwf1.inside nb hnb
  have h3 := hwf1.usage_le nb hnb
  exact memcpy_of_readable hsrc
    (readable_of_mem h1 (by show _ ≤ _; omega) (by show _ ≤ _ + _; omega))

theorem one_block_realloc_valid :
    ValidRequest env0 one_block_state (some 8192) (realloc_size 5000) := by
  refine ⟨by decide, by decide, by decide, ?_⟩
  intro a ha
  have ha2 : a = 8192 := (Option.some.inj ha).symm
  subst ha2
  refine ⟨by decide, by decide, ?_⟩
  have hm : one_block_state.mapped = [(4096, 4096)] := by decide
  rw [hm]
  intro m hm2
  rw [List.mem_singleton.1 hm2]
  unfold Apart
  decide

/-- C11 fails when the product wraps: `calloc(2^61 + 1, 8)` on the empty chain, with a
    mapping that succeeds, returns a block of 8 payload bytes (usage 88) although the true
    product is `2^64 + 8`; and `calloc(2^63, 2)` returns `NULL` although both arguments are
    nonzero. -/
theorem calloc_overflow_counterexample :
    (mmap (region_size_of env0.page_size (real_size (wmul (2 ^ 61 + 1) 8))) (some 4096) ≠ none ∧
      (calloc 3 env0 (some 4096) State.empty (2 ^ 61 + 1) 8).map
          (fun r => (r.2, (block_at r.1.heap (r.2 - HEADER_SIZE)).usage)) = some (4176, 88) ∧
      88 - HEADER_SIZE < (2 ^ 61 + 1) * 8) ∧
    (calloc 3 env0 (some 4096) State.empty (2 ^ 63) 2).map Prod.snd = some 0 := by
  decide

/-- C11 (amended): `calloc(count, elem_size)` returns `NULL` and leaves the state alone
    when `count = 0` or `elem_size = 0`; and in a reachable state, when both are nonzero, the
    product and the rounded product plus the header do not wrap, and the mapping (if needed)
    succeeds, it returns a non-null payload pointer of a block of the chain whose usage covers
    the header and `count * elem_size` payload bytes, all of which read as zero. -/
theorem calloc_zeroed (s : State) (fuel : Nat) (env : Env) (mm : Option Nat) (count size : Nat) :
    ((count = 0 ∨ size = 0) → calloc fuel env mm s count size = some (s, 0)) ∧
    (Reachable s → EnoughFuel s fuel → count ≠ 0 → size ≠ 0 → count * size < WORD →
      ValidRequest env s mm (count * size) →
      mmap (region_size_of env.page_size (real_size (count * size))) mm ≠ none →
      ∃ s2 p l2, calloc fuel env mm s count size = some (s2, p) ∧ p ≠ 0 ∧ HEADER_SIZE ≤ p ∧
        IsChain s2.heap s2.g_head l2 ∧ (p - HEADER_SIZE) ∈ l2 ∧
        count * size + HEADER_SIZE ≤ (block_at s2.heap (p - HEADER_SIZE)).usage ∧
        ∀ i, i < count * size → load s2 (p + i) = some 0) := by
  constructor
  · intro h0
    have : wmul size count = 0 := by
      rcases h0 with h | h <;> simp [wmul, h]
    unfold calloc
    rw [if_pos this]
  · intro hr hfuel hc hs hlt hv hmap
    obtain ⟨l, hwf⟩ := hr.wf
    have hf := hfuel l hwf.chain
    have hw : wmul count size = count * size := Nat.mod_eq_of_lt hlt
    have hw2 : wmul size count = count * size := by
      unfold wmul; rw [Nat.mul_comm]; exact Nat.mod_eq_of_lt hlt
    have hn0 : count * size ≠ 0 := Nat.mul_ne_zero hc hs
    obtain ⟨s1, p, hm, hres⟩ := malloc_spec hwf (Nat.lt_of_succ_lt hf) hv
    rcases hres with ⟨_, _, e⟩ | ⟨nb, l2, hp, hwf2, hmem, hu, _⟩
    · exact absurd e hmap
    · have hp0 : p ≠ 0 := by unfold HEADER_SIZE at hp; omega
      have hrun : calloc fuel env mm s count size
          = some (memset s1 p 0 (count * size), p) := by
        unfold calloc
        rw [hw2, hw, if_neg hn0, hm]
        simp only
        rw [if_neg hp0]
      have hnb : p - HEADER_SIZE = nb := by omega
      have hus : (block_at s1.heap nb).usage = count * size + (count * size) % 8 + HEADER_SIZE := by
        rw [hu]; exact real_size_eq hv.1
      refine ⟨memset s1 p 0 (count * size), p, l2, hrun, hp0, by omega, hwf2.chain, ?_, ?_, ?_⟩
      · rw [hnb]; exact hmem
      · rw [hnb]
        show _ ≤ (block_at s1.heap nb).usage
        omega
      · intro i hi
        have h1 := hwf2.region nb hmem
        have h2 := hwf2.inside nb hmem
        have h3 := hwf2.usage_le nb hmem
        have hl : load (memset s1 p 0 (count * size)) (p + i)
            = some ((memset s1 p 0 (count * size)).bytes (p + i)) :=
          @load_of_mem (memset s1 p 0 (count * size)) (p + i) _ h1 (by show _ ≤ _; omega)
            (by show _ < _ + _; omega)
        rw [hl]
        show some (if p ≤ p + i ∧ p + i < p + count * size then 0 else s1.bytes (p + i)) = some 0
        rw [if_pos ⟨by omega, by omega⟩]

theorem calloc_zeroed_witness :
    ∃ s2 p l2, calloc 3 env0 (some 4096) State.empty 4 25 = some (s2, p) ∧ p ≠ 0 ∧
      HEADER_SIZE ≤ p ∧ IsChain s2.heap s2.g_head l2 ∧ (p - HEADER_SIZE) ∈ l2 ∧
      4 * 25 + HEADER_SIZE ≤ (block_at s2.heap (p - HEADER_SIZE)).usage ∧
      ∀ i, i < 4 * 25 → load s2 (p + i) = some 0 :=
  (calloc_zeroed State.empty 3 env0 (some 4096) 4 25).2 Reachable.init enough_fuel_empty
    (by decide) (by decide) (by decide) (valid_request_empty (4 * 25) (by decide) (by decide))
    (by decide)

/-! ## Payload capacity -/

/-- The block returned by `split` has the requested usage. -/
theorem split_usage {s s2 : State} {ptr size r : Nat} (h : split s ptr size = some (s2, r)) :
    (block_at s2.heap r).usage = size := by
  unfold split at h
  cases hp : s.heap ptr with
  | none => rw [hp] at h; exact absurd h (by simp)
  | some p =>
    rw [hp] at h
    simp only at h
    by_cases hu : p.usage = 0
    · rw [if_pos hu] at h
      simp only [Option.some.injEq, Prod.mk.injEq] at h
      obtain ⟨rfl, rfl⟩ := h
      simp [block_at, store]
    · rw [if_neg hu] at h
      simp only [Option.some.injEq, Prod.mk.injEq] at h
      obtain ⟨rfl, rfl⟩ := h
      have hne : ptr + p.usage ≠ ptr := by omega
      simp [block_at, store, hne]

/-- The tail-append loop of `malloc` changes no `usage` field. -/
theorem append_loop_usage (block : Nat) : ∀ (fuel : Nat) (h h2 : Heap) (iter : Nat),
    append_loop block fuel h iter = some h2 →
    ∀ x, (block_at h2 x).usage = (block_at h x).usage
  | 0, _, _, _, e => by simp [append_loop] at e
  | fuel + 1, h, h2, iter, e => by
    unfold append_loop at e
    by_cases hi : iter = 0
    · rw [if_pos hi] at e
      simp only [Option.some.injEq] at e
      subst e
      intro x; rfl
    · rw [if_neg hi] at e
      cases hb : h iter with
      | none => rw [hb] at e; exact absurd e (by simp)
      | some b =>
        rw [hb] at e
        simp only at e
        by_cases hn : b.next = 0
        · rw [if_pos hn] at e
          simp only [Option.some.injEq] at e
          subst e
          intro x
          by_cases hx : x = iter
          · subst hx; simp [block_at, store, hb]
          · simp [block_at, store, hx]
        · rw [if_neg hn] at e
          exact append_loop_usage block fuel h h2 b.next e

/-- Whatever the state, the block behind a non-null pointer returned by `malloc(n)` has
    usage `real_size n`. -/
theorem malloc_usage {fuel : Nat} {env : Env} {mm : Option Nat} {s s2 : State} {n p : Nat}
    (hrun : malloc fuel env mm s n = some (s2, p)) (hp : p ≠ 0) :
    HEADER_SIZE ≤ p ∧ (block_at s2.heap (p - HEADER_SIZE)).usage = real_size n := by
  unfold malloc at hrun
  simp only at hrun
  cases hre : reuse fuel env s (wadd (round_size n) HEADER_SIZE) with
  | none => rw [hre] at hrun; exact absurd hrun (by simp)
  | some r =>
    obtain ⟨s1, q⟩ := r
    rw [hre] at hrun
    simp only at hrun
    by_cases hq : q = 0
    · rw [if_neg (not_not.2 hq)] at hrun
      cases hmm : mmap (region_size_of env.page_size (wadd (round_size n) HEADER_SIZE)) mm with
      | none =>
        rw [hmm] at hrun
        simp only [Option.some.injEq, Prod.mk.injEq] at hrun
        exact absurd hrun.2.symm hp
      | some block =>
        rw [hmm] at hrun
        simp only at hrun
        by_cases hg : s1.g_head = 0
        · rw [if_pos hg] at hrun
          simp only [Option.some.injEq, Prod.mk.injEq] at hrun
          obtain ⟨rfl, rfl⟩ := hrun
          refine ⟨Nat.le_add_left _ _, ?_⟩
          rw [Nat.add_sub_cancel]
          split <;> simp [scribbler, block_at, store, real_size]
        · rw [if_neg hg] at hrun
          cases hap : append_loop block fuel
              (store s1.heap block
                { alloc_id := s1.g_allocations
                  size := region_size_of env.page_size (wadd (round_size n) HEADER_SIZE)
                  usage := wadd (round_size n) HEADER_SIZE
                  region_start := block
                  region_size := region_size_of env.page_size (wadd (round_size n) HEADER_SIZE)
                  next := 0 }) s1.g_head with
          | none => rw [hap] at hrun; exact absurd hrun (by simp)
          | some h2 =>
            rw [hap] at hrun
            simp only [Option.map_some', Option.some.injEq, Prod.mk.injEq] at hrun
            obtain ⟨rfl, rfl⟩ := hrun
            refine ⟨Nat.le_add_left _ _, ?_⟩
            rw [Nat.add_sub_cancel]
            have hu := append_loop_usage block fuel _ h2 s1.g_head hap block
            have : (block_at h2 block).usage = real_size n := by
              rw [hu]; simp [block_at, store, real_size]
            split <;> simpa [scribbler] using this
    · rw [if_pos hq] at hrun
      simp only [Option.some.injEq, Prod.mk.injEq] at hrun
      obtain ⟨rfl, rfl⟩ := hrun
      refine ⟨Nat.le_add_left _ _, ?_⟩
      rw [Nat.add_sub_cancel]
      have hsp : (block_at s1.heap q).usage = real_size n := by
        unfold reuse at hre
        by_cases hg : s.g_head = 0
        · rw [if_pos hg] at hre
          simp only [Option.some.injEq, Prod.mk.injEq] at hre
          exact absurd hre.2.symm hq
        · rw [if_neg hg] at hre
          cases hsel : reuse_select fuel env s (wadd (round_size n) HEADER_SIZE) with
          | none => rw [hsel] at hre; exact absurd hre (by simp)
          | some r =>
            rw [hsel] at hre
            simp only at hre
            by_cases hr0 : r = 0
            · rw [if_pos hr0] at hre
              simp only [Option.some.injEq, Prod.mk.injEq] at hre
              exact absurd hre.2.symm hq
            · rw [if_neg hr0] at hre
              exact split_usage hre
      split <;> simpa [scribbler] using hsp

/-- C19 fails when the size computation wraps: `malloc(2^64 - 1)` on the empty chain
    rounds the size to 6 and returns a block of usage 86, that is 6 payload bytes; and
    `malloc(2^64 - 80)` after `malloc(100)` returns a non-null pointer to a block of usage 0. -/
theorem malloc_capacity_overflow_counterexample :
    ((malloc 3 env0 (some 4096) State.empty (WORD - 1)).map
        (fun r => (r.2, (block_at r.1.heap (r.2 - HEADER_SIZE)).usage)) = some (4176, 86) ∧
      86 - HEADER_SIZE < WORD - 1) ∧
    (malloc 3 env0 none one_block_state (WORD - 80)).map
        (fun r => (r.2, (block_at r.1.heap (r.2 - HEADER_SIZE)).usage)) = some (4360, 0) := by
  decide

/-- C19 (amended): for every request size `n` whose rounding plus the header does not
    wrap (`n + n mod 8 + 80 < 2^64`), in every state, whenever `malloc(n)` returns a non-null
    pointer the block it belongs to has usage `n + n mod 8 + 80 > 0`, and usage minus the
    header size is at least `n`. -/
theorem malloc_payload_capacity (fuel : Nat) (env : Env) (mm : Option Nat) (s s2 : State)
    (n p : Nat) (hn : n + n % 8 + HEADER_SIZE < WORD)
    (hrun : malloc fuel env mm s n = some (s2, p)) (hp : p ≠ 0) :
    HEADER_SIZE ≤ p ∧ 0 < (block_at s2.heap (p - HEADER_SIZE)).usage ∧
      n ≤ (block_at s2.heap (p - HEADER_SIZE)).usage - HEADER_SIZE ∧
      (block_at s2.heap (p - HEADER_SIZE)).usage = n + n % 8 + HEADER_SIZE := by
  obtain ⟨h1, h2⟩ := malloc_usage hrun hp
  rw [real_size_eq hn] at h2
  refine ⟨h1, ?_, ?_, h2⟩ <;> rw [h2] <;> unfold HEADER_SIZE <;> omega

theorem malloc_payload_capacity_witness :
    HEADER_SIZE ≤ 4176 ∧ 0 < (block_at one_block_state.heap (4176 - HEADER_SIZE)).usage ∧
      100 ≤ (block_at one_block_state.heap (4176 - HEADER_SIZE)).usage - HEADER_SIZE ∧
      (block_at one_block_state.heap (4176 - HEADER_SIZE)).usage = 100 + 100 % 8 + HEADER_SIZE :=
  malloc_payload_capacity 3 env0 (some 4096) State.empty one_block_state 100 4176 (by decide)
    one_block_run (by decide)

/-! ## The length passed to `munmap` -/

/-- After `free` the freed block is out of the chain or has usage 0. -/
theorem free_released {s : State} {l : List Nat} {a fuel : Nat} (hwf : WF s l) (ha : a ∈ l)
    (hf : l.length < fuel) :
    ∃ s2 l2, free fuel s (a + HEADER_SIZE) = some s2 ∧ WF s2 l2 ∧
      (a ∉ l2 ∨ (block_at s2.heap a).usage = 0) := by
  obtain ⟨b, hb⟩ := IsChain.mem_some hwf.chain a ha
  obtain ⟨h1, h2⟩ := free_spec hwf ha hb hf
  by_cases hex : ∃ y ∈ l, y ≠ a ∧ reg s.heap y = b.region_start ∧ (block_at s.heap y).usage ≠ 0
  · refine ⟨_, l, h1 hex, ?_, Or.inr (by simp [block_at, store])⟩
    exact @WF.update_block s _ l a b { b with usage := 0 } hwf ha hb rfl rfl rfl rfl
      (Nat.zero_le _) rfl rfl rfl
  · have hall : ∀ y ∈ l, y ≠ a → reg s.heap y = b.region_start →
        (block_at s.heap y).usage = 0 := by
      intro y hy hya hyr
      by_contra hne
      exact hex ⟨y, hy, hya, hyr, hne⟩
    obtain ⟨s2, hrun, hwf2, _⟩ := h2 hall
    refine ⟨s2, _, hrun, hwf2, Or.inl ?_⟩
    intro hmem
    have := (List.mem_filter.1 hmem).2
    simp [reg_of_some hb] at this

/-- C12 fails: in the one-block state (block 4096 of size 4096, live pointer 4176),
    `realloc(4176, 5000)` migrates (4096 < 5000 + 0 + 80) and the new block has usage 5160,
    while `malloc(5000)` in the same state gives usage 5080 = rounded 5000 plus one header:
    `realloc` hands `malloc` the size with the header already added. And when the old block
    fills its region (the state after `malloc(4016)`: `usage = size = 4096`),
    `realloc(4176, 5000)` with the new region at 16384 does not return: `memcpy` reads
    `old->usage` = 4096 bytes from 4176, past the end of the mapping at 8192. -/
theorem realloc_migrate_usage_counterexample :
    (block_at one_block_state.heap (4176 - HEADER_SIZE)).size < 5000 + 5000 % 8 + HEADER_SIZE ∧
    (realloc 3 env0 (some 8192) one_block_state 4176 5000).map
        (fun r => (r.2, (block_at r.1.heap (r.2 - HEADER_SIZE)).usage)) = some (8272, 5160) ∧
    (malloc 3 env0 (some 8192) one_block_state 5000).map
        (fun r => (r.2, (block_at r.1.heap (r.2 - HEADER_SIZE)).usage)) = some (8272, 5080) ∧
    real_size 5000 = 5080 ∧
    ((block_at full_block_state.heap (4176 - HEADER_SIZE)).size
        < 5000 + 5000 % 8 + HEADER_SIZE ∧
      (block_at full_block_state.heap (4176 - HEADER_SIZE)).usage = 4096 ∧
      readable full_block_state 4176 4096 = false ∧
      (realloc 3 env0 (some 16384) full_block_state 4176 5000).isNone = true) := by
  decide

/-- C12 (amended): in a state reachable without size overflow, for a live pointer `p`
    whose block is smaller than `n + n mod 8 + 80`, `realloc(p, n)` obtains its new block as
    `malloc` does for a request of `n + n mod 8 + 80` payload bytes; if that returns `NULL`,
    so does `realloc`; otherwise, provided that the `usage` bytes from `p` on (the range that
    `memcpy` reads) are readable, `realloc` copies them without a fault, frees the old block
    with `free(p)` and returns the new payload pointer, whose block is in the chain with
    usage equal to that request rounded once more plus one more header, and the old block is
    out of the chain or has usage 0. -/
theorem realloc_migrate (s : State) (fuel : Nat) (env : Env) (mm : Option Nat) (p n : Nat)
    (hr : Reachable s) (hlive : Live s p) (hv : ValidRequest env s mm (realloc_size n))
    (hfuel : EnoughFuel s fuel)
    (hsmall : (block_at s.heap (p - HEADER_SIZE)).size < realloc_size n)
    (hread : readable s p (block_at s.heap (p - HEADER_SIZE)).usage = true) :
    ∃ s1 q, malloc fuel env mm s (realloc_size n) = some (s1, q) ∧
      (q = 0 → realloc fuel env mm s p n = some (s1, 0)) ∧
      (q ≠ 0 → ∃ s3 l3, realloc fuel env mm s p n = some (s3, q) ∧
        memcpy s1 q p (block_at s1.heap (p - HEADER_SIZE)).usage
          = some (copy_bytes s1 q p (block_at s1.heap (p - HEADER_SIZE)).usage) ∧
        free fuel (copy_bytes s1 q p (block_at s1.heap (p - HEADER_SIZE)).usage) p = some s3 ∧
        IsChain s3.heap s3.g_head l3 ∧ HEADER_SIZE ≤ q ∧ (q - HEADER_SIZE) ∈ l3 ∧
        (block_at s3.heap (q - HEADER_SIZE)).usage
          = realloc_size n + realloc_size n % 8 + HEADER_SIZE ∧
        ((p - HEADER_SIZE) ∉ l3 ∨ (block_at s3.heap (p - HEADER_SIZE)).usage = 0)) := by
  obtain ⟨l, hwf⟩ := hr.wf
  have hf := hfuel l hwf.chain
  have hsize := realloc_size_eq hv.1
  have hsize_pos : realloc_size n ≠ 0 := by unfold realloc_size; simp [HEADER_SIZE]
  obtain ⟨hmem, hpe, hlu⟩ := live_mem hwf hlive
  have hp0 : p ≠ 0 := by
    have := hlive.1
    simp only [HEADER_SIZE] at this
    omega
  obtain ⟨ob, hob⟩ := IsChain.mem_some hwf.chain _ hmem
  have hlt : ob.size < realloc_size n := by
    rw [block_at_of_some hob] at hsmall; exact hsmall
  obtain ⟨s1, new, hrun, hres⟩ := malloc_spec hwf (Nat.lt_of_succ_lt hf) hv
  refine ⟨s1, new, hrun, ?_, ?_⟩
  · intro hnew0
    simp [realloc, hsize, hp0, hsize_pos, hob, hlt, hrun, hnew0]
  · intro hnew0
    rcases hres with ⟨e, _⟩ | ⟨nb, l2, hnew, hwf1, hnbmem, hnbu, hl2, husage, _, _⟩
    · exact absurd e hnew0
    · have hmem2 : p - HEADER_SIZE ∈ l2 := by
        rcases hl2 with ⟨e, _⟩ | ⟨_, hperm⟩
        · rw [e]; exact hmem
        · exact hperm.mem_iff.2 (List.mem_cons_of_mem _ hmem)
      have hlen2 : l2.length < fuel := by
        rcases hl2 with ⟨e, _⟩ | ⟨_, hperm⟩
        · rw [e]; omega
        · have := hperm.length_eq
          simp only [List.length_cons] at this
          omega
      have hne : nb ≠ p - HEADER_SIZE := by
        rcases hl2 with ⟨_, e0⟩ | ⟨hnot, _⟩
        · intro e; rw [e] at e0; exact hlu e0
        · intro e; rw [e] at hnot; exact hnot hmem
      obtain ⟨ob1, hob1⟩ := IsChain.mem_some hwf1.chain _ hmem2
      have hreal0 : real_size (realloc_size n)
          = realloc_size n + realloc_size n % 8 + HEADER_SIZE := real_size_eq hv.1
      have hob1u : ob1.usage = ob.usage := by
        have := husage _ hmem (Ne.symm hne)
        rwa [block_at_of_some hob1, block_at_of_some hob] at this
      have hule0 := hwf.usage_le _ hmem
      rw [block_at_of_some hob] at hule0 hread
      have hmc : memcpy s1 new p ob1.usage = some (copy_bytes s1 new p ob1.usage) := by
        refine migrate_copy hwf1 hnbmem hnew ?_ ?_
        · rw [hnbu, hreal0, hob1u]; omega
        · rw [hob1u]; exact readable_mono (malloc_mapped_mono hrun) hread
      have hwfm : WF (copy_bytes s1 new p ob1.usage) l2 := WF.congr_state hwf1 rfl rfl rfl
      have hreal : real_size (realloc_size n)
          = realloc_size n + realloc_size n % 8 + HEADER_SIZE := real_size_eq hv.1
      have hnbu2 : (block_at (copy_bytes s1 new p ob1.usage).heap nb).usage ≠ 0 := by
        show (block_at s1.heap nb).usage ≠ 0
        rw [hnbu, hreal]; simp [HEADER_SIZE]
      obtain ⟨s3, l3, hfree, hwf3, hnb3, _, bx, bx2, e1, e2, e3⟩ :=
        free_keeps_live hwfm hmem2 hnbmem hne hnbu2 hlen2
      obtain ⟨s4, l4, hfree4, hwf4, hrel⟩ := free_released hwfm hmem2 hlen2
      rw [hfree] at hfree4
      have hs : s3 = s4 := Option.some.inj hfree4
      subst hs
      have hl : l4 = l3 := IsChain.unique hwf4.chain hwf3.chain
      subst hl
      rw [← hpe] at hfree
      have hq : new - HEADER_SIZE = nb := by omega
      refine ⟨s3, l4, ?_, ?_, ?_, hwf3.chain, by omega, ?_, ?_, hrel⟩
      · simp [realloc, hsize, hp0, hsize_pos, hob, hlt, hrun, hnew0, hob1, hmc, hfree]
      · rw [block_at_of_some hob1]; exact hmc
      · rw [block_at_of_some hob1]; exact hfree
      · rw [hq]; exact hnb3
      · rw [hq, block_at_of_some e2, e3, ← hreal, ← hnbu]
        have : s1.heap nb = some bx := e1
        rw [block_at_of_some this]

theorem realloc_migrate_witness :
    ∃ s1 q, malloc 3 env0 (some 8192) one_block_state (realloc_size 5000) = some (s1, q) ∧
      (q = 0 → realloc 3 env0 (some 8192) one_block_state 4176 5000 = some (s1, 0)) ∧
      (q ≠ 0 → ∃ s3 l3, realloc 3 env0 (some 8192) one_block_state 4176 5000 = some (s3, q) ∧
        memcpy s1 q 4176 (block_at s1.heap (4176 - HEADER_SIZE)).usage
          = some (copy_bytes s1 q 4176 (block_at s1.heap (4176 - HEADER_SIZE)).usage) ∧
        free 3 (copy_bytes s1 q 4176 (block_at s1.heap (4176 - HEADER_SIZE)).usage) 4176
          = some s3 ∧
        IsChain s3.heap s3.g_head l3 ∧ HEADER_SIZE ≤ q ∧ (q - HEADER_SIZE) ∈ l3 ∧
        (block_at s3.heap (q - HEADER_SIZE)).usage
          = realloc_size 5000 + realloc_size 5000 % 8 + HEADER_SIZE ∧
        ((4176 - HEADER_SIZE) ∉ l3 ∨ (block_at s3.heap (4176 - HEADER_SIZE)).usage = 0)) :=
  realloc_migrate one_block_state 3 env0 (some 8192) 4176 5000 one_block_reachable
    one_block_live one_block_realloc_valid one_block_fuel (by decide) (by decide)

/-! ## Lock discipline -/

/-- Every path of `malloc` on which the chain scan returns follows the lock discipline. -/
theorem malloc_events_disciplined (fuel : Nat) (env : Env) (mm : Option Nat) (s : State)
    (size : Nat) (h : reuse fuel env s (real_size size) ≠ none) :
    disciplined (malloc_events fuel env mm s size) = true := by
  unfold malloc_events
  simp only
  unfold real_size at h
  cases hre : reuse fuel env s (wadd (round_size size) HEADER_SIZE) with
  | none => exact absurd hre h
  | some r =>
    obtain ⟨s1, q⟩ := r
    simp only
    by_cases hq : q = 0
    · rw [if_neg (not_not.2 hq)]
      cases mmap (region_size_of env.page_size (wadd (round_size size) HEADER_SIZE)) mm <;> rfl
    · rw [if_pos hq]; rfl

/-- Every path of `free` on which `munmap` succeeds (or is not called) and the region scan
    returns follows the lock discipline. -/
theorem free_events_disciplined (fuel : Nat) (s s2 : State) (ptr : Nat) (ret : Int)
    (hret : ret ≠ -1) (h : free fuel s ptr = some s2) :
    disciplined (free_events fuel s ptr ret) = true := by
  unfold free at h
  unfold free_events
  by_cases hp : ptr = 0
  · rw [if_pos hp]; rfl
  · rw [if_neg hp] at h ⊢
    simp only at h ⊢
    cases hb : s.heap (ptr - HEADER_SIZE) with
    | none => rw [hb] at h; exact absurd h (by simp)
    | some b =>
      rw [hb] at h
      simp only at h ⊢
      cases hl : store s.heap (ptr - HEADER_SIZE) { b with usage := 0 } b.region_start with
      | none => rw [hl] at h; exact absurd h (by simp)
      | some ldr =>
        rw [hl] at h
        simp only at h ⊢
        cases hs : scan_loop (store s.heap (ptr - HEADER_SIZE) { b with usage := 0 })
            b.region_start fuel b.region_start ldr.next with
        | none => rw [hs] at h; exact absurd h (by simp)
        | some r =>
          cases r with
          | in_use => rfl
          | all_free next =>
            simp only
            rw [if_neg hret]; rfl

/-- C13, divergence: two paths break the lock discipline. When `munmap` fails, `free`
    unlocks inside `if (ret == -1)` and again at the end of the function, so the second
    unlock happens while the mutex is not held. The in-place path of `realloc` reads
    `old->size` and writes `old->usage` without ever taking the mutex. (The mapping-failure
    path of `malloc` and the successful unmapping path of `free` follow the discipline.) -/
theorem lock_discipline_broken :
    free_events 3 one_block_state 4176 (-1)
      = [Event.lock, Event.access, Event.access, Event.unlock, Event.unlock] ∧
    disciplined (free_events 3 one_block_state 4176 (-1)) = false ∧
    realloc_events 3 env0 none one_block_state 4176 8 0 = [Event.access, Event.access] ∧
    disciplined (realloc_events 3 env0 none one_block_state 4176 8 0) = false ∧
    disciplined (malloc_events 3 env0 none State.empty 100) = true ∧
    disciplined (free_events 3 one_block_state 4176 0) = true := by
  decide

/-! ## Invariants of the reachable states -/

/-- The state after `malloc(100)` and `malloc(100)` on the empty chain. -/
theorem two_block_reachable :
    Reachable ((malloc 3 env0 none one_block_state 100).getD (State.empty, 0)).1 :=
  Reachable.malloc one_block_state _ 3 env0 none 100 4360 one_block_reachable
    ⟨by decide, by decide, by decide, fun a ha => absurd ha (by simp)⟩ one_block_fuel rfl

theorem split_region_chain :
    IsChain split_region_state.heap split_region_state.g_head [4096, 4280] :=
  ⟨rfl, by decide, _, rfl, rfl, by decide, _, rfl, rfl⟩

theorem split_region_reachable : Reachable split_region_state := by
  refine Reachable.free _ split_region_state 4 4176 two_block_reachable ?_ ?_ rfl
  · exact ⟨by decide, [4096, 4280], ⟨rfl, by decide, _, rfl, rfl, by decide, _, rfl, rfl⟩,
      by decide, by decide⟩
  · intro l hc
    have : l = [4096, 4280] :=
      IsChain.unique hc ⟨rfl, by decide, _, rfl, rfl, by decide, _, rfl, rfl⟩
    subst this
    decide

/-- C14 (invariant I1): in every state reachable from the empty chain by `malloc`,
    `free`, `calloc` and `realloc` on valid pointers without size overflow, the chain is a
    null-terminated list and every block in it has `usage ≤ size`, so the unsigned subtraction
    `size - usage` of the placement scans is the true difference and never wraps. -/
theorem usage_le_size (s : State) (hr : Reachable s) :
    ∃ l, IsChain s.heap s.g_head l ∧
      ∀ a ∈ l, ∃ b, s.heap a = some b ∧ b.usage ≤ b.size ∧
        wsub b.size b.usage = b.size - b.usage := by
  obtain ⟨l, hwf⟩ := hr.wf
  refine ⟨l, hwf.chain, ?_⟩
  intro a ha
  obtain ⟨b, hb⟩ := IsChain.mem_some hwf.chain a ha
  have h1 := hwf.usage_le a ha
  have h2 := hwf.size_lt ha
  rw [block_at_of_some hb] at h1 h2
  exact ⟨b, hb, h1, wsub_eq_sub h1 h2⟩

theorem usage_le_size_witness :
    ∃ l, IsChain one_block_state.heap one_block_state.g_head l ∧
      ∀ a ∈ l, ∃ b, one_block_state.heap a = some b ∧ b.usage ≤ b.size ∧
        wsub b.size b.usage = b.size - b.usage :=
  usage_le_size one_block_state one_block_reachable

/-- C16, as the claim states it, fails when a size computation wraps: three calls
    `malloc(4016)` map the regions 8192, 4096 and 12288 (chain 8192, 4096, 12288, each block
    filling its region); `malloc(2^64 - 80)` has `real_size` 0, `firstFit(0)` accepts the head
    block 8192, and case B of `split` writes the new header at 8192 + 4096 = 12288, on top of
    the leader of the third region, with `region_start` 8192 and `next` 4096, and links it
    behind 8192. Walking the chain from the head then visits 8192, 12288, 4096, 12288, ...:
    the block 4096 of another region lies between blocks whose `region_start` is 8192. -/
theorem region_interleaved_overflow_counterexample :
    interleaved_trace.map (fun s => s.g_head) = some 8192 ∧
    interleaved_trace.bind (fun s => s.heap 8192)
      = some { alloc_id := 0, size := 4096, usage := 4096, region_start := 8192,
               region_size := 4096, next := 12288 } ∧
    interleaved_trace.bind (fun s => s.heap 12288)
      = some { alloc_id := 3, size := 0, usage := 0, region_start := 8192,
               region_size := 4096, next := 4096 } ∧
    interleaved_trace.bind (fun s => s.heap 4096)
      = some { alloc_id := 1, size := 4096, usage := 4096, region_start := 4096,
               region_size := 4096, next := 12288 } := by
  decide

/-- C16 (invariant I3, amended): in every state reachable from the empty chain by `malloc`,
    `free` and `realloc` on valid pointers with requests that do not wrap `size_t`, for
    every block `a` of the chain the blocks that share its `region_start` occupy consecutive
    positions: the chain is `pre ++ leader :: run ++ post`, where the leader is the block
    `region_start` points to and leads itself, every block of `run` has the same
    `region_start`, and no block of `pre` or `post` has it. -/
theorem region_blocks_contiguous (s : State) (hr : Reachable s) :
    ∃ l, IsChain s.heap s.g_head l ∧
      ∀ a ∈ l, ∃ pre run post, l = pre ++ (reg s.heap a :: run) ++ post ∧
        reg s.heap (reg s.heap a) = reg s.heap a ∧
        (∀ x ∈ run, reg s.heap x = reg s.heap a) ∧
        (∀ x ∈ pre, reg s.heap x ≠ reg s.heap a) ∧
        (∀ x ∈ post, reg s.heap x ≠ reg s.heap a) := by
  obtain ⟨l, hwf⟩ := hr.wf
  refine ⟨l, hwf.chain, ?_⟩
  intro a ha
  obtain ⟨hmem, hlead⟩ := hwf.leader a ha
  obtain ⟨pre, run, post, e, h1, h2, h3, _⟩ :=
    region_run (IsChain.nodup hwf.chain) hwf.runs hmem hlead
      (IsChain.mem_ne_zero hwf.chain _ hmem)
  exact ⟨pre, run, post, e, hlead, h2, h1, h3⟩

theorem region_blocks_contiguous_witness :
    ∃ l, IsChain split_region_state.heap split_region_state.g_head l ∧
      ∀ a ∈ l, ∃ pre run post, l = pre ++ (reg split_region_state.heap a :: run) ++ post ∧
        reg split_region_state.heap (reg split_region_state.heap a)
          = reg split_region_state.heap a ∧
        (∀ x ∈ run, reg split_region_state.heap x = reg split_region_state.heap a) ∧
        (∀ x ∈ pre, reg split_region_state.heap x ≠ reg split_region_state.heap a) ∧
        (∀ x ∈ post, reg split_region_state.heap x ≠ reg split_region_state.heap a) :=
  region_blocks_contiguous split_region_state split_region_reachable

/-! ## Tiling of the regions -/

theorem Tiled.of_same_shape {h h2 : Heap} : ∀ {l : List Nat} {c f : Nat}, Tiled h c f l →
    (∀ x ∈ l, (block_at h2 x).size = (block_at h x).size ∧ reg h2 x = reg h x ∧
      (block_at h2 x).region_size = (block_at h x).region_size) → Tiled h2 c f l
  | [], _, _, ht, _ => ht
  | a :: l, c, f, ht, hs => by
    obtain ⟨e1, e2, e3⟩ := hs a (List.mem_cons_self _ _)
    have hrest : ∀ x ∈ l, (block_at h2 x).size = (block_at h x).size ∧ reg h2 x = reg h x ∧
        (block_at h2 x).region_size = (block_at h x).region_size :=
      fun x hx => hs x (List.mem_cons_of_mem _ hx)
    simp only [Tiled] at ht ⊢
    rw [e1, e2, e3]
    by_cases hl : reg h a = a
    · rw [if_pos hl] at ht ⊢
      exact ⟨ht.1, Tiled.of_same_shape ht.2 hrest⟩
    · rw [if_neg hl] at ht ⊢
      exact ⟨ht.1, ht.2.1, Tiled.of_same_shape ht.2.2 hrest⟩

/-- The state of the walk behind a block: its end, and the end of its region. -/
theorem Tiled.behind {h : Heap} {a : Nat} {rest : List Nat} : ∀ {pre : List Nat} {c f : Nat},
    Tiled h c f (pre ++ a :: rest) →
    Tiled h (a + (block_at h a).size) (reg h a + (block_at h a).region_size) rest
  | [], c, f, ht => by
    simp only [List.nil_append, Tiled] at ht
    by_cases hl : reg h a = a
    · rw [if_pos hl] at ht
      rw [hl]; exact ht.2
    · rw [if_neg hl] at ht
      rw [ht.2.1]; exact ht.2.2
  | x :: pre, c, f, ht => by
    simp only [List.cons_append, Tiled] at ht
    by_cases hl : reg h x = x
    · rw [if_pos hl] at ht
      exact Tiled.behind ht.2
    · rw [if_neg hl] at ht
      exact Tiled.behind ht.2.2

/-- A leader in the chain is preceded by a completed region. -/
theorem Tiled.head_leader {h : Heap} {y : Nat} {rest : List Nat} {c f : Nat}
    (ht : Tiled h c f (y :: rest)) (hy : reg h y = y) :
    c = f ∧ Tiled h (y + (block_at h y).size) (y + (block_at h y).region_size) rest := by
  simp only [Tiled] at ht
  rw [if_pos hy] at ht
  exact ht

theorem Tiled.append_leader {h : Heap} {a : Nat} (ha : reg h a = a)
    (hsz : (block_at h a).size = (block_at h a).region_size) :
    ∀ {l : List Nat} {c f : Nat}, Tiled h c f l → Tiled h c f (l ++ [a])
  | [], c, f, ht => by
    simp only [Tiled] at ht
    simp only [List.nil_append, Tiled]
    rw [if_pos ha, hsz]
    exact ⟨ht, rfl⟩
  | x :: l, c, f, ht => by
    simp only [List.cons_append, Tiled] at ht ⊢
    by_cases hl : reg h x = x
    · rw [if_pos hl] at ht ⊢
      exact ⟨ht.1, Tiled.append_leader ha hsz ht.2⟩
    · rw [if_neg hl] at ht ⊢
      exact ⟨ht.1, ht.2.1, Tiled.append_leader ha hsz ht.2.2⟩

/-- Taking a whole region out of the chain keeps the tiling. -/
theorem Tiled.remove_run {h : Heap} {rs : Nat} {run post : List Nat} (hrs : reg h rs = rs)
    (hpost : ∀ y, post.head? = some y → reg h y = y) :
    ∀ {pre : List Nat} {c f : Nat}, Tiled h c f (pre ++ (rs :: run) ++ post) →
      Tiled h c f (pre ++ post)
  | [], c, f, ht => by
    simp only [List.nil_append, List.cons_append] at ht ⊢
    obtain ⟨hcf, hrest⟩ := Tiled.head_leader ht hrs
    cases post with
    | nil => exact hcf
    | cons y rest =>
      have hy := hpost y rfl
      have hb := Tiled.behind hrest
      simp only [Tiled]
      rw [if_pos hy]
      rw [hy] at hb
      exact ⟨hcf, hb⟩
  | x :: pre, c, f, ht => by
    simp only [List.cons_append, Tiled, List.append_assoc] at ht ⊢
    by_cases hl : reg h x = x
    · rw [if_pos hl] at ht ⊢
      refine ⟨ht.1, ?_⟩
      have := @Tiled.remove_run h rs run post hrs hpost pre _ _
        (by simpa [List.append_assoc] using ht.2)
      exact this
    · rw [if_neg hl] at ht ⊢
      refine ⟨ht.1, ht.2.1, ?_⟩
      exact @Tiled.remove_run h rs run post hrs hpost pre _ _
        (by simpa [List.append_assoc] using ht.2.2)

/-- The sizes of the blocks behind a leader add up to the end of the region. -/
theorem Tiled.sum_run {h : Heap} {post : List Nat}
    (hpost : ∀ y, post.head? = some y → reg h y = y) :
    ∀ {run : List Nat} {c f : Nat}, (∀ x ∈ run, reg h x ≠ x) → Tiled h c f (run ++ post) →
      c + (run.map (fun x => (block_at h x).size)).sum = f
  | [], c, f, _, ht => by
    simp only [List.nil_append] at ht
    simp only [List.map_nil, List.sum_nil, Nat.add_zero]
    cases post with
    | nil => exact ht
    | cons y rest => exact (Tiled.head_leader ht (hpost y rfl)).1
  | x :: run, c, f, hnl, ht => by
    simp only [List.cons_append, Tiled] at ht
    rw [if_neg (hnl x (List.mem_cons_self _ _))] at ht
    have ih := @Tiled.sum_run h post hpost run _ _
      (fun y hy => hnl y (List.mem_cons_of_mem _ hy)) ht.2.2
    simp only [List.map_cons, List.sum_cons]
    omega

theorem Tiled.cons_leader {h : Heap} {a : Nat} {l : List Nat} {c f : Nat} (ha : reg h a = a) :
    Tiled h c f (a :: l) ↔
      c = f ∧ Tiled h (a + (block_at h a).size) (a + (block_at h a).region_size) l := by
  simp only [Tiled]
  rw [if_pos ha]

theorem Tiled.cons_follower {h : Heap} {a : Nat} {l : List Nat} {c f : Nat}
    (ha : reg h a ≠ a) :
    Tiled h c f (a :: l) ↔
      a = c ∧ reg h a + (block_at h a).region_size = f ∧
        Tiled h (a + (block_at h a).size) f l := by
  simp only [Tiled]
  rw [if_neg ha]

/-- Carving a block from the tail of `r` keeps the tiling: `r` shrinks to its usage and the
    new block takes the rest. -/
theorem Tiled.carve {h h2 : Heap} {r new : Nat} {post : List Nat}
    (hpos : new = r + (block_at h2 r).size)
    (hsz : (block_at h2 r).size + (block_at h2 new).size = (block_at h r).size)
    (hr1 : reg h2 r = reg h r)
    (hr2 : (block_at h2 r).region_size = (block_at h r).region_size)
    (hn1 : reg h2 new = reg h r)
    (hn2 : (block_at h2 new).region_size = (block_at h r).region_size)
    (hnl : reg h r ≠ new)
    (hother : ∀ x, x ≠ r → x ≠ new → block_at h2 x = block_at h x)
    (hrpost : r ∉ post) (hnpost : new ∉ post) :
    ∀ {pre : List Nat} {c f : Nat}, r ∉ pre → new ∉ pre → Tiled h c f (pre ++ r :: post) →
      Tiled h2 c f (pre ++ r :: new :: post)
  | [], c, f, _, _, ht => by
    have hpost2 : ∀ {c2 f2 : Nat}, Tiled h c2 f2 post → Tiled h2 c2 f2 post := by
      intro c2 f2 ht2
      refine Tiled.of_same_shape ht2 ?_
      intro x hx
      have e := hother x (fun e => hrpost (e ▸ hx)) (fun e => hnpost (e ▸ hx))
      simp only [reg, e, and_self]
    have hnl2 : reg h2 new ≠ new := by rw [hn1]; exact hnl
    have hend : new + (block_at h2 new).size = r + (block_at h r).size := by omega
    simp only [List.nil_append] at ht ⊢
    by_cases hl : reg h r = r
    · have hl2 : reg h2 r = r := by rw [hr1]; exact hl
      rw [Tiled.cons_leader hl] at ht
      rw [Tiled.cons_leader hl2, Tiled.cons_follower hnl2, hn1, hn2, hr2, hend]
      exact ⟨ht.1, hpos, by rw [hl], hpost2 ht.2⟩
    · have hl2 : reg h2 r ≠ r := by rw [hr1]; exact hl
      rw [Tiled.cons_follower hl] at ht
      rw [Tiled.cons_follower hl2, Tiled.cons_follower hnl2, hn1, hn2, hr1, hr2, hend]
      exact ⟨ht.1, ht.2.1, hpos, ht.2.1, hpost2 ht.2.2⟩
  | x :: pre, c, f, hrpre, hnpre, ht => by
    have hxr : x ≠ r := fun e => hrpre (e ▸ List.mem_cons_self _ _)
    have hxn : x ≠ new := fun e => hnpre (e ▸ List.mem_cons_self _ _)
    have e := hother x hxr hxn
    have ereg : reg h2 x = reg h x := by simp only [reg, e]
    simp only [List.cons_append, Tiled] at ht ⊢
    rw [ereg, e]
    have hrpre2 : r ∉ pre := fun hm => hrpre (List.mem_cons_of_mem _ hm)
    have hnpre2 : new ∉ pre := fun hm => hnpre (List.mem_cons_of_mem _ hm)
    by_cases hl : reg h x = x
    · rw [if_pos hl] at ht ⊢
      exact ⟨ht.1, Tiled.carve hpos hsz hr1 hr2 hn1 hn2 hnl hother hrpost hnpost hrpre2 hnpre2
        ht.2⟩
    · rw [if_neg hl] at ht ⊢
      exact ⟨ht.1, ht.2.1,
        Tiled.carve hpos hsz hr1 hr2 hn1 hn2 hnl hother hrpost hnpost hrpre2 hnpre2 ht.2.2⟩

theorem leaders_append (h : Heap) (l1 l2 : List Nat) :
    leaders h (l1 ++ l2) = leaders h l1 ++ leaders h l2 := by
  simp [leaders]

theorem leaders_congr_shape {h h2 : Heap} {l : List Nat}
    (hs : ∀ x ∈ l, reg h2 x = reg h x ∧
      (block_at h2 x).region_size = (block_at h x).region_size) :
    leaders h2 l = leaders h l := by
  induction l with
  | nil => rfl
  | cons a l ih =>
    obtain ⟨e1, e2⟩ := hs a (List.mem_cons_self _ _)
    have ih2 := ih (fun x hx => hs x (List.mem_cons_of_mem _ hx))
    unfold leaders at ih2 ⊢
    simp only [List.filter_cons, e1]
    by_cases hl : reg h a = a
    · simp only [hl, decide_True, if_true, List.map_cons, e2, ih2]
    · simp only [hl, decide_False, Bool.false_eq_true, if_false, ih2]

theorem leaders_eq_nil {h : Heap} {l : List Nat} (hs : ∀ x ∈ l, reg h x ≠ x) :
    leaders h l = [] := by
  unfold leaders
  rw [List.filter_eq_nil_iff.2]
  · rfl
  · intro x hx
    simpa using hs x hx

theorem leaders_single {h : Heap} {a : Nat} (ha : reg h a = a) :
    leaders h [a] = [(a, (block_at h a).region_size)] := by
  simp [leaders, ha]

theorem mem_leaders {h : Heap} {l : List Nat} {m : Nat × Nat} (hm : m ∈ leaders h l) :
    m.1 ∈ l ∧ reg h m.1 = m.1 := by
  unfold leaders at hm
  obtain ⟨a, ha, rfl⟩ := List.mem_map.1 hm
  obtain ⟨h1, h2⟩ := List.mem_filter.1 ha
  exact ⟨h1, by simpa using h2⟩

theorem Layout.congr_shape {s s2 : State} {l : List Nat} (hlay : Layout s l)
    (hs : ∀ x ∈ l, (block_at s2.heap x).size = (block_at s.heap x).size ∧
      reg s2.heap x = reg s.heap x ∧
      (block_at s2.heap x).region_size = (block_at s.heap x).region_size)
    (hm : s2.mapped = s.mapped) : Layout s2 l where
  tiled := Tiled.of_same_shape hlay.tiled hs
  order := by
    rw [hm, ← hlay.order]
    exact leaders_congr_shape (fun x hx => ⟨(hs x hx).2.1, (hs x hx).2.2⟩)

theorem Layout.of_same_heap {s s2 : State} {l : List Nat} (hlay : Layout s l)
    (h1 : s2.heap = s.heap) (h3 : s2.mapped = s.mapped) : Layout s2 l :=
  Layout.congr_shape hlay (fun x _ => by rw [h1]; exact ⟨rfl, rfl, rfl⟩) h3

theorem Layout.of_update {s s2 : State} {l : List Nat} {a : Nat} {b b2 : mem_block}
    (hlay : Layout s l) (hb : s.heap a = some b)
    (hsz : b2.size = b.size) (hrs : b2.region_start = b.region_start)
    (hrl : b2.region_size = b.region_size)
    (hheap : s2.heap = store s.heap a b2) (hmapped : s2.mapped = s.mapped) : Layout s2 l := by
  refine Layout.congr_shape hlay ?_ hmapped
  intro x _
  rw [hheap]
  by_cases hx : x = a
  · subst hx
    simp only [reg, block_at_store_same, block_at_of_some hb, hsz, hrs, hrl, and_self]
  · simp only [reg, block_at_store_ne _ _ hx, and_self]

theorem Layout.init : Layout State.empty [] where
  tiled := rfl
  order := rfl

/-- The carving case of `split` keeps the layout. -/
theorem split_carve_layout {s s2 : State} {l l2 : List Nat} {r size g : Nat} {p : mem_block}
    (hwf : WF s l) (hlay : Layout s l) (hr : r ∈ l) (hp : s.heap r = some p)
    (hu : p.usage ≠ 0) (hnotin : (r + p.usage) ∉ l)
    (hheap : s2.heap = store (store s.heap (r + p.usage)
          { alloc_id := g, size := p.size - p.usage, usage := size,
            region_start := p.region_start, region_size := p.region_size, next := p.next })
        r { p with size := p.usage, next := r + p.usage })
    (hhead : s2.g_head = s.g_head) (hmapped : s2.mapped = s.mapped) (hwf2 : WF s2 l2) :
    Layout s2 l2 := by
  have hule := hwf.usage_le r hr
  have hin := hwf.inside r hr
  rw [block_at_of_some hp] at hule
  rw [reg_of_some hp] at hin
  have hnd := IsChain.nodup hwf.chain
  obtain ⟨pre, post, rfl⟩ := List.append_of_mem hr
  have hnr : r + p.usage ≠ r := by omega
  have hrpre : r ∉ pre := by
    intro hm
    have := (List.nodup_append.1 hnd).2.2
    exact this hm (List.mem_cons_self _ _)
  have hrpost : r ∉ post := by
    have := (List.nodup_append.1 hnd).2.1
    exact (List.nodup_cons.1 this).1
  have hnpre : r + p.usage ∉ pre := fun hm => hnotin (List.mem_append_left _ hm)
  have hnpost : r + p.usage ∉ post :=
    fun hm => hnotin (List.mem_append_right _ (List.mem_cons_of_mem _ hm))
  have hc2 : IsChain s2.heap s2.g_head (pre ++ r :: (r + p.usage) :: post) := by
    rw [hheap, hhead]
    exact IsChain.insert_after hwf.chain hp hnotin (by omega) rfl rfl
  have hl2 : l2 = pre ++ r :: (r + p.usage) :: post := IsChain.unique hwf2.chain hc2
  subst hl2
  have e_r : block_at s2.heap r = { p with size := p.usage, next := r + p.usage } := by
    rw [hheap, block_at_store_same]
  have e_n : block_at s2.heap (r + p.usage)
      = { alloc_id := g, size := p.size - p.usage, usage := size,
          region_start := p.region_start, region_size := p.region_size, next := p.next } := by
    rw [hheap, block_at_store_ne _ _ hnr, block_at_store_same]
  have e_o : ∀ x, x ≠ r → x ≠ r + p.usage → block_at s2.heap x = block_at s.heap x := by
    intro x h1 h2
    rw [hheap, block_at_store_ne _ _ h1, block_at_store_ne _ _ h2]
  have hnl : reg s.heap r ≠ r + p.usage := by rw [reg_of_some hp]; omega
  have hnl2 : reg s2.heap (r + p.usage) ≠ r + p.usage := by
    simp only [reg, e_n]; omega
  constructor
  · refine Tiled.carve ?_ ?_ ?_ ?_ ?_ ?_ hnl e_o hrpost hnpost hrpre hnpre hlay.tiled
    · rw [e_r]
    · rw [e_r, e_n, block_at_of_some hp]; simp only; omega
    · simp only [reg, e_r, block_at_of_some hp]
    · rw [e_r, block_at_of_some hp]
    · simp only [reg, e_n, block_at_of_some hp]
    · rw [e_n, block_at_of_some hp]
  · rw [hmapped, ← hlay.order]
    have h1 : leaders s2.heap (pre ++ r :: (r + p.usage) :: post)
        = leaders s2.heap (pre ++ r :: post) := by
      simp [leaders, List.filter_cons, hnl2]
    rw [h1]
    refine leaders_congr_shape ?_
    intro x hx
    by_cases hxr : x = r
    · subst hxr
      simp only [reg, e_r, block_at_of_some hp, and_self]
    · have hxn : x ≠ r + p.usage := fun e => hnotin (e ▸ hx)
      simp only [reg, e_o x hxr hxn, and_self]

/-- Appending a fresh region keeps the layout. -/
theorem fresh_layout {s s3 : State} {l : List Nat} {a R u g : Nat} (hlay : Layout s l)
    (hnew : s3.heap a = some
      { alloc_id := g, size := R, usage := u, region_start := a, region_size := R, next := 0 })
    (hold : ∀ x ∈ l, ∃ b b3, s.heap x = some b ∧ s3.heap x = some b3 ∧
      b3 = { b with next := b3.next })
    (hmapped : s3.mapped = s.mapped ++ [(a, R)]) : Layout s3 (l ++ [a]) := by
  have hsh : ∀ x ∈ l, (block_at s3.heap x).size = (block_at s.heap x).size ∧
      reg s3.heap x = reg s.heap x ∧
      (block_at s3.heap x).region_size = (block_at s.heap x).region_size := by
    intro x hx
    obtain ⟨b, b3, e1, e2, e3⟩ := hold x hx
    simp only [reg, block_at_of_some e1, block_at_of_some e2]
    rw [e3]
    exact ⟨rfl, rfl, rfl⟩
  have hla : reg s3.heap a = a := by rw [reg_of_some hnew]
  constructor
  · refine Tiled.append_leader hla ?_ (Tiled.of_same_shape hlay.tiled hsh)
    rw [block_at_of_some hnew]
  · rw [hmapped, ← hlay.order, leaders_append, leaders_single hla, block_at_of_some hnew]
    congr 1
    exact leaders_congr_shape (fun x hx => ⟨(hsh x hx).2.1, (hsh x hx).2.2⟩)

/-- Reclaiming a region (the second outcome of `free`) keeps the layout. -/
theorem reclaim_layout {s s2 : State} {l : List Nat} {a : Nat} {b : mem_block}
    (hwf : WF s l) (hlay : Layout s l) (ha : a ∈ l) (hb : s.heap a = some b)
    (hkeep : ∀ x ∈ l, reg s.heap x ≠ b.region_start →
      ∃ bx bx2, s.heap x = some bx ∧ s2.heap x = some bx2 ∧ bx2 = { bx with next := bx2.next })
    (hmapped : s2.mapped = s.mapped.erase (b.region_start, b.region_size)) :
    Layout s2 (l.filter (fun x => decide (reg s.heap x ≠ b.region_start))) := by
  have hra : reg s.heap a = b.region_start := reg_of_some hb
  obtain ⟨hmem, hlead⟩ := hwf.leader a ha
  rw [hra] at hmem hlead
  have hnd := IsChain.nodup hwf.chain
  obtain ⟨pre, run, post, e, hpre, hrun, hpost, hhead⟩ :=
    region_run hnd hwf.runs hmem hlead (IsChain.mem_ne_zero hwf.chain _ hmem)
  have hrun2 : ∀ x ∈ b.region_start :: run, reg s.heap x = b.region_start := by
    intro x hx
    rcases List.mem_cons.1 hx with rfl | hx
    · exact hlead
    · exact hrun x hx
  have hfil : l.filter (fun x => decide (reg s.heap x ≠ b.region_start)) = pre ++ post := by
    rw [e]; exact filter_region_eq hpre hrun2 hpost
  rw [hfil]
  have hsub : ∀ x ∈ pre ++ post, x ∈ l ∧ reg s.heap x ≠ b.region_start := by
    intro x hx
    rcases List.mem_append.1 hx with h | h
    · exact ⟨by rw [e]; simp [h], hpre x h⟩
    · exact ⟨by rw [e]; simp [h], hpost x h⟩
  have hsh : ∀ x ∈ pre ++ post, (block_at s2.heap x).size = (block_at s.heap x).size ∧
      reg s2.heap x = reg s.heap x ∧
      (block_at s2.heap x).region_size = (block_at s.heap x).region_size := by
    intro x hx
    obtain ⟨bx, bx2, e1, e2, e3⟩ := hkeep x (hsub x hx).1 (hsub x hx).2
    simp only [reg, block_at_of_some e1, block_at_of_some e2]
    rw [e3]
    exact ⟨rfl, rfl, rfl⟩
  have hrs_size : b.region_size = (block_at s.heap b.region_start).region_size := by
    have h1 := hwf.region a ha
    have h2 := hwf.region _ hmem
    rw [hra, block_at_of_some hb] at h1
    rw [hlead] at h2
    exact hwf.mapped_same_start h1 h2
  constructor
  · refine Tiled.of_same_shape ?_ hsh
    have ht := hlay.tiled
    rw [e] at ht
    exact Tiled.remove_run hlead hhead ht
  · rw [leaders_congr_shape (fun x hx => ⟨(hsh x hx).2.1, (hsh x hx).2.2⟩), hmapped,
      ← hlay.order, e, leaders_append, leaders_append, leaders_append]
    have hrunnl : ∀ x ∈ run, reg s.heap x ≠ x := by
      intro x hx hself
      have hxr : x = b.region_start := by rw [← hself]; exact hrun x hx
      rw [e] at hnd
      have h1 := (List.nodup_append.1 hnd).1
      have h2 := (List.nodup_append.1 h1).2.1
      exact (List.nodup_cons.1 h2).1 (hxr ▸ hx)
    have hcons : leaders s.heap (b.region_start :: run)
        = [(b.region_start, b.region_size)] := by
      have : b.region_start :: run = [b.region_start] ++ run := rfl
      rw [this, leaders_append, leaders_single hlead, leaders_eq_nil hrunnl, ← hrs_size]
      rfl
    rw [hcons]
    have hnot : (b.region_start, b.region_size) ∉ leaders s.heap pre := by
      intro hm
      obtain ⟨h1, h2⟩ := mem_leaders hm
      exact hpre _ h1 h2
    rw [List.append_assoc, List.erase_append_right _ hnot, List.singleton_append,
      List.erase_cons_head]

theorem split_g_head {s s2 : State} {ptr size r : Nat} (h : split s ptr size = some (s2, r)) :
    s2.g_head = s.g_head := by
  unfold split at h
  cases hp : s.heap ptr with
  | none => rw [hp] at h; exact absurd h (by simp)
  | some p =>
    rw [hp] at h
    simp only at h
    by_cases hu : p.usage = 0
    · rw [if_pos hu] at h
      simp only [Option.some.injEq, Prod.mk.injEq] at h
      obtain ⟨rfl, _⟩ := h
      rfl
    · rw [if_neg hu] at h
      simp only [Option.some.injEq, Prod.mk.injEq] at h
      obtain ⟨rfl, _⟩ := h
      rfl

/-- A call of `malloc` with a request that does not wrap keeps the state well formed and
    keeps the layout. -/
theorem malloc_layout {s s2 : State} {l : List Nat} {fuel : Nat} {env : Env} {mm : Option Nat}
    {n p : Nat} (hwf : WF s l) (hlay : Layout s l) (hf : l.length < fuel)
    (hv : ValidRequest env s mm n) (hrun : malloc fuel env mm s n = some (s2, p)) :
    ∃ l2, WF s2 l2 ∧ Layout s2 l2 := by
  obtain ⟨hno, hP, hdvd, hmm⟩ := hv
  have hreal := real_size_eq hno
  have hreal_pos : 0 < real_size n := by rw [hreal]; simp [HEADER_SIZE]
  rcases reuse_spec fuel env (real_size n) hwf.chain hf hwf.usageOk with hnull | ⟨r, hr, hfit, hre⟩
  · cases hm : mmap (region_size_of env.page_size (real_size n)) mm with
    | none =>
      have hrun2 : malloc fuel env mm s n = some (s, 0) := by
        simp only [real_size] at hnull hm
        simp [malloc, hnull, hm]
      rw [hrun2] at hrun
      simp only [Option.some.injEq, Prod.mk.injEq] at hrun
      obtain ⟨rfl, _⟩ := hrun
      exact ⟨l, hwf, hlay⟩
    | some a =>
      have hRne : region_size_of env.page_size (real_size n) ≠ 0 := by
        intro h0
        simp [mmap, h0] at hm
      have hmma : mm = some a := by simpa [mmap, hRne] using hm
      obtain ⟨ha0, hafit, hap⟩ := hmm a hmma
      have hreg := region_size_of_spec env.page_size (real_size n) hP hdvd (real_size_lt n) hRne
      have hRpos : 0 < region_size_of env.page_size (real_size n) := Nat.pos_of_ne_zero hRne
      have hnotin := fresh_not_mem hwf hRpos hap
      obtain ⟨s3, hrun3, hch, hnew, hold, hmapped, _, _⟩ :=
        malloc_fresh_eval fuel env mm s s n l a hwf.chain hf hnull hm (by omega) hnotin
      rw [hrun3] at hrun
      simp only [Option.some.injEq, Prod.mk.injEq] at hrun
      obtain ⟨rfl, _⟩ := hrun
      have hold2 : ∀ x ∈ l, ∃ b b3, s.heap x = some b ∧ s3.heap x = some b3 ∧
          b3 = { b with next := b3.next } := by
        intro x hx
        obtain ⟨b, e1, e2⟩ := hold x hx
        exact ⟨b, _, e1, e2, rfl⟩
      exact ⟨l ++ [a], fresh_wf hwf ha0 hRpos hafit hap hreg.2.1 hch hnew hold2 hmapped,
        fresh_layout hlay hnew hold2 hmapped⟩
  · obtain ⟨p0, hp⟩ := IsChain.mem_some hwf.chain r hr
    by_cases hu : p0.usage = 0
    · obtain ⟨s1, hsplit, hwf1, hheap, _, hm1, _⟩ := split_claim_wf hwf hr hp hu hfit
      have hr0 : r ≠ 0 := IsChain.mem_ne_zero hwf.chain r hr
      obtain ⟨s3, hrun3, e1, e2, e3, _, _⟩ := malloc_reuse_eval mm (hre.trans hsplit) hr0
      rw [hrun3] at hrun
      simp only [Option.some.injEq, Prod.mk.injEq] at hrun
      obtain ⟨rfl, _⟩ := hrun
      refine ⟨l, WF.congr_state hwf1 e1 e2 e3, ?_⟩
      exact Layout.of_same_heap
        (@Layout.of_update s s1 l r p0
          { p0 with alloc_id := s.g_allocations, usage := real_size n } hlay hp rfl rfl rfl
          hheap hm1) e1 e3
    · obtain ⟨s1, l2, hsplit, hwf1, hnotin, _, hheap, _, hm1, _⟩ :=
        split_carve_wf hwf hr hp hu hreal_pos hfit
      have hq0 : r + p0.usage ≠ 0 := by omega
      obtain ⟨s3, hrun3, e1, e2, e3, _, _⟩ := malloc_reuse_eval mm (hre.trans hsplit) hq0
      rw [hrun3] at hrun
      simp only [Option.some.injEq, Prod.mk.injEq] at hrun
      obtain ⟨rfl, _⟩ := hrun
      refine ⟨l2, WF.congr_state hwf1 e1 e2 e3, ?_⟩
      exact Layout.of_same_heap
        (split_carve_layout hwf hlay hr hp hu hnotin hheap (split_g_head hsplit) hm1 hwf1) e1 e3

/-- A call of `free` on a block of the chain keeps the state well formed and keeps the
    layout. -/
theorem free_layout {s s2 : State} {l : List Nat} {a fuel : Nat} (hwf : WF s l)
    (hlay : Layout s l) (ha : a ∈ l) (hf : l.length < fuel)
    (hrun : free fuel s (a + HEADER_SIZE) = some s2) :
    ∃ l2, WF s2 l2 ∧ Layout s2 l2 ∧ l2.length ≤ l.length := by
  obtain ⟨b, hb⟩ := IsChain.mem_some hwf.chain a ha
  obtain ⟨h1, h2⟩ := free_spec hwf ha hb hf
  by_cases hex : ∃ x ∈ l, x ≠ a ∧ reg s.heap x = b.region_start ∧ (block_at s.heap x).usage ≠ 0
  · have hrun2 := h1 hex
    rw [hrun2] at hrun
    have hs := Option.some.inj hrun
    subst hs
    refine ⟨l, ?_, ?_, le_refl _⟩
    · exact @WF.update_block s _ l a b { b with usage := 0 } hwf ha hb rfl rfl rfl rfl
        (Nat.zero_le _) rfl rfl rfl
    · exact @Layout.of_update s _ l a b { b with usage := 0 } hlay hb rfl rfl rfl rfl rfl
  · have hall : ∀ x ∈ l, x ≠ a → reg s.heap x = b.region_start →
        (block_at s.heap x).usage = 0 := by
      intro x hx hxa hxr
      by_contra hne
      exact hex ⟨x, hx, hxa, hxr, hne⟩
    obtain ⟨s3, hrun3, hwf3, hkeep, hmapped, _⟩ := h2 hall
    rw [hrun3] at hrun
    have hs := Option.some.inj hrun
    subst hs
    exact ⟨_, hwf3, reclaim_layout hwf hlay ha hb hkeep hmapped, List.length_filter_le _ _⟩

/-- A call of `realloc` with a request that does not wrap keeps the state well formed and
    keeps the layout. -/
theorem realloc_layout {s s2 : State} {l : List Nat} {fuel : Nat} {env : Env}
    {mm : Option Nat} {p n q : Nat} (hwf : WF s l) (hlay : Layout s l)
    (hf : l.length + 1 < fuel) (hp : p = 0 ∨ Live s p)
    (hv : ValidRequest env s mm (realloc_size n))
    (hrun : realloc fuel env mm s p n = some (s2, q)) : ∃ l2, WF s2 l2 ∧ Layout s2 l2 := by
  have hsize := realloc_size_eq hv.1
  have hsize_pos : realloc_size n ≠ 0 := by unfold realloc_size; simp [HEADER_SIZE]
  rcases hp with rfl | hlive
  · have hr : realloc fuel env mm s 0 n = malloc fuel env mm s (realloc_size n) := by
      simp only [realloc, hsize, if_true]
    rw [hr] at hrun
    exact malloc_layout hwf hlay (Nat.lt_of_succ_lt hf) hv hrun
  · obtain ⟨hmem, hpe, hlu⟩ := live_mem hwf hlive
    have hp0 : p ≠ 0 := by
      have := hlive.1
      simp only [HEADER_SIZE] at this
      omega
    obtain ⟨ob, hob⟩ := IsChain.mem_some hwf.chain _ hmem
    by_cases hlt : ob.size < realloc_size n
    · obtain ⟨s1, new, hrun1, hres⟩ := malloc_spec hwf (Nat.lt_of_succ_lt hf) hv
      obtain ⟨l1, hwf1, hlay1⟩ := malloc_layout hwf hlay (Nat.lt_of_succ_lt hf) hv hrun1
      rcases hres with ⟨hnew0, e, _⟩ | ⟨nb, l2, hnew, hwf2, _, _, hl2, _⟩
      · have hr : realloc fuel env mm s p n = some (s1, 0) := by
          simp [realloc, hsize, hp0, hsize_pos, hob, hlt, hrun1, hnew0]
        rw [hr] at hrun
        simp only [Option.some.injEq, Prod.mk.injEq] at hrun
        obtain ⟨rfl, _⟩ := hrun
        exact ⟨l1, hwf1, hlay1⟩
      · have hl : l1 = l2 := IsChain.unique hwf1.chain hwf2.chain
        subst hl
        have hmem2 : p - HEADER_SIZE ∈ l1 := by
          rcases hl2 with ⟨e, _⟩ | ⟨_, hperm⟩
          · rw [e]; exact hmem
          · exact hperm.mem_iff.2 (List.mem_cons_of_mem _ hmem)
        have hlen2 : l1.length < fuel := by
          rcases hl2 with ⟨e, _⟩ | ⟨_, hperm⟩
          · rw [e]; omega
          · have := hperm.length_eq
            simp only [List.length_cons] at this
            omega
        obtain ⟨ob1, hob1⟩ := IsChain.mem_some hwf1.chain _ hmem2
        have hnew0 : new ≠ 0 := by rw [hnew]; simp [HEADER_SIZE]
        have hr : realloc fuel env mm s p n
            = (memcpy s1 new p ob1.usage).bind
                (fun sm => (free fuel sm p).map (fun s3 => (s3, new))) := by
          simp only [realloc, hsize, hp0, if_false, hsize_pos, hob, hlt, if_true, hrun1, hnew0,
            hob1]
          cases memcpy s1 new p ob1.usage <;> rfl
        rw [hr] at hrun
        cases hmc : memcpy s1 new p ob1.usage with
        | none => rw [hmc] at hrun; exact absurd hrun (by simp)
        | some sm =>
          rw [hmc] at hrun
          obtain ⟨rfl, _, _⟩ := memcpy_some hmc
          have hwfm : WF (copy_bytes s1 new p ob1.usage) l1 := WF.congr_state hwf1 rfl rfl rfl
          have hlaym : Layout (copy_bytes s1 new p ob1.usage) l1 :=
            Layout.of_same_heap hlay1 rfl rfl
          cases hfr : free fuel (copy_bytes s1 new p ob1.usage) p with
          | none =>
            simp only [Option.some_bind, hfr, Option.map_none'] at hrun
            exact absurd hrun (by simp)
          | some s3 =>
            simp only [Option.some_bind, hfr, Option.map_some', Option.some.injEq,
              Prod.mk.injEq] at hrun
            obtain ⟨rfl, _⟩ := hrun
            have hfr2 : free fuel (copy_bytes s1 new p ob1.usage)
                (p - HEADER_SIZE + HEADER_SIZE) = some s3 := by rw [← hpe]; exact hfr
            obtain ⟨l3, hwf3, hlay3, _⟩ := free_layout hwfm hlaym hmem2 hlen2 hfr2
            exact ⟨l3, hwf3, hlay3⟩
    · have hr : realloc fuel env mm s p n = some ({ s with
          heap := (store s.heap (p - HEADER_SIZE) { ob with usage := realloc_size n }) }, p) := by
        simp only [realloc, hsize, hp0, if_false, hsize_pos, hob, hlt]
      rw [hr] at hrun
      simp only [Option.some.injEq, Prod.mk.injEq] at hrun
      obtain ⟨rfl, _⟩ := hrun
      refine ⟨l, ?_, ?_⟩
      · exact @WF.update_block s _ l _ ob { ob with usage := realloc_size n } hwf hmem hob
          rfl rfl rfl rfl (Nat.le_of_not_lt hlt) rfl rfl rfl
      · exact @Layout.of_update s _ l _ ob { ob with usage := realloc_size n } hlay hob
          rfl rfl rfl rfl rfl

/-- Every reachable state is well formed and has the layout: its chain tiles the regions,
    and the regions appear in the chain in the order in which they were mapped. -/
theorem Reachable.layout {s : State} (h : Reachable s) : ∃ l, WF s l ∧ Layout s l := by
  induction h with
  | init => exact ⟨[], WF.empty, Layout.init⟩
  | malloc s s2 fuel env mm n p _ hv hfuel hrun ih =>
    obtain ⟨l, hwf, hlay⟩ := ih
    have hf := hfuel l hwf.chain
    exact malloc_layout hwf hlay (Nat.lt_of_succ_lt hf) hv hrun
  | free s s2 fuel p _ hlive hfuel hrun ih =>
    obtain ⟨l, hwf, hlay⟩ := ih
    have hf := hfuel l hwf.chain
    obtain ⟨hmem, hpe, _⟩ := live_mem hwf hlive
    have hrun2 : MAPS.free fuel s (p - HEADER_SIZE + HEADER_SIZE) = some s2 := by
      rw [← hpe]; exact hrun
    obtain ⟨l2, hwf2, hlay2, _⟩ := free_layout hwf hlay hmem (Nat.lt_of_succ_lt hf) hrun2
    exact ⟨l2, hwf2, hlay2⟩
  | realloc s s2 fuel env mm p n q _ hp hv hfuel hrun ih =>
    obtain ⟨l, hwf, hlay⟩ := ih
    have hf := hfuel l hwf.chain
    exact realloc_layout hwf hlay hf hp hv hrun
  | calloc s s2 fuel env mm nmemb size p _ hlt hv hfuel hrun ih =>
    obtain ⟨l, hwf, hlay⟩ := ih
    have hf := hfuel l hwf.chain
    obtain ⟨s1, l3, hwf3, hcase⟩ := calloc_wf hwf (Nat.lt_of_succ_lt hf) hlt hv hrun
    rcases hcase with ⟨rfl, _, _, _, _⟩ | ⟨_, _, hm, rfl⟩
    · exact ⟨l, hwf, hlay⟩
    · obtain ⟨l1, hwf1, hlay1⟩ := malloc_layout hwf hlay (Nat.lt_of_succ_lt hf) hv hm
      exact ⟨l1, WF.congr_state hwf1 rfl rfl rfl, Layout.of_same_heap hlay1 rfl rfl⟩

/-! ## Tiling, region sums and chain order in the reachable states -/

theorem filter_region_pos {h : Heap} {rs : Nat} {pre run post : List Nat}
    (hpre : ∀ x ∈ pre, reg h x ≠ rs) (hrun : ∀ x ∈ run, reg h x = rs)
    (hpost : ∀ x ∈ post, reg h x ≠ rs) :
    (pre ++ run ++ post).filter (fun x => decide (reg h x = rs)) = run := by
  rw [List.filter_append, List.filter_append]
  have h1 : pre.filter (fun x => decide (reg h x = rs)) = [] :=
    List.filter_eq_nil_iff.2 (fun x hx => by simpa using hpre x hx)
  have h2 : post.filter (fun x => decide (reg h x = rs)) = [] :=
    List.filter_eq_nil_iff.2 (fun x hx => by simpa using hpost x hx)
  have h3 : run.filter (fun x => decide (reg h x = rs)) = run :=
    List.filter_eq_self.2 (fun x hx => by simpa using hrun x hx)
  rw [h1, h2, h3]
  simp

/-- Neighbours in the chain: the second leads a region or is in the region of the first. -/
theorem RunsFrom.neighbours {h : Heap} {a a2 : Nat} {post : List Nat} :
    ∀ {pre : List Nat} {r : Nat}, RunsFrom h r (pre ++ a :: a2 :: post) →
      reg h a2 = a2 ∨ reg h a2 = reg h a
  | [], _, hr => hr.2.1
  | _ :: _, _, hr => RunsFrom.neighbours hr.2

/-- In a well-formed state every block carries the `region_size` of its leader. -/
theorem WF.region_size_leader {s : State} {l : List Nat} (hwf : WF s l) {a : Nat}
    (ha : a ∈ l) :
    (block_at s.heap a).region_size = (block_at s.heap (reg s.heap a)).region_size := by
  obtain ⟨hmem, hlead⟩ := hwf.leader a ha
  have h1 := hwf.region a ha
  have h2 := hwf.region _ hmem
  rw [hlead] at h2
  exact hwf.mapped_same_start h1 h2

/-- C20 (tiling and non-overlap): in every state reachable from the empty chain by
    `malloc`, `free`, `realloc` (and `calloc`) on valid pointers without size overflow, the
    blocks of each region tile it in chain order. The leader of every block is in the chain,
    leads itself and sits at the start of a live mapping of length `region_size`; of two
    neighbours in the chain, if the second is not a leader it belongs to the region of the
    first and starts at the first's address plus the first's size, and if the second is a
    leader the first ends at its region's start plus `region_size`; so does the last block
    of the chain. Consequently the in-use ranges `[a, a + usage)` of two distinct blocks are
    disjoint. -/
theorem regions_tiled (s : State) (hr : Reachable s) :
    ∃ l, IsChain s.heap s.g_head l ∧
      (∀ a ∈ l, reg s.heap a ∈ l ∧ reg s.heap (reg s.heap a) = reg s.heap a ∧
        (reg s.heap a, (block_at s.heap (reg s.heap a)).region_size) ∈ s.mapped) ∧
      (∀ pre a a2 post, l = pre ++ a :: a2 :: post →
        (reg s.heap a2 ≠ a2 →
          reg s.heap a2 = reg s.heap a ∧ a2 = a + (block_at s.heap a).size) ∧
        (reg s.heap a2 = a2 →
          a + (block_at s.heap a).size
            = reg s.heap a + (block_at s.heap (reg s.heap a)).region_size)) ∧
      (∀ pre a, l = pre ++ [a] →
        a + (block_at s.heap a).size
          = reg s.heap a + (block_at s.heap (reg s.heap a)).region_size) ∧
      (∀ a ∈ l, ∀ a2 ∈ l, a ≠ a2 →
        a + (block_at s.heap a).usage ≤ a2 ∨ a2 + (block_at s.heap a2).usage ≤ a) := by
  obtain ⟨l, hwf, hlay⟩ := hr.layout
  refine ⟨l, hwf.chain, ?_, ?_, ?_, ?_⟩
  · intro a ha
    obtain ⟨hmem, hlead⟩ := hwf.leader a ha
    have h2 := hwf.region _ hmem
    rw [hlead] at h2
    exact ⟨hmem, hlead, h2⟩
  · intro pre a a2 post e
    have ha : a ∈ l := by rw [e]; simp
    have ht := hlay.tiled
    have hruns := hwf.runs
    rw [e] at ht hruns
    have hb := Tiled.behind ht
    rw [hwf.region_size_leader ha] at hb
    constructor
    · intro hnl
      rw [Tiled.cons_follower hnl] at hb
      rcases RunsFrom.neighbours hruns with h | h
      · exact absurd h hnl
      · exact ⟨h, hb.1⟩
    · intro hl
      rw [Tiled.cons_leader hl] at hb
      exact hb.1
  · intro pre a e
    have ha : a ∈ l := by rw [e]; simp
    have ht := hlay.tiled
    rw [e] at ht
    have hb := Tiled.behind ht
    rw [hwf.region_size_leader ha] at hb
    exact hb
  · intro a ha a2 ha2 hne
    have h1 := hwf.blocks_apart a ha a2 ha2 hne
    have h2 := hwf.usage_le a ha
    have h3 := hwf.usage_le a2 ha2
    unfold Apart at h1
    simp only at h1
    omega

theorem regions_tiled_witness :
    ∃ l, IsChain split_region_state.heap split_region_state.g_head l ∧
      (∀ a ∈ l, reg split_region_state.heap a ∈ l ∧
        reg split_region_state.heap (reg split_region_state.heap a)
          = reg split_region_state.heap a ∧
        (reg split_region_state.heap a,
          (block_at split_region_state.heap (reg split_region_state.heap a)).region_size)
            ∈ split_region_state.mapped) ∧
      (∀ pre a a2 post, l = pre ++ a :: a2 :: post →
        (reg split_region_state.heap a2 ≠ a2 →
          reg split_region_state.heap a2 = reg split_region_state.heap a ∧
            a2 = a + (block_at split_region_state.heap a).size) ∧
        (reg split_region_state.heap a2 = a2 →
          a + (block_at split_region_state.heap a).size
            = reg split_region_state.heap a
              + (block_at split_region_state.heap (reg split_region_state.heap a)).region_size)) ∧
      (∀ pre a, l = pre ++ [a] →
        a + (block_at split_region_state.heap a).size
          = reg split_region_state.heap a
            + (block_at split_region_state.heap (reg split_region_state.heap a)).region_size) ∧
      (∀ a ∈ l, ∀ a2 ∈ l, a ≠ a2 →
        a + (block_at split_region_state.heap a).usage ≤ a2 ∨
          a2 + (block_at split_region_state.heap a2).usage ≤ a) :=
  regions_tiled split_region_state split_region_reachable

/-- C15 fails when a size computation wraps: after `malloc(0)`, `malloc(0)` and
    `malloc(2^64 - 80)` the chain is 4096, 4176 (whose `next` is itself); both blocks have
    `region_start` 4096, the leader's `region_size` is 4096, and the sizes are 80 and 0. -/
theorem region_size_sum_overflow_counterexample :
    overflow_trace.map (fun s => s.g_head) = some 4096 ∧
    overflow_trace.bind (fun s => s.heap 4096)
      = some { alloc_id := 0, size := 80, usage := 80, region_start := 4096,
               region_size := 4096, next := 4176 } ∧
    overflow_trace.bind (fun s => s.heap 4176)
      = some { alloc_id := 2, size := 0, usage := 0, region_start := 4096,
               region_size := 4096, next := 4176 } ∧
    overflow_trace.map
        (fun s => decide ((block_at s.heap 4096).size + (block_at s.heap 4176).size
          = (block_at s.heap 4096).region_size)) = some false := by
  decide

/-- C15 (invariant I4, amended): in every state reachable from the empty chain by
    `malloc`, `free`, `realloc` (and `calloc`) on valid pointers with requests that do not
    wrap `size_t`, for every region leader `a` in the chain the sizes of the blocks whose
    `region_start` is `a` add up to the `region_size` of `a`. -/
theorem region_size_sum (s : State) (hr : Reachable s) :
    ∃ l, IsChain s.heap s.g_head l ∧
      ∀ a ∈ l, reg s.heap a = a →
        ((l.filter (fun x => decide (reg s.heap x = a))).map
          (fun x => (block_at s.heap x).size)).sum = (block_at s.heap a).region_size := by
  obtain ⟨l, hwf, hlay⟩ := hr.layout
  refine ⟨l, hwf.chain, ?_⟩
  intro a ha hlead
  have hnd := IsChain.nodup hwf.chain
  obtain ⟨pre, run, post, e, hpre, hrun, hpost, hhead⟩ :=
    region_run hnd hwf.runs ha hlead (IsChain.mem_ne_zero hwf.chain _ ha)
  have hrun2 : ∀ x ∈ a :: run, reg s.heap x = a := by
    intro x hx
    rcases List.mem_cons.1 hx with rfl | hx
    · exact hlead
    · exact hrun x hx
  have hfil : l.filter (fun x => decide (reg s.heap x = a)) = a :: run := by
    rw [e]; exact filter_region_pos hpre hrun2 hpost
  have hrunnl : ∀ x ∈ run, reg s.heap x ≠ x := by
    intro x hx hself
    have hxr : x = a := by rw [← hself]; exact hrun x hx
    rw [e] at hnd
    have h1 := (List.nodup_append.1 hnd).1
    have h2 := (List.nodup_append.1 h1).2.1
    exact (List.nodup_cons.1 h2).1 (hxr ▸ hx)
  have ht := hlay.tiled
  rw [e, List.append_assoc, List.cons_append] at ht
  have hb := Tiled.behind ht
  rw [hlead] at hb
  have hsum := Tiled.sum_run hhead hrunnl hb
  rw [hfil, List.map_cons, List.sum_cons]
  omega

theorem region_size_sum_witness :
    ∃ l, IsChain split_region_state.heap split_region_state.g_head l ∧
      ∀ a ∈ l, reg split_region_state.heap a = a →
        ((l.filter (fun x => decide (reg split_region_state.heap x = a))).map
          (fun x => (block_at split_region_state.heap x).size)).sum
          = (block_at split_region_state.heap a).region_size :=
  region_size_sum split_region_state split_region_reachable

/-- C17 fails: `malloc(100)`, `malloc(5000)`, `malloc(100)` on the empty chain. After
    the second call the chain holds the blocks 4096 and 8192 and there is no block at 4280;
    the third call carves the block 4280 from the first region and links it right behind
    4096, so the chain is 4096, 4280, 8192: the block created last (allocation id 2) precedes
    the block created by the second call (allocation id 1). -/
theorem creation_order_counterexample :
    creation_order_trace.map (fun t => (t.1.heap 4280, (t.1.heap 8192).map (fun b => b.alloc_id)))
      = some (none, some 1) ∧
    creation_order_trace.map (fun t => t.2.g_head) = some 4096 ∧
    creation_order_trace.bind (fun t => t.2.heap 4096)
      = some { alloc_id := 0, size := 184, usage := 184, region_start := 4096,
               region_size := 4096, next := 4280 } ∧
    creation_order_trace.bind (fun t => t.2.heap 4280)
      = some { alloc_id := 2, size := 3912, usage := 184, region_start := 4096,
               region_size := 4096, next := 8192 } ∧
    creation_order_trace.bind (fun t => t.2.heap 8192)
      = some { alloc_id := 1, size := 8192, usage := 5080, region_start := 8192,
               region_size := 8192, next := 0 } := by
  decide

/-- C17 (amended): in every state reachable from the empty chain by `malloc` and `free`
    (also `realloc` and `calloc`) on valid pointers with requests that do not wrap, the
    chain visits the regions in the order in which they were mapped (the leaders of the
    chain, in chain order, are the live mappings in mapping order), and inside a region it
    visits the blocks by increasing address: a block that is not a leader belongs to the
    region of the block in front of it and lies at a higher address. -/
theorem chain_order (s : State) (hr : Reachable s) :
    ∃ l, IsChain s.heap s.g_head l ∧ leaders s.heap l = s.mapped ∧
      ∀ pre a a2 post, l = pre ++ a :: a2 :: post → reg s.heap a2 ≠ a2 →
        reg s.heap a2 = reg s.heap a ∧ a < a2 := by
  obtain ⟨l, hwf, hlay⟩ := hr.layout
  refine ⟨l, hwf.chain, hlay.order, ?_⟩
  intro pre a a2 post e hnl
  have ha : a ∈ l := by rw [e]; simp
  have ht := hlay.tiled
  have hruns := hwf.runs
  rw [e] at ht hruns
  have hb := Tiled.behind ht
  rw [Tiled.cons_follower hnl] at hb
  have hpos := hwf.size_pos a ha
  rcases RunsFrom.neighbours hruns with h | h
  · exact absurd h hnl
  · exact ⟨h, by omega⟩

theorem chain_order_witness :
    ∃ l, IsChain split_region_state.heap split_region_state.g_head l ∧
      leaders split_region_state.heap l = split_region_state.mapped ∧
      ∀ pre a a2 post, l = pre ++ a :: a2 :: post → reg split_region_state.heap a2 ≠ a2 →
        reg split_region_state.heap a2 = reg split_region_state.heap a ∧ a < a2 :=
  chain_order split_region_state split_region_reachable

/-! ## What `free` reads of `region_size` -/

theorem HeapAgree.get_none {k : Nat} {h h2 : Heap} (hag : HeapAgree k h h2) {a : Nat}
    (ha : h a = none) : h2 a = none := by
  have := hag a
  rw [ha] at this
  cases h2a : h2 a with
  | none => rfl
  | some b2 => rw [h2a] at this; exact this.elim

theorem HeapAgree.get_some {k : Nat} {h h2 : Heap} (hag : HeapAgree k h h2) {a : Nat}
    {b : mem_block} (ha : h a = some b) :
    ∃ b2, h2 a = some b2 ∧ b2.alloc_id = b.alloc_id ∧ b2.size = b.size ∧ b2.usage = b.usage ∧
      b2.region_start = b.region_start ∧ b2.next = b.next ∧
      (a = k → b2.region_size = b.region_size) := by
  have := hag a
  rw [ha] at this
  cases h2a : h2 a with
  | none => rw [h2a] at this; exact this.elim
  | some b2 => rw [h2a] at this; exact ⟨b2, rfl, this⟩

theorem HeapAgree.chain {k : Nat} {h h2 : Heap} (hag : HeapAgree k h h2) {p : Nat}
    {l : List Nat} : IsChain h p l ↔ IsChain h2 p l := by
  constructor
  · intro hc
    refine IsChain.of_next_eq hc ?_
    intro x _ b hb
    obtain ⟨b2, e, _, _, _, _, hn, _⟩ := hag.get_some hb
    exact ⟨b2, e, hn⟩
  · intro hc
    refine IsChain.of_next_eq hc ?_
    intro x _ b2 hb2
    cases hx : h x with
    | none => rw [hag.get_none hx] at hb2; exact absurd hb2 (by simp)
    | some b =>
      obtain ⟨b3, e, _, _, _, _, hn, _⟩ := hag.get_some hx
      rw [hb2] at e
      have e2 : b2 = b3 := Option.some.inj e
      exact ⟨b, rfl, by rw [e2]; exact hn.symm⟩

end MAPS
